import Mathlib

/-!
# Verification of the `coxeter` polytope/symmetry library

A shallow embedding, over exact rationals, of the core data structures and
algorithms of the repository: fixed-tolerance vectors and matrices
(`vector.rs`, `matrix.rs`, `util.rs`), the Cayley-graph group enumerator
(`group.rs`), and the polytope arena with half-space slicing and polygon
extraction (`polytope.rs`).  The scalar type `f32` of the source is modelled
by `ℚ`; the fixed tolerance `EPSILON = 0.001` and the comparison
`(a - b).abs() < EPSILON` are carried over verbatim.
-/

namespace Cox

set_option maxRecDepth 100000

/-- `util.rs`: `EPSILON = 0.001`. -/
def EPSILON : ℚ := 1 / 1000

/-- `util.rs`: `f32_approx_eq(a, b) = (a - b).abs() < EPSILON`. -/
def approxEqQ (a b : ℚ) : Bool := |a - b| < EPSILON

theorem approxEqQ_comm (a b : ℚ) : approxEqQ a b = approxEqQ b a := by
  simp only [approxEqQ, abs_sub_comm]

theorem approxEqQ_refl (a : ℚ) : approxEqQ a a = true := by
  simp [approxEqQ, EPSILON]

/-! ## Vectors (`vector.rs`)

`Vector<f32>` is a growable list of scalars; reads past the end yield `0`
(`Vector::get` uses `unwrap_or(N::zero())`). -/

/-- `Vector<f32>`: an ordered list of scalars. -/
abbrev Vec2 := List ℚ

namespace Vec2

/-- `VectorRef::get` for `Vector`: entry `i`, or `0` past the end. -/
def get (v : Vec2) (i : ℕ) : ℚ := v.getD i 0

/-- Zero-padding used by the arithmetic operators (`pad_using`). -/
def pad (v : Vec2) (n : ℕ) : Vec2 := v ++ List.replicate (n - v.length) 0

/-- `VectorRef::dot`: zip (truncating at the shorter operand), multiply, sum. -/
def dot (a b : Vec2) : ℚ := ((a.zip b).map fun p => p.1 * p.2).sum

/-- `impl Sub for Vector` (`define_zero_padded_op!`): pad both operands with
zeros to the longer length, then subtract componentwise. -/
def sub (a b : Vec2) : Vec2 :=
  List.zipWith (· - ·) (pad a (max a.length b.length)) (pad b (max a.length b.length))

/-- `impl Add for Vector`: zero-padded componentwise addition. -/
def add (a b : Vec2) : Vec2 :=
  List.zipWith (· + ·) (pad a (max a.length b.length)) (pad b (max a.length b.length))

/-- `impl Mul<N> for Vector`: scale every component. -/
def smul (v : Vec2) (q : ℚ) : Vec2 := v.map (· * q)

/-- `impl Div<N> for Vector`: divide every component. -/
def sdiv (v : Vec2) (q : ℚ) : Vec2 := v.map (· / q)

/-- `Vector::approx_eq`: componentwise tolerance comparison over the common
(zero-padded) length. -/
def approxEq (a b : Vec2) : Bool :=
  (List.range (max a.length b.length)).all fun i => approxEqQ (get a i) (get b i)

/-- `VectorRef::mag2`: the dot product of a vector with itself. -/
def mag2 (v : Vec2) : ℚ := dot v v

theorem get_eq (v : Vec2) (i : ℕ) : get v i = v[i]?.getD 0 := by
  simp [get, List.getD_eq_getElem?_getD]

theorem get_of_le (v : Vec2) {i : ℕ} (h : v.length ≤ i) : get v i = 0 := by
  rw [get_eq, List.getElem?_eq_none h]; rfl

theorem length_pad (v : Vec2) (n : ℕ) : (pad v n).length = max v.length n := by
  simp [pad]; omega

theorem get_pad (v : Vec2) (n i : ℕ) : get (pad v n) i = get v i := by
  rw [get_eq, get_eq, pad, List.getElem?_append]
  split
  · rfl
  · rw [List.getElem?_replicate]
    rename_i h
    rw [List.getElem?_eq_none (by omega)]
    split <;> rfl

/-- Componentwise description of `sub`, valid at every index. -/
theorem get_sub (a b : Vec2) (i : ℕ) : get (sub a b) i = get a i - get b i := by
  rcases lt_or_le i (max a.length b.length) with h | h
  · rw [show get (sub a b) i = get (pad a (max a.length b.length)) i
          - get (pad b (max a.length b.length)) i from ?_, get_pad, get_pad]
    rw [get_eq, get_eq, get_eq, sub, List.getElem?_zipWith]
    have ha : i < (pad a (max a.length b.length)).length := by rw [length_pad]; omega
    have hb : i < (pad b (max a.length b.length)).length := by rw [length_pad]; omega
    rw [List.getElem?_eq_getElem ha, List.getElem?_eq_getElem hb]
    simp
  · have hz : (sub a b).length ≤ i := by
      rw [sub, List.length_zipWith, length_pad, length_pad]; omega
    rw [get_of_le _ hz, get_of_le _ (by omega), get_of_le _ (by omega)]
    ring

theorem get_add (a b : Vec2) (i : ℕ) : get (add a b) i = get a i + get b i := by
  rcases lt_or_le i (max a.length b.length) with h | h
  · rw [show get (add a b) i = get (pad a (max a.length b.length)) i
          + get (pad b (max a.length b.length)) i from ?_, get_pad, get_pad]
    rw [get_eq, get_eq, get_eq, add, List.getElem?_zipWith]
    have ha : i < (pad a (max a.length b.length)).length := by rw [length_pad]; omega
    have hb : i < (pad b (max a.length b.length)).length := by rw [length_pad]; omega
    rw [List.getElem?_eq_getElem ha, List.getElem?_eq_getElem hb]
    simp
  · have hz : (add a b).length ≤ i := by
      rw [add, List.length_zipWith, length_pad, length_pad]; omega
    rw [get_of_le _ hz, get_of_le _ (by omega), get_of_le _ (by omega)]
    ring

theorem get_smul (v : Vec2) (q : ℚ) (i : ℕ) : get (smul v q) i = get v i * q := by
  rw [get_eq, get_eq, smul, List.getElem?_map]
  rcases lt_or_le i v.length with h | h
  · rw [List.getElem?_eq_getElem h]; rfl
  · rw [List.getElem?_eq_none h]; simp

theorem get_sdiv (v : Vec2) (q : ℚ) (i : ℕ) : get (sdiv v q) i = get v i / q := by
  rw [get_eq, get_eq, sdiv, List.getElem?_map]
  rcases lt_or_le i v.length with h | h
  · rw [List.getElem?_eq_getElem h]; rfl
  · rw [List.getElem?_eq_none h]; simp

/-- The truncating `dot` as a `Finset` sum over the shorter length. -/
theorem dot_eq_sum (a b : Vec2) :
    dot a b = ∑ i ∈ Finset.range (min a.length b.length), get a i * get b i := by
  induction a generalizing b with
  | nil => simp [dot]
  | cons x xs ih =>
    cases b with
    | nil => simp [dot]
    | cons y ys =>
      have hstep : dot (x :: xs) (y :: ys) = x * y + dot xs ys := by
        simp [dot]
      rw [hstep, ih]
      have hmin : min (x :: xs).length (y :: ys).length = (min xs.length ys.length) + 1 := by
        simp [Nat.succ_min_succ]
      rw [hmin, Finset.sum_range_succ']
      simp only [get, List.getD_cons_succ, List.getD_cons_zero]
      ring

theorem length_smul (v : Vec2) (q : ℚ) : (smul v q).length = v.length := by simp [smul]

theorem length_sdiv (v : Vec2) (q : ℚ) : (sdiv v q).length = v.length := by simp [sdiv]

theorem length_add (a b : Vec2) : (add a b).length = max a.length b.length := by
  rw [add, List.length_zipWith, length_pad, length_pad]; omega

theorem length_sub (a b : Vec2) : (sub a b).length = max a.length b.length := by
  rw [sub, List.length_zipWith, length_pad, length_pad]; omega

end Vec2

/-- Sums over `List.range` are `Finset.range` sums. -/
theorem sum_map_range (f : ℕ → ℚ) (n : ℕ) :
    ((List.range n).map f).sum = ∑ i ∈ Finset.range n, f i := by
  induction n with
  | zero => simp
  | succ m ih =>
    rw [List.range_succ, List.map_append, List.sum_append, Finset.sum_range_succ, ih]
    simp

/-- A row-of-rows flat list with uniform inner length `n` has length `n * n`. -/
theorem length_flatMap_row (n : ℕ) (f : ℕ → ℕ → ℚ) :
    ((List.range n).flatMap fun x => (List.range n).map fun y => f x y).length = n * n := by
  rw [List.length_flatMap]
  have h : List.map (List.length ∘ fun x => (List.range n).map fun y => f x y) (List.range n)
      = List.replicate n n := by
    apply List.ext_getElem
    · simp
    · intro i h1 h2
      simp
  rw [h, List.sum_replicate, smul_eq_mul]

/-- Reading a row-of-rows flat list (uniform inner length `n`) at `x * n + y`. -/
theorem getD_flatMap_uniform (M n : ℕ) (g : ℕ → List ℚ) (hlen : ∀ x, (g x).length = n)
    {x y : ℕ} (hx : x < M) (hy : y < n) :
    ((List.range M).flatMap g).getD (x * n + y) 0 = (g x).getD y 0 := by
  induction M with
  | zero => omega
  | succ m ih =>
    rw [List.range_succ, List.flatMap_append]
    have hfirst : ((List.range m).flatMap g).length = m * n := by
      rw [List.length_flatMap]
      have : (List.map (List.length ∘ g) (List.range m)) = List.replicate m n := by
        apply List.ext_getElem
        · simp
        · intro i h1 h2
          simp [hlen]
      rw [this]
      simp [Nat.mul_comm]
    rcases lt_or_le x m with h | h
    · have hin : x * n + y < ((List.range m).flatMap g).length := by
        rw [hfirst]
        calc x * n + y < (x + 1) * n := by nlinarith
          _ ≤ m * n := Nat.mul_le_mul_right n h
      rw [List.getD_eq_getElem?_getD, List.getElem?_append, if_pos hin,
        ← List.getD_eq_getElem?_getD]
      exact ih h
    · have hxm : x = m := by omega
      subst hxm
      rw [List.getD_eq_getElem?_getD, List.getElem?_append_right (by omega)]
      rw [hfirst]
      simp only [List.flatMap_cons, List.flatMap_nil, List.append_nil]
      rw [show x * n + y - x * n = y from by omega, ← List.getD_eq_getElem?_getD]

/-! ## Matrices (`matrix.rs`)

`Matrix<N>` stores a declared dimension `ndim` and `ndim * ndim` elements in
column-major order; `Matrix::get(col, row)` reads stored entries in range and
otherwise falls back to the implicit identity (diagonal `1`, off-diagonal
`0`). -/

structure Matrix where
  ndim : ℕ
  elems : List ℚ
  deriving Repr, DecidableEq

namespace Matrix

/-- `Matrix::EMPTY_IDENT`: the 0-dimensional matrix. -/
def EMPTY_IDENT : Matrix := ⟨0, []⟩

/-- `Matrix::get(col, row)`: stored entry when both indices are in range,
otherwise the implicit identity entry. -/
def get (m : Matrix) (col row : ℕ) : ℚ :=
  if col < m.ndim ∧ row < m.ndim then m.elems.getD (col * m.ndim + row) 0
  else if col = row then 1 else 0

/-- `Matrix::ident(ndim)`: the zero matrix with ones written down the
diagonal; the column-major entry at `(col, row)` is `1` iff `col = row`. -/
def ident (n : ℕ) : Matrix :=
  ⟨n, (List.range n).flatMap fun col =>
    (List.range n).map fun row => if col = row then (1 : ℚ) else 0⟩

/-- `impl Mul for &Matrix` (`matrix.rs:212`): entry `(x, y)` of the product
accumulates `self.get(i, y) * rhs.get(x, i)` over the columns `i` of `self`
only (`self.cols()` enumerates `0..self.ndim`). -/
def mulEntry (a b : Matrix) (x y : ℕ) : ℚ :=
  ((List.range a.ndim).map fun i => a.get i y * b.get x i).sum

/-- `impl Mul for &Matrix`: the result has the larger of the two declared
dimensions and is filled with `mulEntry` in column-major order. -/
def mul (a b : Matrix) : Matrix :=
  ⟨max a.ndim b.ndim,
    (List.range (max a.ndim b.ndim)).flatMap fun x =>
      (List.range (max a.ndim b.ndim)).map fun y => mulEntry a b x y⟩

/-- `Matrix::approx_eq`: componentwise `f32_approx_eq` over the larger of the
two declared dimensions (using the implicit-identity extension of `get`). -/
def approxEq (a b : Matrix) : Bool :=
  (List.range (max a.ndim b.ndim)).all fun x =>
    (List.range (max a.ndim b.ndim)).all fun y => approxEqQ (a.get x y) (b.get x y)

/-- `Matrix::transform` (`matrix.rs:107`): apply the matrix to a vector, over
the larger of the matrix dimension and the vector length. -/
def transform (m : Matrix) (v : Vec2) : Vec2 :=
  (List.range (max m.ndim v.length)).map fun i =>
    ((List.range (max m.ndim v.length)).map fun j => m.get j i * Vec2.get v j).sum

theorem get_ident (n x y : ℕ) : (ident n).get x y = if x = y then 1 else 0 := by
  unfold get ident
  by_cases h : x < n ∧ y < n
  · simp only [h, and_self, if_true]
    rw [getD_flatMap_uniform n n _ (fun c => by simp) h.1 h.2]
    rcases lt_or_le y n with h2 | h2
    · rw [List.getD_eq_getElem?_getD, List.getElem?_map, List.getElem?_range h.2]
      rfl
    · omega
  · simp only [h, if_false]

theorem get_mul (a b : Matrix) (x y : ℕ) (hx : x < max a.ndim b.ndim)
    (hy : y < max a.ndim b.ndim) : (mul a b).get x y = mulEntry a b x y := by
  unfold get mul
  simp only [hx, hy, and_self, if_true]
  exact getD_flatMap_uniform _ _ _ (fun c => by simp) hx hy |>.trans <| by
    rw [List.getD_eq_getElem?_getD, List.getElem?_map, List.getElem?_range hy]
    rfl

theorem ndim_mul (a b : Matrix) : (mul a b).ndim = max a.ndim b.ndim := rfl

theorem mulEntry_eq_sum (a b : Matrix) (x y : ℕ) :
    mulEntry a b x y = ∑ i ∈ Finset.range a.ndim, a.get i y * b.get x i := by
  rw [mulEntry, sum_map_range]

theorem get_EMPTY (x y : ℕ) : EMPTY_IDENT.get x y = if x = y then 1 else 0 := by
  unfold get EMPTY_IDENT
  simp

theorem approxEq_refl (a : Matrix) : approxEq a a = true := by
  unfold approxEq
  rw [List.all_eq_true]
  intro x _
  rw [List.all_eq_true]
  intro y _
  exact approxEqQ_refl _

theorem approxEq_comm (a b : Matrix) : approxEq a b = approxEq b a := by
  unfold approxEq
  rw [Nat.max_comm b.ndim a.ndim]
  congr 1
  funext x
  congr 1
  funext y
  exact approxEqQ_comm _ _

theorem ndim_ident (n : ℕ) : (ident n).ndim = n := rfl

theorem elems_length_ident (n : ℕ) : (ident n).elems.length = n * n := by
  unfold ident
  exact length_flatMap_row n _

theorem elems_length_mul (a b : Matrix) :
    (mul a b).elems.length = (max a.ndim b.ndim) * (max a.ndim b.ndim) := by
  unfold mul
  exact length_flatMap_row _ _

/-- Comparing with the 0-dimensional `EMPTY_IDENT` is comparing with the
identity of the operand's own dimension. -/
theorem approxEq_empty (m : Matrix) (n : ℕ) (h : m.ndim = n) :
    approxEq m EMPTY_IDENT = approxEq m (ident n) := by
  unfold approxEq
  rw [show max m.ndim EMPTY_IDENT.ndim = n from by simp [EMPTY_IDENT]; omega,
    show max m.ndim (ident n).ndim = n from by rw [ndim_ident]; omega]
  congr 1
  funext x
  congr 1
  funext y
  rw [get_EMPTY, get_ident]

/-- Multiplying by the identity on the left reproduces the right operand's
entries (including the implicit-identity extension), when the identity's
dimension dominates. -/
theorem get_mul_ident_left (g : Matrix) (n : ℕ) (hg : g.ndim ≤ n) (x y : ℕ) :
    (mul (ident n) g).get x y = g.get x y := by
  have hnd : max (ident n).ndim g.ndim = n := by rw [ndim_ident]; omega
  by_cases h : x < n ∧ y < n
  · rw [get_mul _ _ _ _ (by omega) (by omega)]
    rw [mulEntry_eq_sum, ndim_ident]
    have : ∀ i ∈ Finset.range n, (ident n).get i y * g.get x i
        = if i = y then g.get x i else 0 := by
      intro i _
      rw [get_ident]
      split <;> simp
    rw [Finset.sum_congr rfl this, Finset.sum_ite_eq' (Finset.range n) y fun i => g.get x i,
      if_pos (Finset.mem_range.2 h.2)]
  · have h1 : ¬(x < (mul (ident n) g).ndim ∧ y < (mul (ident n) g).ndim) := by
      rw [ndim_mul, hnd]
      exact h
    have h2 : ¬(x < g.ndim ∧ y < g.ndim) := by omega
    unfold get
    rw [if_neg h1, if_neg h2]

/-- The product only reads the right operand through `get`, so get-equal
right operands with equal result dimension give equal products. -/
theorem mul_congr_right (a r1 r2 : Matrix) (hnd : max a.ndim r1.ndim = max a.ndim r2.ndim)
    (hget : ∀ x y, r1.get x y = r2.get x y) : mul a r1 = mul a r2 := by
  have hent : ∀ x y, mulEntry a r1 x y = mulEntry a r2 x y := by
    intro x y
    unfold mulEntry
    exact congrArg List.sum <|
      congrArg (fun f => List.map f (List.range a.ndim)) (funext fun i => by rw [hget])
  unfold mul
  rw [hnd]
  exact congrArg (Matrix.mk _) <| congrArg _ <| funext fun x =>
    congrArg (fun f => List.map f (List.range _)) (funext fun y => hent x y)

theorem mul_assoc_ident (a g : Matrix) (n : ℕ) (ha : a.ndim = n) (hg : g.ndim ≤ n) :
    mul a (mul (ident n) g) = mul a g := by
  apply mul_congr_right
  · rw [ndim_mul, ndim_ident]
    omega
  · exact get_mul_ident_left g n hg

/-- The stored element at column-major index `x * ndim + y` is `get x y`. -/
theorem getD_elems_eq_get (a : Matrix) {x y : ℕ} (hx : x < a.ndim) (hy : y < a.ndim) :
    a.elems.getD (x * a.ndim + y) 0 = a.get x y := by
  unfold get
  rw [if_pos ⟨hx, hy⟩]

/-- Stored-entry extensionality: matrices of equal dimension whose element
lists have the square length and whose in-range entries agree are equal. -/
theorem eq_of_get_eq (a b : Matrix) (hnd : a.ndim = b.ndim)
    (hla : a.elems.length = a.ndim * a.ndim) (hlb : b.elems.length = b.ndim * b.ndim)
    (hget : ∀ x y, x < a.ndim → y < a.ndim → a.get x y = b.get x y) : a = b := by
  obtain ⟨nd, el⟩ := a
  obtain ⟨nd2, el2⟩ := b
  obtain rfl : nd = nd2 := hnd
  have hel : el = el2 := by
    apply List.ext_getElem
    · have h1 : el.length = nd * nd := hla
      have h2 : el2.length = nd * nd := hlb
      rw [h1, h2]
    · intro k h1 h2
      have hk : k < nd * nd := by
        have h3 : el.length = nd * nd := hla
        omega
      have hpos : 0 < nd := by
        rcases Nat.eq_zero_or_pos nd with h | h
        · subst h; simp at hk
        · exact h
      have hx : k / nd < nd := Nat.div_lt_of_lt_mul (by omega)
      have hy : k % nd < nd := Nat.mod_lt _ hpos
      have hdecomp : (k / nd) * nd + k % nd = k := by
        rw [Nat.mul_comm]
        exact Nat.div_add_mod k nd
      have hgk := hget (k / nd) (k % nd) hx hy
      have e1 : Matrix.get ⟨nd, el⟩ (k / nd) (k % nd) = el.getD k 0 := by
        rw [← getD_elems_eq_get ⟨nd, el⟩ hx hy]
        show el.getD ((k / nd) * nd + k % nd) 0 = el.getD k 0
        rw [hdecomp]
      have e2 : Matrix.get ⟨nd, el2⟩ (k / nd) (k % nd) = el2.getD k 0 := by
        rw [← getD_elems_eq_get ⟨nd, el2⟩ hx hy]
        show el2.getD ((k / nd) * nd + k % nd) 0 = el2.getD k 0
        rw [hdecomp]
      rw [← List.getD_eq_getElem el 0 h1, ← List.getD_eq_getElem el2 0 h2, ← e1, ← e2]
      exact hgk
  exact congrArg (Matrix.mk nd) hel

/-- Multiplying on the right by the identity of the same dimension is the
identity operation. -/
theorem mul_ident_right (a : Matrix) (n : ℕ) (ha : a.ndim = n)
    (hlen : a.elems.length = n * n) : mul a (ident n) = a := by
  have hnd : (mul a (ident n)).ndim = a.ndim := by
    rw [ndim_mul, ndim_ident]
    omega
  apply eq_of_get_eq _ _ hnd
  · rw [elems_length_mul, ndim_ident, ha, Nat.max_self, hnd, ha]
  · rw [ha]; exact hlen
  · intro x y hx hy
    rw [hnd] at hx hy
    rw [get_mul _ _ _ _ (by rw [ndim_ident]; omega) (by rw [ndim_ident]; omega)]
    rw [mulEntry_eq_sum]
    have hterm : ∀ i ∈ Finset.range a.ndim,
        a.get i y * (ident n).get x i = if i = x then a.get i y else 0 := by
      intro i _
      rw [get_ident]
      by_cases hix : x = i
      · rw [if_pos hix, if_pos hix.symm, mul_one]
      · rw [if_neg hix, if_neg (fun hc => hix hc.symm), mul_zero]
    rw [Finset.sum_congr rfl hterm,
      Finset.sum_ite_eq' (Finset.range a.ndim) x (fun i => a.get i y),
      if_pos (Finset.mem_range.2 hx)]

end Matrix

/-! ## Claim C1: composing matrices of different declared dimensions

The specification asserts the product of two matrices equals the product of
their embeddings (implicit identity beyond each `ndim`) in the common larger
space.  The definition below renders the specification's words; the code's
`mul` above only sums over the left operand's stored columns. -/

/-- Modelled from the spec: the product of `a` and `b` "each embedded in the
common larger space" `max a.ndim b.ndim` with implicit identity entries —
entry `(x, y)` sums `a.get i y * b.get x i` over all `i` of the common
space (the identity extension of `Matrix::get` supplies the embedding). -/
def specEmbeddedMul (a b : Matrix) : Matrix :=
  ⟨max a.ndim b.ndim,
    (List.range (max a.ndim b.ndim)).flatMap fun x =>
      (List.range (max a.ndim b.ndim)).map fun y =>
        ((List.range (max a.ndim b.ndim)).map fun i => a.get i y * b.get x i).sum⟩

/-- C1 counterexample input: `a` is the 1×1 identity. -/
def c1A : Matrix := ⟨1, [1]⟩

/-- C1 counterexample input: `b` is 2×2 with entry `(0, 1) = 1`. -/
def c1B : Matrix := ⟨2, [0, 1, 0, 0]⟩

/-- C1 (counterexample): for `a = 1×1 identity` and `b` 2×2 with
`b.get 0 1 = 1`, the code's product has entry `(0, 1) = 0`, not `b`'s entry,
and differs from the spec's embedded product: the claim is false as stated. -/
theorem c1_counterexample :
    (Matrix.mul c1A c1B).get 0 1 = 0 ∧ c1B.get 0 1 = 1 ∧
      Matrix.mul c1A c1B ≠ specEmbeddedMul c1A c1B := by
  refine ⟨by with_unfolding_all decide, by with_unfolding_all decide,
    by with_unfolding_all decide⟩

/-- C1 (amended): whenever the left operand's declared dimension is at least
the right's, the code's product coincides (as a matrix) with the spec's
embedded product; and in the remaining case, for any row `a.ndim ≤ y <
b.ndim`, the product's entry `(x, y)` is `0` (rather than `b`'s entry as the
spec claims). -/
theorem c1_amended (a b : Matrix) :
    (b.ndim ≤ a.ndim → Matrix.mul a b = specEmbeddedMul a b) ∧
      (∀ x y : ℕ, a.ndim ≤ y → y < b.ndim → (Matrix.mul a b).get x y = 0) := by
  constructor
  · intro h
    have hmax : max a.ndim b.ndim = a.ndim := by omega
    unfold Matrix.mul specEmbeddedMul Matrix.mulEntry
    rw [hmax]
  · intro x y hy1 hy2
    have hymax : y < max a.ndim b.ndim := by omega
    rcases lt_or_le x (max a.ndim b.ndim) with hx | hx
    · rw [Matrix.get_mul a b x y hx hymax, Matrix.mulEntry_eq_sum]
      apply Finset.sum_eq_zero
      intro i hi
      rw [Finset.mem_range] at hi
      have : a.get i y = 0 := by
        unfold Matrix.get
        have h1 : ¬(i < a.ndim ∧ y < a.ndim) := by omega
        have h2 : i ≠ y := by omega
        simp [h1, h2]
      rw [this, zero_mul]
    · unfold Matrix.get
      have h1 : ¬(x < (Matrix.mul a b).ndim ∧ y < (Matrix.mul a b).ndim) := by
        rw [Matrix.ndim_mul]
        omega
      have h2 : x ≠ y := by
        have := hx
        omega
      rw [if_neg h1, if_neg h2]

/-- C1 amended, witness: at `a = c1B` (2×2) and `b = c1A` (1×1) the first
part applies; the second part applies at the original counterexample pair. -/
theorem c1_amended_witness :
    (c1B.ndim ≤ c1B.ndim ∧ Matrix.mul c1B c1B = specEmbeddedMul c1B c1B) ∧
      (c1A.ndim ≤ 1 ∧ 1 < c1B.ndim ∧ (Matrix.mul c1A c1B).get 0 1 = 0) := by
  refine ⟨⟨le_refl _, (c1_amended c1B c1B).1 (le_refl _)⟩,
    ⟨by decide, by decide, (c1_amended c1A c1B).2 0 1 (by decide) (by decide)⟩⟩

/-! ## Claim C3: the sliced-edge interpolation point lies on the hyperplane

`PolytopeArena::slice_polytope` (`polytope.rs:280-290`), `rank == 1` case. -/

/-- `polytope.rs:280-290`: the new rank-0 point created when an edge with
endpoints `a`, `b` is cut by the hyperplane of `pole`:
`(b * a_distance + a * b_distance) / (a_distance + b_distance)` with
`a_distance = (pole - a)·pole` and `b_distance = -((pole - b)·pole)`. -/
def slicePoint (pole a b : Vec2) : Vec2 :=
  let aDistance := Vec2.dot (Vec2.sub pole a) pole
  let bDistance := -(Vec2.dot (Vec2.sub pole b) pole)
  Vec2.sdiv (Vec2.add (Vec2.smul b aDistance) (Vec2.smul a bDistance))
    (aDistance + bDistance)

/-- The truncating dot of `sub x v` against `x` ranges over `x.length`. -/
theorem dot_sub_left (x v : Vec2) :
    Vec2.dot (Vec2.sub x v) x
      = ∑ i ∈ Finset.range x.length, (Vec2.get x i - Vec2.get v i) * Vec2.get x i := by
  rw [Vec2.dot_eq_sum]
  have hlen : min (Vec2.sub x v).length x.length = x.length := by
    rw [Vec2.length_sub]; omega
  rw [hlen]
  exact Finset.sum_congr rfl fun i _ => by rw [Vec2.get_sub]

/-- Pure field algebra behind the interpolation formula. -/
theorem interp_combination (P A B : ℚ) (hne : B - A ≠ 0) :
    P - ((P - A) * B + (B - P) * A) / ((P - A) + (B - P)) = 0 := by
  have h : (P - A) + (B - P) = B - A := by ring
  rw [h]
  field_simp
  ring

/-- C3 (confirmed): when endpoint `a` of an edge is kept
(`(pole - a)·pole > -ε`) and endpoint `b` is removed
(`(pole - b)·pole ≤ -ε`), the point created by `slice_polytope` satisfies
`(pole - p)·pole = 0` exactly: it lies on the slicing hyperplane. -/
theorem c3_slice_point_on_plane (pole a b : Vec2)
    (ha : -EPSILON < Vec2.dot (Vec2.sub pole a) pole)
    (hb : Vec2.dot (Vec2.sub pole b) pole ≤ -EPSILON) :
    Vec2.dot (Vec2.sub pole (slicePoint pole a b)) pole = 0 := by
  set n := pole.length with hn
  set P : ℚ := ∑ i ∈ Finset.range n, Vec2.get pole i * Vec2.get pole i with hP
  set A : ℚ := ∑ i ∈ Finset.range n, Vec2.get a i * Vec2.get pole i with hA
  set B : ℚ := ∑ i ∈ Finset.range n, Vec2.get b i * Vec2.get pole i with hB
  have hda : Vec2.dot (Vec2.sub pole a) pole = P - A := by
    rw [dot_sub_left, hP, hA, ← Finset.sum_sub_distrib]
    exact Finset.sum_congr rfl fun i _ => by ring
  have hdb : Vec2.dot (Vec2.sub pole b) pole = P - B := by
    rw [dot_sub_left, hP, hB, ← Finset.sum_sub_distrib]
    exact Finset.sum_congr rfl fun i _ => by ring
  have hEps : (0 : ℚ) < EPSILON := by norm_num [EPSILON]
  have hs : (P - A) + (B - P) ≠ 0 := by
    have h1 : -EPSILON < P - A := by rw [← hda]; exact ha
    have h2 : EPSILON ≤ B - P := by
      have := hb
      rw [hdb] at this
      linarith
    intro hcon
    nlinarith
  have hgetp : ∀ i, Vec2.get (slicePoint pole a b) i
      = (Vec2.get b i * (P - A) + Vec2.get a i * (B - P)) / ((P - A) + (B - P)) := by
    intro i
    unfold slicePoint
    rw [Vec2.get_sdiv, Vec2.get_add, Vec2.get_smul, Vec2.get_smul, hda, hdb]
    ring_nf
  rw [dot_sub_left]
  have hsum : ∑ i ∈ Finset.range n, (Vec2.get pole i - Vec2.get (slicePoint pole a b) i)
        * Vec2.get pole i
      = P - ((P - A) * B + (B - P) * A) / ((P - A) + (B - P)) := by
    have hterm : ∀ i ∈ Finset.range n,
        (Vec2.get pole i - Vec2.get (slicePoint pole a b) i) * Vec2.get pole i
          = Vec2.get pole i * Vec2.get pole i
            - ((P - A) * (Vec2.get b i * Vec2.get pole i)
               + (B - P) * (Vec2.get a i * Vec2.get pole i)) / ((P - A) + (B - P)) := by
      intro i _
      rw [hgetp i]
      field_simp
      ring
    rw [Finset.sum_congr rfl hterm, Finset.sum_sub_distrib, ← hP]
    congr 1
    rw [← Finset.sum_div]
    congr 1
    rw [Finset.sum_add_distrib, ← Finset.mul_sum, ← Finset.mul_sum, ← hA, ← hB]
  rw [hsum]
  exact interp_combination P A B (by intro hcon; apply hs; linarith)

/-- C3 witness: `pole = [1]`, `a = [0]` (kept), `b = [2]` (removed); the
interpolated point is `[1]`, exactly on the plane. -/
theorem c3_slice_point_on_plane_witness :
    -EPSILON < Vec2.dot (Vec2.sub [1] [0]) [1] ∧
      Vec2.dot (Vec2.sub [(1 : ℚ)] [2]) [1] ≤ -EPSILON ∧
      Vec2.dot (Vec2.sub [1] (slicePoint [1] [0] [2])) [1] = 0 :=
  ⟨by with_unfolding_all decide, by with_unfolding_all decide,
    c3_slice_point_on_plane [1] [0] [2] (by with_unfolding_all decide)
      (by with_unfolding_all decide)⟩

/-! ## Group enumerator (`group.rs`)

`GroupElement` handles are naturals; handle `0` is the identity.  The
Cayley-graph closure of `Group::from_generators` is modelled with an explicit
fuel for the `while` loop (the loop terminates only when the discovered
closure is finite). -/

/-- `Group` (`group.rs:5`): the element tables. -/
structure Group where
  ndim : ℕ
  generator_count : ℕ
  elem_matrices : List Matrix
  elem_decompositions : List (List ℕ)
  elem_successors : List (List ℕ)
  elem_inverses : List ℕ
  deriving Repr, DecidableEq

namespace Group

/-- `Group::matrix`. -/
def matrix (g : Group) (e : ℕ) : Matrix := g.elem_matrices.getD e Matrix.EMPTY_IDENT

/-- `Group::decompose`. -/
def decompose (g : Group) (e : ℕ) : List ℕ := g.elem_decompositions.getD e []

/-- `Group::compose` (`group.rs:118`): apply each generator of `e2`'s
decomposition to `e1` through the successor tables. -/
def compose (g : Group) (e1 e2 : ℕ) : ℕ :=
  (g.decompose e2).foldl (fun e gen => (g.elem_successors.getD (gen - 1) []).getD e 0) e1

/-- `Group::inverse`. -/
def inverse (g : Group) (e : ℕ) : ℕ := g.elem_inverses.getD e 0

/-- `Group::order`. -/
def order (g : Group) : ℕ := g.elem_matrices.length

end Group

/-- The in-progress state of `Group::from_generators`'s closure loop. -/
structure Closure where
  elem_matrices : List Matrix
  elem_decompositions : List (List ℕ)
  elem_successors : List (List ℕ)
  elem_inverses : List ℕ
  deriving Repr, DecidableEq

/-- One inner iteration of the closure loop (`group.rs:54-81`): element `e`
composed with generator `i` (0-based; its handle is `i + 1`) either closes to
the identity, hits an existing element, or discovers a new one. -/
def processGen (st : Closure) (e : ℕ) (ig : ℕ × Matrix) : Closure :=
  let i := ig.1
  let m := Matrix.mul (st.elem_matrices.getD e Matrix.EMPTY_IDENT) ig.2
  if Matrix.approxEq m Matrix.EMPTY_IDENT then
    { st with
      elem_inverses := st.elem_inverses.set (i + 1) e,
      elem_successors := st.elem_successors.set i
        (st.elem_successors.getD i [] ++ [0]) }
  else
    match (st.elem_matrices.drop 1).findIdx? (fun old => Matrix.approxEq old m) with
    | some j =>
      { st with
        elem_successors := st.elem_successors.set i
          (st.elem_successors.getD i [] ++ [j + 1]) }
    | none =>
      { st with
        elem_matrices := st.elem_matrices ++ [m],
        elem_decompositions := st.elem_decompositions
          ++ [st.elem_decompositions.getD e [] ++ [i + 1]],
        elem_successors := st.elem_successors.set i
          (st.elem_successors.getD i [] ++ [st.elem_matrices.length]) }

/-- The `for (i, generator_matrix) in generators.iter().enumerate()` loop
(`group.rs:54`), as recursion over the remaining generator count `c` with
current index `i` (`c + i = generators.len()`). -/
def processGens (gens : List Matrix) (e : ℕ) : ℕ → ℕ → Closure → Closure
  | 0, _, st => st
  | c + 1, i, st =>
    processGens gens e c (i + 1) (processGen st e (i, gens.getD i Matrix.EMPTY_IDENT))

/-- Process one unprocessed element against every generator (`group.rs:54`). -/
def processElem (gens : List Matrix) (st : Closure) (e : ℕ) : Closure :=
  processGens gens e gens.length 0 st

/-- The `while next_unprocessed < ret.order()` loop (`group.rs:51-84`),
with explicit fuel; `none` when the fuel runs out before the closure does. -/
def closureLoop (gens : List Matrix) : ℕ → ℕ → Closure → Option Closure
  | 0, _, _ => none
  | fuel + 1, e, st =>
    if e < st.elem_matrices.length then
      closureLoop gens fuel (e + 1) (processElem gens st e)
    else
      some st

/-- `Vec::resize(order, IDENT)` on the inverse table (`group.rs:88`). -/
def resizeInvs (l : List ℕ) (n : ℕ) : List ℕ :=
  l.take n ++ List.replicate (n - l.length) 0

/-- `Group::compose` evaluated directly on closure tables. -/
def composeT (decomps succs : List (List ℕ)) (e1 e2 : ℕ) : ℕ :=
  (decomps.getD e2 []).foldl (fun e gen => (succs.getD (gen - 1) []).getD e 0) e1

/-- One iteration of the inverse-derivation loop (`group.rs:90-104`): derive
the inverse of `elem` by composing the inverses of its decomposition in
reverse; `assert_ne!(inv_elem, IDENT)` failing is modelled as `none`. -/
def deriveInvsStep (decomps succs : List (List ℕ)) (invs : List ℕ) (elem : ℕ) :
    Option (List ℕ) :=
  if invs.getD elem 0 = 0 then
    let invElem := (decomps.getD elem []).reverse.foldl
      (fun acc gen => composeT decomps succs acc (invs.getD gen 0)) 0
    if invElem = 0 then none
    else some ((invs.set elem invElem).set invElem elem)
  else
    some invs

/-- `generators.iter().map(|m| m.ndim()).max().unwrap_or(0)` (`group.rs:41`). -/
def maxNdim (gens : List Matrix) : ℕ := (gens.map Matrix.ndim).foldr max 0

/-- The state seeded by `new_trivial(ndim)` with the successor and inverse
tables pre-sized (`group.rs:42-45`). -/
def initialClosure (gens : List Matrix) : Closure :=
  { elem_matrices := [Matrix.ident (maxNdim gens)],
    elem_decompositions := [[]],
    elem_successors := List.replicate gens.length [],
    elem_inverses := List.replicate (gens.length + 1) 0 }

/-- `Group::from_generators` (`group.rs:40-107`): seed with the identity of
the largest generator dimension, run the closure loop, then resize and
derive the inverse table.  `none` models both fuel exhaustion (a closure
that has not yet terminated) and the `assert_ne!` panic. -/
def Group.from_generators (gens : List Matrix) (fuel : ℕ) : Option Group :=
  (closureLoop gens fuel 0 (initialClosure gens)).bind fun st =>
    ((List.range' (gens.length + 1)
        (st.elem_matrices.length - (gens.length + 1))).foldlM
        (deriveInvsStep st.elem_decompositions st.elem_successors)
        (resizeInvs st.elem_inverses st.elem_matrices.length)).map fun invs =>
      { ndim := maxNdim gens,
        generator_count := gens.length,
        elem_matrices := st.elem_matrices,
        elem_decompositions := st.elem_decompositions,
        elem_successors := st.elem_successors,
        elem_inverses := invs }

/-! ### Invariants of the closure loop

Used for claims C4 and C8: the element table never stores two approximately
equal matrices, index 0 stays the identity, and every successor-table entry
`succ[i][e]` points at an element approximately equal to
`matrix(e) * generators[i]`. -/

/-- `getD` through `List.set`. -/
theorem getD_set {α : Type} (ls : List α) (i j : ℕ) (a d : α) (hi : i < ls.length) :
    (ls.set i a).getD j d = if i = j then a else ls.getD j d := by
  rw [List.getD_eq_getElem?_getD, List.getElem?_set]
  by_cases h : i = j
  · rw [if_pos h, if_pos hi, if_pos h]
    rfl
  · rw [if_neg h, if_neg h, ← List.getD_eq_getElem?_getD]

/-- In-range `getD` values are members. -/
theorem getD_mem {α : Type} (l : List α) (k : ℕ) (d : α) (h : k < l.length) :
    l.getD k d ∈ l := by
  rw [List.getD_eq_getElem _ _ h]
  exact List.getElem_mem h

/-- `getD` at the appended position. -/
theorem getD_concat_self {α : Type} (l : List α) (a d : α) :
    (l ++ [a]).getD l.length d = a := by
  rw [List.getD_eq_getElem?_getD, List.getElem?_concat_length]
  rfl

/-- In-range `getD` values with positive index are members of `drop 1`. -/
theorem getD_mem_drop_one {α : Type} (l : List α) (k : ℕ) (d : α)
    (h1 : 1 ≤ k) (h2 : k < l.length) : l.getD k d ∈ l.drop 1 := by
  have hlen : k - 1 < (l.drop 1).length := by
    rw [List.length_drop]
    omega
  have hval : (l.drop 1).getD (k - 1) d = l.getD k d := by
    rw [List.getD_eq_getElem?_getD, List.getElem?_drop,
      show 1 + (k - 1) = k from by omega, ← List.getD_eq_getElem?_getD]
  rw [← hval]
  exact getD_mem _ _ _ hlen

/-- Every generator's dimension is bounded by `maxNdim`. -/
theorem ndim_le_maxNdim (gens : List Matrix) (g : Matrix) (hg : g ∈ gens) :
    g.ndim ≤ maxNdim gens := by
  unfold maxNdim
  induction gens with
  | nil => cases hg
  | cons x xs ih =>
    rcases List.mem_cons.1 hg with h | h
    · subst h
      simp only [List.map_cons, List.foldr_cons]
      omega
    · have := ih h
      simp only [List.map_cons, List.foldr_cons]
      omega

/-- Invariants maintained by the closure loop of `from_generators`. -/
structure CInv (gens : List Matrix) (n : ℕ) (st : Closure) : Prop where
  nonempty : 0 < st.elem_matrices.length
  mat0 : st.elem_matrices.getD 0 Matrix.EMPTY_IDENT = Matrix.ident n
  ndims : ∀ M ∈ st.elem_matrices, M.ndim = n
  elemsLen : ∀ M ∈ st.elem_matrices, M.elems.length = M.ndim * M.ndim
  distinct : ∀ i j, i < j → j < st.elem_matrices.length →
    Matrix.approxEq (st.elem_matrices.getD i Matrix.EMPTY_IDENT) (st.elem_matrices.getD j Matrix.EMPTY_IDENT) = false
  succCount : st.elem_successors.length = gens.length
  decompLen : st.elem_decompositions.length = st.elem_matrices.length
  decompNil : ∀ k, k < st.elem_matrices.length →
    st.elem_decompositions.getD k [] = [] → k = 0
  decompOne : ∀ k, k < st.elem_matrices.length → ∀ g,
    st.elem_decompositions.getD k [] = [g] →
    1 ≤ g ∧ g ≤ gens.length ∧
      st.elem_matrices.getD k Matrix.EMPTY_IDENT = Matrix.mul (Matrix.ident n) (gens.getD (g - 1) Matrix.EMPTY_IDENT)
  succProp : ∀ i, i < gens.length → ∀ k s,
    (st.elem_successors.getD i [])[k]? = some s →
    s < st.elem_matrices.length ∧
      Matrix.approxEq (st.elem_matrices.getD s Matrix.EMPTY_IDENT)
        (Matrix.mul (st.elem_matrices.getD k Matrix.EMPTY_IDENT) (gens.getD i Matrix.EMPTY_IDENT)) = true

/-- The per-generator successor-list lengths (how many elements have been
processed against each generator). -/
def SuccLens (st : Closure) (f : ℕ → ℕ) : Prop :=
  ∀ j, j < st.elem_successors.length → (st.elem_successors.getD j []).length = f j

theorem cinv_initial (gens : List Matrix) :
    CInv gens (maxNdim gens) (initialClosure gens) ∧
      SuccLens (initialClosure gens) (fun _ => 0) := by
  constructor
  · constructor
    · simp [initialClosure]
    · rfl
    · intro M hM
      simp only [initialClosure, List.mem_singleton] at hM
      subst hM
      rfl
    · intro M hM
      simp only [initialClosure, List.mem_singleton] at hM
      subst hM
      exact Matrix.elems_length_ident _
    · intro i j hij hj
      simp only [initialClosure, List.length_singleton] at hj
      omega
    · simp [initialClosure]
    · rfl
    · intro k hk _
      simp only [initialClosure, List.length_singleton] at hk
      omega
    · intro k hk g hg
      simp only [initialClosure, List.length_singleton] at hk
      have hk0 : k = 0 := by omega
      subst hk0
      simp [initialClosure] at hg
    · intro i hi k s hs
      have : (initialClosure gens).elem_successors.getD i [] = [] := by
        simp only [initialClosure]
        rcases lt_or_le i gens.length with h | h
        · rw [List.getD_eq_getElem _ _ (by simpa using h)]
          simp
        · rw [List.getD_eq_getElem?_getD, List.getElem?_eq_none (by simpa using h)]
          rfl
      rw [this] at hs
      simp at hs
  · intro j hj
    simp only [initialClosure, List.length_replicate] at hj
    simp only [initialClosure]
    rw [List.getD_eq_getElem _ _ (by simpa using hj)]
    simp

/-- Case analysis for reading an appended successor list. -/
theorem getElem?_append_singleton {α : Type} (l : List α) (v : α) (k : ℕ) (s : α)
    (hs : (l ++ [v])[k]? = some s) :
    (k < l.length ∧ l[k]? = some s) ∨ (k = l.length ∧ s = v) := by
  rcases lt_trichotomy k l.length with h | h | h
  · left
    rw [List.getElem?_append, if_pos h] at hs
    exact ⟨h, hs⟩
  · right
    rw [List.getElem?_append_right (le_of_eq h.symm), h, Nat.sub_self] at hs
    simp at hs
    exact ⟨h, hs.symm⟩
  · exfalso
    rw [List.getElem?_eq_none (by simp; omega)] at hs
    cases hs

/-- Appending a valid successor entry for element `e = f i` to generator
`i`'s list preserves the closure invariants (the inverse table is free). -/
theorem cinv_succ_append (gens : List Matrix) (n e i v : ℕ) (st : Closure)
    (invs2 : List ℕ) (f : ℕ → ℕ)
    (hi : i < gens.length)
    (hinv : CInv gens n st) (hsl : SuccLens st f) (hfi : f i = e)
    (hv : v < st.elem_matrices.length)
    (happ : Matrix.approxEq (st.elem_matrices.getD v Matrix.EMPTY_IDENT)
      (Matrix.mul (st.elem_matrices.getD e Matrix.EMPTY_IDENT) (gens.getD i Matrix.EMPTY_IDENT)) = true) :
    CInv gens n { st with
        elem_successors := st.elem_successors.set i (st.elem_successors.getD i [] ++ [v]),
        elem_inverses := invs2 } ∧
      SuccLens { st with
        elem_successors := st.elem_successors.set i (st.elem_successors.getD i [] ++ [v]),
        elem_inverses := invs2 } (Function.update f i (e + 1)) := by
  have hslen : st.elem_successors.length = gens.length := hinv.succCount
  have hiL : i < st.elem_successors.length := by omega
  have hLi : (st.elem_successors.getD i []).length = f i := hsl i hiL
  constructor
  · constructor
    · exact hinv.nonempty
    · exact hinv.mat0
    · exact hinv.ndims
    · exact hinv.elemsLen
    · exact hinv.distinct
    · rw [List.length_set]
      exact hslen
    · exact hinv.decompLen
    · exact hinv.decompNil
    · exact hinv.decompOne
    · intro i' hi' k s hs
      simp only at hs
      rw [getD_set _ _ _ _ _ hiL] at hs
      by_cases hii : i = i'
      · rw [if_pos hii] at hs
        subst hii
        rcases getElem?_append_singleton _ _ _ _ hs with ⟨hk, hold⟩ | ⟨hk, hsv⟩
        · exact hinv.succProp i hi k s hold
        · subst hsv
          rw [hLi, hfi] at hk
          subst hk
          exact ⟨hv, happ⟩
      · rw [if_neg hii] at hs
        exact hinv.succProp i' hi' k s hs
  · intro j hj
    simp only [List.length_set] at hj
    simp only
    rw [getD_set _ _ _ _ _ hiL]
    by_cases hij : i = j
    · subst hij
      rw [if_pos rfl, List.length_append, hLi, hfi, Function.update_same]
      rfl
    · rw [if_neg hij, Function.update_noteq (fun hc => hij hc.symm)]
      exact hsl j hj

theorem processGen_eq_ident (st : Closure) (e i : ℕ) (g : Matrix)
    (h : Matrix.approxEq (Matrix.mul (st.elem_matrices.getD e Matrix.EMPTY_IDENT) g)
      Matrix.EMPTY_IDENT = true) :
    processGen st e (i, g) = { st with
      elem_inverses := st.elem_inverses.set (i + 1) e,
      elem_successors := st.elem_successors.set i
        (st.elem_successors.getD i [] ++ [0]) } := by
  unfold processGen
  simp only [h, if_true]

theorem processGen_eq_found (st : Closure) (e i : ℕ) (g : Matrix) (j : ℕ)
    (h : Matrix.approxEq (Matrix.mul (st.elem_matrices.getD e Matrix.EMPTY_IDENT) g)
      Matrix.EMPTY_IDENT = false)
    (hf : (st.elem_matrices.drop 1).findIdx?
      (fun old => Matrix.approxEq old
        (Matrix.mul (st.elem_matrices.getD e Matrix.EMPTY_IDENT) g)) = some j) :
    processGen st e (i, g) = { st with
      elem_successors := st.elem_successors.set i
        (st.elem_successors.getD i [] ++ [j + 1]) } := by
  unfold processGen
  simp only [h, Bool.false_eq_true, if_false, hf]

theorem processGen_eq_new (st : Closure) (e i : ℕ) (g : Matrix)
    (h : Matrix.approxEq (Matrix.mul (st.elem_matrices.getD e Matrix.EMPTY_IDENT) g)
      Matrix.EMPTY_IDENT = false)
    (hf : (st.elem_matrices.drop 1).findIdx?
      (fun old => Matrix.approxEq old
        (Matrix.mul (st.elem_matrices.getD e Matrix.EMPTY_IDENT) g)) = none) :
    processGen st e (i, g) = { st with
      elem_matrices := st.elem_matrices
        ++ [Matrix.mul (st.elem_matrices.getD e Matrix.EMPTY_IDENT) g],
      elem_decompositions := st.elem_decompositions
        ++ [st.elem_decompositions.getD e [] ++ [i + 1]],
      elem_successors := st.elem_successors.set i
        (st.elem_successors.getD i [] ++ [st.elem_matrices.length]) } := by
  unfold processGen
  simp only [h, Bool.false_eq_true, if_false, hf]

/-- Processing one (element, generator) pair preserves the closure
invariants, bumps generator `i`'s successor count to `e + 1`, and never
shrinks the element table. -/
theorem processGen_inv (gens : List Matrix) (n e i : ℕ) (st : Closure) (f : ℕ → ℕ)
    (hn : ∀ g ∈ gens, g.ndim ≤ n)
    (hi : i < gens.length)
    (he : e < st.elem_matrices.length)
    (hinv : CInv gens n st) (hsl : SuccLens st f)
    (hfi : f i = e) (hfb : ∀ j, f j ≤ e + 1) :
    CInv gens n (processGen st e (i, gens.getD i Matrix.EMPTY_IDENT)) ∧
      SuccLens (processGen st e (i, gens.getD i Matrix.EMPTY_IDENT))
        (Function.update f i (e + 1)) ∧
      st.elem_matrices.length
        ≤ (processGen st e (i, gens.getD i Matrix.EMPTY_IDENT)).elem_matrices.length := by
  have hgmem : gens.getD i Matrix.EMPTY_IDENT ∈ gens := getD_mem _ _ _ hi
  have hgnd : (gens.getD i Matrix.EMPTY_IDENT).ndim ≤ n := hn _ hgmem
  have hmate : st.elem_matrices.getD e Matrix.EMPTY_IDENT ∈ st.elem_matrices := getD_mem _ _ _ he
  have hmend : (st.elem_matrices.getD e Matrix.EMPTY_IDENT).ndim = n := hinv.ndims _ hmate
  have hmnd : (Matrix.mul (st.elem_matrices.getD e Matrix.EMPTY_IDENT) (gens.getD i Matrix.EMPTY_IDENT)).ndim = n := by
    rw [Matrix.ndim_mul, hmend]
    omega
  have hmmax : max (st.elem_matrices.getD e Matrix.EMPTY_IDENT).ndim (gens.getD i Matrix.EMPTY_IDENT).ndim = n := by
    rw [hmend]
    omega
  have hmlen : (Matrix.mul (st.elem_matrices.getD e Matrix.EMPTY_IDENT) (gens.getD i Matrix.EMPTY_IDENT)).elems.length
      = n * n := by
    rw [Matrix.elems_length_mul, hmmax]
  by_cases hid : Matrix.approxEq
      (Matrix.mul (st.elem_matrices.getD e Matrix.EMPTY_IDENT)
        (gens.getD i Matrix.EMPTY_IDENT)) Matrix.EMPTY_IDENT = true
  · rw [processGen_eq_ident st e i _ hid]
    have happ : Matrix.approxEq (st.elem_matrices.getD 0 Matrix.EMPTY_IDENT)
        (Matrix.mul (st.elem_matrices.getD e Matrix.EMPTY_IDENT) (gens.getD i Matrix.EMPTY_IDENT)) = true := by
      rw [hinv.mat0, Matrix.approxEq_comm,
        ← Matrix.approxEq_empty (Matrix.mul (st.elem_matrices.getD e Matrix.EMPTY_IDENT) (gens.getD i Matrix.EMPTY_IDENT))
          n hmnd]
      exact hid
    have h := cinv_succ_append gens n e i 0 st (st.elem_inverses.set (i + 1) e) f hi
      hinv hsl hfi hinv.nonempty happ
    exact ⟨h.1, h.2, le_refl _⟩
  · have hid' : Matrix.approxEq
        (Matrix.mul (st.elem_matrices.getD e Matrix.EMPTY_IDENT)
          (gens.getD i Matrix.EMPTY_IDENT)) Matrix.EMPTY_IDENT = false := by
      rw [Bool.eq_false_iff]
      exact hid
    rcases hfind : (st.elem_matrices.drop 1).findIdx?
        (fun old => Matrix.approxEq old
          (Matrix.mul (st.elem_matrices.getD e Matrix.EMPTY_IDENT)
            (gens.getD i Matrix.EMPTY_IDENT))) with _ | j
    · -- new element discovered
      rw [processGen_eq_new st e i _ hid' hfind]
      set m := Matrix.mul (st.elem_matrices.getD e Matrix.EMPTY_IDENT)
        (gens.getD i Matrix.EMPTY_IDENT) with hmdef
      have hmatD : ∀ k, k < st.elem_matrices.length →
          (st.elem_matrices ++ [m]).getD k Matrix.EMPTY_IDENT = st.elem_matrices.getD k Matrix.EMPTY_IDENT := by
        intro k hk
        exact List.getD_append _ _ _ _ hk
      have hmatNew : (st.elem_matrices ++ [m]).getD st.elem_matrices.length
          Matrix.EMPTY_IDENT = m :=
        getD_concat_self _ _ _
      have hnotOld : ∀ k, k < st.elem_matrices.length →
          Matrix.approxEq (st.elem_matrices.getD k Matrix.EMPTY_IDENT) m = false := by
        intro k hk
        rcases Nat.eq_zero_or_pos k with hk0 | hk1
        · subst hk0
          rw [hinv.mat0, Matrix.approxEq_comm, ← Matrix.approxEq_empty m n hmnd]
          exact hid'
        · have hmem : st.elem_matrices.getD k Matrix.EMPTY_IDENT ∈ st.elem_matrices.drop 1 :=
            getD_mem_drop_one _ _ _ hk1 hk
          have := List.findIdx?_eq_none_iff.1 hfind _ hmem
          exact this
      have hslen : st.elem_successors.length = gens.length := hinv.succCount
      have hiL : i < st.elem_successors.length := by omega
      have hLi : (st.elem_successors.getD i []).length = f i := hsl i hiL
      refine ⟨?_, ?_, by simp⟩
      · constructor
        · simp only [List.length_append, List.length_singleton]
          omega
        · show (st.elem_matrices ++ [m]).getD 0 Matrix.EMPTY_IDENT = Matrix.ident n
          rw [hmatD 0 hinv.nonempty]
          exact hinv.mat0
        · intro M hM
          rcases List.mem_append.1 hM with h | h
          · exact hinv.ndims M h
          · rw [List.mem_singleton.1 h]
            exact hmnd
        · intro M hM
          rcases List.mem_append.1 hM with h | h
          · exact hinv.elemsLen M h
          · rw [List.mem_singleton.1 h, hmnd]
            exact hmlen
        · intro a b hab hb
          simp only [List.length_append, List.length_singleton] at hb
          show Matrix.approxEq ((st.elem_matrices ++ [m]).getD a Matrix.EMPTY_IDENT)
            ((st.elem_matrices ++ [m]).getD b Matrix.EMPTY_IDENT) = false
          rcases lt_or_le b st.elem_matrices.length with hblen | hblen
          · rw [hmatD a (by omega), hmatD b hblen]
            exact hinv.distinct a b hab hblen
          · have hbl : b = st.elem_matrices.length := by omega
            subst hbl
            rw [hmatD a (by omega), hmatNew]
            exact hnotOld a (by omega)
        · simp only [List.length_set]
          exact hslen
        · simp only [List.length_append, List.length_singleton]
          rw [hinv.decompLen]
        · intro k hk hdk
          simp only [List.length_append, List.length_singleton] at hk
          rcases lt_or_le k st.elem_decompositions.length with hkd | hkd
          · rw [List.getD_append _ _ _ _ hkd] at hdk
            exact hinv.decompNil k (by rw [← hinv.decompLen]; exact hkd) hdk
          · have hkl : k = st.elem_decompositions.length := by
              rw [hinv.decompLen] at hkd ⊢
              omega
            subst hkl
            rw [getD_concat_self] at hdk
            exact absurd hdk (by simp)
        · intro k hk g' hdk
          simp only [List.length_append, List.length_singleton] at hk
          rcases lt_or_le k st.elem_decompositions.length with hkd | hkd
          · rw [List.getD_append _ _ _ _ hkd] at hdk
            have hklen : k < st.elem_matrices.length := by rw [← hinv.decompLen]; exact hkd
            have h := hinv.decompOne k hklen g' hdk
            refine ⟨h.1, h.2.1, ?_⟩
            show (st.elem_matrices ++ [m]).getD k Matrix.EMPTY_IDENT = _
            rw [hmatD k hklen]
            exact h.2.2
          · have hkl : k = st.elem_decompositions.length := by
              rw [hinv.decompLen] at hkd ⊢
              omega
            subst hkl
            rw [getD_concat_self] at hdk
            have hde : st.elem_decompositions.getD e [] = [] ∧ g' = i + 1 := by
              rcases hdecomp : st.elem_decompositions.getD e [] with _ | ⟨x, xs⟩
              · rw [hdecomp] at hdk
                simp at hdk
                exact ⟨rfl, hdk.symm⟩
              · rw [hdecomp] at hdk
                have : (x :: xs ++ [i + 1]).length = 1 := by rw [hdk]; rfl
                simp at this
            have he0 : e = 0 := hinv.decompNil e he hde.1
            have hmk : (st.elem_matrices ++ [m]).getD st.elem_decompositions.length
                Matrix.EMPTY_IDENT = m := by
              rw [hinv.decompLen]
              exact hmatNew
            refine ⟨by omega, by omega, ?_⟩
            rw [hmk, hde.2]
            show m = Matrix.mul (Matrix.ident n) (gens.getD (i + 1 - 1) Matrix.EMPTY_IDENT)
            rw [show i + 1 - 1 = i from rfl, hmdef, he0,
              show st.elem_matrices.getD 0 Matrix.EMPTY_IDENT = Matrix.ident n
                from hinv.mat0]
        · intro i' hi' k s hs
          simp only at hs
          rw [getD_set _ _ _ _ _ hiL] at hs
          by_cases hii : i = i'
          · rw [if_pos hii] at hs
            subst hii
            rcases getElem?_append_singleton _ _ _ _ hs with ⟨hk, hold⟩ | ⟨hk, hsv⟩
            · have h := hinv.succProp i hi k s hold
              have hkb : k < st.elem_matrices.length := by
                have := hfb i
                omega
              refine ⟨by simp only [List.length_append, List.length_singleton]; omega, ?_⟩
              show Matrix.approxEq ((st.elem_matrices ++ [m]).getD s Matrix.EMPTY_IDENT)
                (Matrix.mul ((st.elem_matrices ++ [m]).getD k Matrix.EMPTY_IDENT) _) = true
              rw [hmatD s h.1, hmatD k hkb]
              exact h.2
            · subst hsv
              rw [hLi, hfi] at hk
              refine ⟨by simp only [List.length_append, List.length_singleton]; omega, ?_⟩
              show Matrix.approxEq ((st.elem_matrices ++ [m]).getD st.elem_matrices.length
                Matrix.EMPTY_IDENT)
                (Matrix.mul ((st.elem_matrices ++ [m]).getD k Matrix.EMPTY_IDENT) _) = true
              rw [hmatNew, hk, hmatD e he]
              exact Matrix.approxEq_refl m
          · rw [if_neg hii] at hs
            have h := hinv.succProp i' hi' k s hs
            have hkb : k < st.elem_matrices.length := by
              have hj := hsl i' (by omega)
              have hk2 : k < (st.elem_successors.getD i' []).length := by
                by_contra hc
                rw [List.getElem?_eq_none (by omega)] at hs
                cases hs
              have := hfb i'
              omega
            refine ⟨by simp only [List.length_append, List.length_singleton]; omega, ?_⟩
            show Matrix.approxEq ((st.elem_matrices ++ [m]).getD s Matrix.EMPTY_IDENT)
              (Matrix.mul ((st.elem_matrices ++ [m]).getD k Matrix.EMPTY_IDENT) _) = true
            rw [hmatD s h.1, hmatD k hkb]
            exact h.2
      · intro j hj
        simp only [List.length_set] at hj
        simp only
        rw [getD_set _ _ _ _ _ hiL]
        by_cases hij : i = j
        · subst hij
          rw [if_pos rfl, List.length_append, hLi, hfi, Function.update_same]
          rfl
        · rw [if_neg hij, Function.update_noteq (fun hc => hij hc.symm)]
          exact hsl j hj
    · -- successor is an existing element
      rw [processGen_eq_found st e i _ j hid' hfind]
      have hj := List.findIdx?_eq_some_iff_getElem.1 hfind
      obtain ⟨hjlen, hjp, _⟩ := hj
      have hjlt : j + 1 < st.elem_matrices.length := by
        rw [List.length_drop] at hjlen
        omega
      have hjval : st.elem_matrices.getD (j + 1) Matrix.EMPTY_IDENT = (st.elem_matrices.drop 1)[j] := by
        show st.elem_matrices.getD (j + 1) Matrix.EMPTY_IDENT = _
        rw [List.getD_eq_getElem?_getD,
          show (st.elem_matrices.drop 1)[j] = ((st.elem_matrices.drop 1)[j]?).getD
            Matrix.EMPTY_IDENT from by rw [List.getElem?_eq_getElem hjlen]; rfl,
          List.getElem?_drop, show 1 + j = j + 1 from by omega]
      have happ : Matrix.approxEq (st.elem_matrices.getD (j + 1) Matrix.EMPTY_IDENT)
          (Matrix.mul (st.elem_matrices.getD e Matrix.EMPTY_IDENT) (gens.getD i Matrix.EMPTY_IDENT)) = true := by
        rw [hjval]
        simpa using hjp
      have h := cinv_succ_append gens n e i (j + 1) st st.elem_inverses f hi
        hinv hsl hfi hjlt happ
      exact ⟨h.1, h.2, le_refl _⟩

/-- The whole generator sweep for one element preserves the invariants and
sets every successor count to `e + 1`. -/
theorem processGens_inv (gens : List Matrix) (n e : ℕ)
    (hn : ∀ g ∈ gens, g.ndim ≤ n) :
    ∀ c i st f, c + i = gens.length →
    (∀ j, j < i → f j = e + 1) → (∀ j, i ≤ j → f j = e) →
    e < st.elem_matrices.length →
    CInv gens n st → SuccLens st f →
    CInv gens n (processGens gens e c i st) ∧
      SuccLens (processGens gens e c i st) (fun _ => e + 1) ∧
      st.elem_matrices.length ≤ (processGens gens e c i st).elem_matrices.length := by
  intro c
  induction c with
  | zero =>
    intro i st f hci hlt hge he hinv hsl
    simp only [processGens]
    refine ⟨hinv, ?_, le_refl _⟩
    intro j hj
    rw [hsl j hj]
    exact hlt j (by rw [hinv.succCount] at hj; omega)
  | succ c ih =>
    intro i st f hci hlt hge he hinv hsl
    have hi : i < gens.length := by omega
    have hpg := processGen_inv gens n e i st f hn hi he hinv hsl (hge i (le_refl i))
      (by
        intro j
        rcases lt_or_le j i with h | h
        · rw [hlt j h]
        · rw [hge j h]
          omega)
    obtain ⟨hinv2, hsl2, hmono⟩ := hpg
    have hrec := ih (i + 1) _ (Function.update f i (e + 1)) (by omega)
      (by
        intro j hj
        rcases Nat.lt_succ_iff_lt_or_eq.1 hj with h | h
        · rw [Function.update_noteq (by omega)]
          exact hlt j h
        · subst h
          exact Function.update_same _ _ _)
      (by
        intro j hj
        rw [Function.update_noteq (by omega)]
        exact hge j (by omega))
      (lt_of_lt_of_le he hmono) hinv2 hsl2
    exact ⟨hrec.1, hrec.2.1, le_trans hmono hrec.2.2⟩

/-- The closure loop preserves the invariants; when it terminates normally,
every successor list covers every discovered element. -/
theorem closureLoop_inv (gens : List Matrix) (n : ℕ) (hn : ∀ g ∈ gens, g.ndim ≤ n) :
    ∀ fuel e st st', closureLoop gens fuel e st = some st' →
    e ≤ st.elem_matrices.length →
    CInv gens n st → SuccLens st (fun _ => e) →
    CInv gens n st' ∧ SuccLens st' (fun _ => st'.elem_matrices.length) := by
  intro fuel
  induction fuel with
  | zero =>
    intro e st st' h
    cases h
  | succ fuel ih =>
    intro e st st' h hle hinv hsl
    simp only [closureLoop] at h
    by_cases hguard : e < st.elem_matrices.length
    · rw [if_pos hguard] at h
      simp only [processElem] at h
      have hpe := processGens_inv gens n e hn gens.length 0 st (fun _ => e)
        (by omega) (by intro j hj; omega) (by intro j _; rfl) hguard hinv hsl
      exact ih (e + 1) _ st' h (by have := hpe.2.2; omega) hpe.1 hpe.2.1
    · rw [if_neg hguard] at h
      injection h with h'
      subst h'
      have he : e = st.elem_matrices.length := by omega
      exact ⟨hinv, by rw [← he]; exact hsl⟩

/-- Every generator's dimension bound, in `getD` form. -/
theorem getD_ndim_le_maxNdim (gens : List Matrix) (i : ℕ) (hi : i < gens.length) :
    (gens.getD i Matrix.EMPTY_IDENT).ndim ≤ maxNdim gens :=
  ndim_le_maxNdim gens _ (getD_mem _ _ _ hi)

/-- Destructing a successful `from_generators` run: the group's matrix,
decomposition and successor tables are those of a closure state satisfying
the loop invariants. -/
theorem from_generators_closure (gens : List Matrix) (fuel : ℕ) (G : Group)
    (h : Group.from_generators gens fuel = some G) :
    ∃ st : Closure,
      CInv gens (maxNdim gens) st ∧
      SuccLens st (fun _ => st.elem_matrices.length) ∧
      G.elem_matrices = st.elem_matrices ∧
      G.elem_decompositions = st.elem_decompositions ∧
      G.elem_successors = st.elem_successors ∧
      G.ndim = maxNdim gens ∧
      G.generator_count = gens.length := by
  rcases hcl : closureLoop gens fuel 0 (initialClosure gens) with _ | st
  · rw [Group.from_generators, hcl] at h
    cases h
  · rw [Group.from_generators, hcl, Option.some_bind] at h
    rcases hfold : (List.range' (gens.length + 1)
        (st.elem_matrices.length - (gens.length + 1))).foldlM
        (deriveInvsStep st.elem_decompositions st.elem_successors)
        (resizeInvs st.elem_inverses st.elem_matrices.length) with _ | invs
    · rw [hfold] at h
      cases h
    · rw [hfold, Option.map_some'] at h
      injection h with h
      have hinit := cinv_initial gens
      have hloop := closureLoop_inv gens (maxNdim gens)
        (fun g hg => ndim_le_maxNdim gens g hg) fuel 0 (initialClosure gens) st hcl
        (by simp [initialClosure]) hinit.1 hinit.2
      refine ⟨st, hloop.1, hloop.2, ?_, ?_, ?_, ?_, ?_⟩ <;> rw [← h]

/-- The C5/C4 failing input: a single 1×1 generator `[0.001]`.  Its closure
terminates with two elements (`[0.000001] ≈ [0.001]` merges within the
tolerance), but no product ever approximates the identity. -/
def c5Gens : List Matrix := [⟨1, [mkRat 1 1000]⟩]

/-- Fallback value for reading a `some` result. -/
def groupDefault : Group := ⟨0, 0, [], [], [], []⟩

/-- The group the code builds from `c5Gens`. -/
def c5G : Group := (Group.from_generators c5Gens 3).getD groupDefault

/-! ## Claim C8: identity at handle 0 and pairwise distinct element matrices -/

/-- C8 (confirmed): in any group built by `from_generators`, handle `0`
stores the identity matrix of the group's dimension, and no two distinct
handles store approximately equal matrices. -/
theorem c8_identity_and_distinct (gens : List Matrix) (fuel : ℕ) (G : Group)
    (hG : Group.from_generators gens fuel = some G) :
    G.matrix 0 = Matrix.ident G.ndim ∧
      ∀ i j, i < G.order → j < G.order → i ≠ j →
        Matrix.approxEq (G.matrix i) (G.matrix j) = false := by
  obtain ⟨st, hinv, hsl, hmat, hdec, hsucc, hnd, hgc⟩ := from_generators_closure gens fuel G hG
  constructor
  · show G.elem_matrices.getD 0 Matrix.EMPTY_IDENT = Matrix.ident G.ndim
    rw [hmat, hnd]
    exact hinv.mat0
  · intro i j hi hj hij
    unfold Group.order at hi hj
    rw [hmat] at hi hj
    show Matrix.approxEq (G.elem_matrices.getD i Matrix.EMPTY_IDENT)
      (G.elem_matrices.getD j Matrix.EMPTY_IDENT) = false
    rw [hmat]
    rcases lt_trichotomy i j with h | h | h
    · exact hinv.distinct i j h hj
    · exact absurd h hij
    · rw [Matrix.approxEq_comm]
      exact hinv.distinct j i h hi

/-- C8 witness: the concrete two-element group built from `[[0.001]]`. -/
theorem c8_identity_and_distinct_witness :
    Group.from_generators c5Gens 3 = some c5G ∧
      (c5G.matrix 0 = Matrix.ident c5G.ndim ∧
        ∀ i j, i < c5G.order → j < c5G.order → i ≠ j →
          Matrix.approxEq (c5G.matrix i) (c5G.matrix j) = false) :=
  ⟨by with_unfolding_all decide,
    c8_identity_and_distinct c5Gens 3 c5G (by with_unfolding_all decide)⟩

/-! ## Claim C4 (amended part): `compose` against the matrix product for
identity or single-generator decompositions -/

/-- C4 (amended): in any group built by `from_generators`, whenever `e2`'s
decomposition has length at most 1 (it is the identity or a directly
discovered generator image), `matrix(compose(e1, e2))` approximately equals
`matrix(e1) * matrix(e2)`.  (For longer decompositions the tolerance can
accumulate and the property fails; see the counterexample.) -/
theorem c4_compose_short_approx (gens : List Matrix) (fuel : ℕ) (G : Group)
    (hG : Group.from_generators gens fuel = some G)
    (e1 e2 : ℕ) (h1 : e1 < G.order) (h2 : e2 < G.order)
    (hlen : (G.decompose e2).length ≤ 1) :
    Matrix.approxEq (G.matrix (G.compose e1 e2))
      (Matrix.mul (G.matrix e1) (G.matrix e2)) = true := by
  obtain ⟨st, hinv, hsl, hmat, hdec, hsucc, hnd, hgc⟩ := from_generators_closure gens fuel G hG
  unfold Group.order at h1 h2
  rw [hmat] at h1 h2
  have hmnd1 : (G.matrix e1).ndim = maxNdim gens := by
    show (G.elem_matrices.getD e1 Matrix.EMPTY_IDENT).ndim = _
    rw [hmat]
    exact hinv.ndims _ (getD_mem _ _ _ h1)
  have hmlen1 : (G.matrix e1).elems.length = maxNdim gens * maxNdim gens := by
    show (G.elem_matrices.getD e1 Matrix.EMPTY_IDENT).elems.length = _
    rw [hmat]
    have h := hinv.elemsLen _ (getD_mem _ e1 Matrix.EMPTY_IDENT h1)
    rw [h, hinv.ndims _ (getD_mem _ _ _ h1)]
  rcases hd : G.decompose e2 with _ | ⟨g, rest⟩
  · have hdst : st.elem_decompositions.getD e2 [] = [] := by
      rw [← hdec]
      exact hd
    have he2 : e2 = 0 := hinv.decompNil e2 h2 hdst
    have hcomp : G.compose e1 e2 = e1 := by
      unfold Group.compose
      rw [hd]
      rfl
    rw [hcomp, he2]
    have hm0 : G.matrix 0 = Matrix.ident (maxNdim gens) := by
      show G.elem_matrices.getD 0 Matrix.EMPTY_IDENT = _
      rw [hmat]
      exact hinv.mat0
    rw [hm0, Matrix.mul_ident_right (G.matrix e1) (maxNdim gens) hmnd1 hmlen1]
    exact Matrix.approxEq_refl _
  · have hrest : rest = [] := by
      rw [hd] at hlen
      simp only [List.length_cons] at hlen
      exact List.length_eq_zero.1 (by omega)
    subst hrest
    have hdst : st.elem_decompositions.getD e2 [] = [g] := by
      rw [← hdec]
      exact hd
    obtain ⟨hg1, hgle, hmat2⟩ := hinv.decompOne e2 h2 g hdst
    have hglt : g - 1 < gens.length := by omega
    have hsuclen : (st.elem_successors.getD (g - 1) []).length
        = st.elem_matrices.length := hsl (g - 1) (by rw [hinv.succCount]; omega)
    have he1lt : e1 < (st.elem_successors.getD (g - 1) []).length := by
      rw [hsuclen]
      exact h1
    have hentry : (st.elem_successors.getD (g - 1) [])[e1]?
        = some ((st.elem_successors.getD (g - 1) []).getD e1 0) := by
      rw [List.getElem?_eq_getElem he1lt, List.getD_eq_getElem _ _ he1lt]
    have hsp := hinv.succProp (g - 1) hglt e1 _ hentry
    have hcomp : G.compose e1 e2
        = (G.elem_successors.getD (g - 1) []).getD e1 0 := by
      unfold Group.compose
      rw [hd]
      rfl
    have hgnd : (gens.getD (g - 1) Matrix.EMPTY_IDENT).ndim ≤ maxNdim gens :=
      getD_ndim_le_maxNdim gens (g - 1) hglt
    have hprod : Matrix.mul (G.matrix e1) (G.matrix e2)
        = Matrix.mul (G.matrix e1) (gens.getD (g - 1) Matrix.EMPTY_IDENT) := by
      rw [show G.matrix e2 = Matrix.mul (Matrix.ident (maxNdim gens))
            (gens.getD (g - 1) Matrix.EMPTY_IDENT) from by
          show G.elem_matrices.getD e2 Matrix.EMPTY_IDENT = _
          rw [hmat]
          exact hmat2]
      exact Matrix.mul_assoc_ident _ _ (maxNdim gens) hmnd1 hgnd
    rw [hcomp, hprod]
    show Matrix.approxEq (G.elem_matrices.getD
      ((G.elem_successors.getD (g - 1) []).getD e1 0) Matrix.EMPTY_IDENT)
      (Matrix.mul (G.matrix e1) (gens.getD (g - 1) Matrix.EMPTY_IDENT)) = true
    rw [hmat, hsucc]
    show Matrix.approxEq _ (Matrix.mul (G.elem_matrices.getD e1 Matrix.EMPTY_IDENT)
      (gens.getD (g - 1) Matrix.EMPTY_IDENT)) = true
    rw [hmat]
    exact hsp.2

/-- C4 amended, witness: in the concrete group from `[[0.001]]`, element 1
has a single-generator decomposition and the approximation holds at
`e1 = e2 = 1`. -/
theorem c4_compose_short_approx_witness :
    Group.from_generators c5Gens 3 = some c5G ∧ 1 < c5G.order ∧
      (c5G.decompose 1).length ≤ 1 ∧
      Matrix.approxEq (c5G.matrix (c5G.compose 1 1))
        (Matrix.mul (c5G.matrix 1) (c5G.matrix 1)) = true :=
  ⟨by with_unfolding_all decide, by with_unfolding_all decide,
    by with_unfolding_all decide,
    c4_compose_short_approx c5Gens 3 c5G (by with_unfolding_all decide) 1 1
      (by with_unfolding_all decide) (by with_unfolding_all decide)
      (by with_unfolding_all decide)⟩

/-! ### C4 counterexample: tolerance accumulates over longer decompositions -/

/-- A single 2×2 generator close to (but not exactly) a 120° rotation:
`c = -0.50043`, `s = 0.86614` (column-major `[c, s, -s, c]`).  Its cube is
within the tolerance of the identity (entrywise error ≈ 0.00094), so the
closure terminates with three elements, but the accumulated error surfaces
in products of longer words. -/
def c4Gens : List Matrix :=
  [⟨2, [mkRat (-50043) 100000, mkRat 86614 100000,
        mkRat (-86614) 100000, mkRat (-50043) 100000]⟩]

/-- The group the code builds from `c4Gens`. -/
def c4G : Group := (Group.from_generators c4Gens 5).getD groupDefault

/-- C4 (counterexample): `from_generators c4Gens` terminates (with a
3-element table), `compose(2, 2) = 1`, and `matrix(compose(2, 2))` is NOT
approximately equal to `matrix(2) * matrix(2)` — their top-left entries
differ by ≈ 0.00129 > ε.  The claim is false as stated. -/
theorem c4_compose_approx_fails :
    (Group.from_generators c4Gens 5).isSome = true ∧
      c4G.order = 3 ∧
      c4G.compose 2 2 = 1 ∧
      Matrix.approxEq (c4G.matrix (c4G.compose 2 2))
        (Matrix.mul (c4G.matrix 2) (c4G.matrix 2)) = false := by
  refine ⟨by with_unfolding_all decide, by with_unfolding_all decide,
    by with_unfolding_all decide, by with_unfolding_all decide⟩

/-! ## Claim C5: `compose(e, inverse(e))` and the unresolved-inverse hole

`group.rs:86` carries `// TODO: error if any generator has identity as its
inverse`: when the closure terminates without ever observing
`matrix(e) * gen ≈ I`, the generator's inverse silently stays at the
identity handle, and the claimed round-trip fails. -/

set_option maxRecDepth 100000 in
/-- C5 (code bug, evaluation): `from_generators [[0.001]]` terminates
normally with a 2-element table, yet `inverse(1)` is the identity handle,
`compose(1, inverse(1)) = 1 ≠ 0`, and `matrix(1) * matrix(inverse(1))` is
not approximately the identity matrix — the round-trip claim fails on the
value the code returns instead of aborting. -/
theorem c5_inverse_round_trip_fails :
    Group.from_generators c5Gens 3 = some c5G ∧
      c5G.order = 2 ∧
      c5G.inverse 1 = 0 ∧
      c5G.compose 1 (c5G.inverse 1) = 1 ∧
      Matrix.approxEq (Matrix.mul (c5G.matrix 1) (c5G.matrix (c5G.inverse 1)))
        (Matrix.ident c5G.ndim) = false := by
  refine ⟨by with_unfolding_all decide, by with_unfolding_all decide,
    by with_unfolding_all decide, by with_unfolding_all decide,
    by with_unfolding_all decide⟩

/-! ## Polytope arena (`polytope.rs`)

Handles are naturals indexing a growable list of optional slots; a deleted
slot is `none`.  Panics are modelled by `Except String`; the two recursions
with no structural measure (`slice_polytope`'s descent and the polygon walk)
take explicit fuel. -/

/-- `PolytopeId`. -/
abbrev PId := ℕ

/-- `SliceResult` (`polytope.rs:377`). -/
inductive SliceResult where
  | unknown
  | kept
  | removed
  | modified (id : PId)
  deriving Repr, DecidableEq

/-- `PolytopeContents`: a rank-0 coordinate point or a ranked branch with
child handles. -/
inductive PContents where
  | point (p : Vec2)
  | branch (rank : ℕ) (children : List PId)
  deriving Repr, DecidableEq

/-- `Polytope` (arena node). -/
structure Polytope2 where
  parents : List PId
  contents : PContents
  slice_result : SliceResult
  deriving Repr, DecidableEq

/-- `Polytope::rank`. -/
def Polytope2.rank (p : Polytope2) : ℕ :=
  match p.contents with
  | .point _ => 0
  | .branch r _ => r

/-- `Polytope::children` (a point has none). -/
def Polytope2.children (p : Polytope2) : List PId :=
  match p.contents with
  | .point _ => []
  | .branch _ c => c

/-- `PolytopeArena`. -/
structure PolytopeArena where
  polytopes : List (Option Polytope2)
  root : PId
  deriving Repr, DecidableEq

/-- `Polygon`. -/
structure Polygon where
  verts : List Vec2
  deriving Repr, DecidableEq

/-- `base_3_expansion(n, digit_count)` (`polytope.rs:361`): least-significant
base-3 digits, `digit_count` of them. -/
def base_3_expansion (n : ℕ) : ℕ → List ℕ
  | 0 => []
  | d + 1 => n % 3 :: base_3_expansion (n / 3) d

/-- The `Index` operation `self[id]`: `unwrap` panics on a dead or
out-of-range slot. -/
def getNode (a : PolytopeArena) (i : PId) : Except String Polytope2 :=
  match a.polytopes.getD i none with
  | some p => Except.ok p
  | none => Except.error "polytope index unwrap failed"

/-- Overwrite a live slot. -/
def setNode (a : PolytopeArena) (i : PId) (p : Polytope2) : PolytopeArena :=
  { a with polytopes := a.polytopes.set i (some p) }

/-- `self[i].slice_result = r`. -/
def setResult (a : PolytopeArena) (i : PId) (r : SliceResult) :
    Except String PolytopeArena := do
  let n ← getNode a i
  pure (setNode a i { n with slice_result := r })

/-- `Polytope::unwrap_point` through the arena. -/
def unwrapPoint (a : PolytopeArena) (i : PId) : Except String Vec2 := do
  let n ← getNode a i
  match n.contents with
  | .point pt => pure pt
  | .branch _ _ => Except.error "expected point, got branch"

/-- `PolytopeArena::push`. -/
def pushNode (a : PolytopeArena) (p : Polytope2) : PolytopeArena × PId :=
  ({ a with polytopes := a.polytopes ++ [some p] }, a.polytopes.length)

/-- `PolytopeArena::push_point`. -/
def pushPoint (a : PolytopeArena) (pt : Vec2) : PolytopeArena × PId :=
  pushNode a ⟨[], .point pt, .unknown⟩

/-- `PolytopeArena::push_polytope` (`polytope.rs:136`): asserts a non-empty
child list, takes the rank from the first child plus one, and registers the
new node as a parent of each child. -/
def pushPolytope (a : PolytopeArena) (children : List PId) :
    Except String (PolytopeArena × PId) := do
  if children.isEmpty then
    Except.error "cannot construct non-point polytope with no children"
  else do
    let first ← getNode a (children.getD 0 0)
    let rank := first.rank + 1
    let ret := a.polytopes.length
    let a := (pushNode a ⟨[], .branch rank children, .unknown⟩).1
    let a ← children.foldlM (fun a c => do
      let n ← getNode a c
      pure (setNode a c { n with parents := n.parents ++ [ret] })) a
    pure (a, ret)

/-- `PolytopeArena::add_child` (`polytope.rs:164`). -/
def addChild (a : PolytopeArena) (parent child : PId) :
    Except String PolytopeArena := do
  let n ← getNode a parent
  match n.contents with
  | .point _ => Except.error "cannot add child to point"
  | .branch r ch => do
    let a := setNode a parent { n with contents := .branch r (ch ++ [child]) }
    let nc ← getNode a child
    pure (setNode a child { nc with parents := nc.parents ++ [parent] })

/-- `*self[p].unwrap_children_mut() = new_children`. -/
def setChildren (a : PolytopeArena) (i : PId) (newChildren : List PId) :
    Except String PolytopeArena := do
  let n ← getNode a i
  match n.contents with
  | .point _ => Except.error "expected brancch, got point"
  | .branch r _ => pure (setNode a i { n with contents := .branch r newChildren })

/-- `self[child].slice_result == SliceResult::Kept`, read non-monadically (a
dead child — impossible right after it was sliced — counts as not kept). -/
def resultIsKept (a : PolytopeArena) (i : PId) : Bool :=
  match a.polytopes.getD i none with
  | some n => n.slice_result == .kept
  | none => false

/-- `PolytopeArena::new_cube(ndim, radius)` (`polytope.rs:58`): one node per
base-3 string of length `ndim`; digit `1` means the axis is straddled (rank
counts them), digits `0`/`2` pin the axis at `-radius`/`+radius`. -/
def newCube (ndim : ℕ) (radius : ℚ) : PolytopeArena :=
  { polytopes := (List.range (3 ^ ndim)).map fun i =>
      let digits := base_3_expansion i ndim
      let rank := digits.count 1
      let contents :=
        if rank = 0 then
          PContents.point (digits.map fun d => ((d : ℚ) - 1) * radius)
        else
          PContents.branch rank
            (((((List.range ndim).map fun k => 3 ^ k).zip digits).filter
                (fun pd => pd.2 = 1)).flatMap
              (fun pd => [i - pd.1, i + pd.1]))
      let parents := ((((List.range ndim).map fun k => 3 ^ k).zip digits).filter
          (fun pd => pd.2 ≠ 1)).map
        (fun pd => i - pd.1 * pd.2 + pd.1)
      some ⟨parents, contents, .unknown⟩,
    root := 3 ^ ndim / 2 }

/-- `PolytopeArena::slice_polytope` (`polytope.rs:238`), with recursion
fuel.  Returns the updated arena and the node's classification. -/
def slicePolytope (pole : Vec2) : ℕ → PolytopeArena → PId →
    Except String (PolytopeArena × SliceResult)
  | 0, _, _ => Except.error "slice recursion fuel exhausted"
  | fuel + 1, a, p => do
    let node ← getNode a p
    if node.slice_result ≠ .unknown then
      pure (a, node.slice_result)
    else do
      let res ← match node.contents with
        | .point pt => do
          let r := if Vec2.dot (Vec2.sub pole pt) pole > -EPSILON then
              SliceResult.kept
            else
              SliceResult.removed
          pure (a, r)
        | .branch rank oldChildren => do
          let acc ← oldChildren.foldlM
            (fun (acc : PolytopeArena × List PId × List PId) child => do
              let (a1, r) ← slicePolytope pole fuel acc.1 child
              match r with
              | .unknown => Except.error "polytope didn't get slice result computed"
              | .kept => pure (a1, acc.2.1 ++ [child], acc.2.2)
              | .removed => pure (a1, acc.2.1, acc.2.2)
              | .modified inter => pure (a1, acc.2.1 ++ [child], acc.2.2 ++ [inter]))
            (a, ([], []))
          let a := acc.1
          let newChildren := acc.2.1
          let boundary := acc.2.2
          let removed := newChildren.isEmpty
          let a ← setChildren a p newChildren
          if removed then
            pure (a, SliceResult.removed)
          else if oldChildren.all (fun child => resultIsKept a child) then
            pure (a, SliceResult.kept)
          else do
            let (a, newChild) ←
              if rank = 1 then do
                let aPt ← unwrapPoint a (oldChildren.getD 0 0)
                let bPt ← unwrapPoint a (oldChildren.getD 1 0)
                pure (pushPoint a (slicePoint pole aPt bPt))
              else
                pushPolytope a boundary
            let a ← setResult a newChild .kept
            let a ← addChild a p newChild
            pure (a, SliceResult.modified newChild)
      let a2 ← setResult res.1 p res.2
      pure (a2, res.2)

/-- The end-of-pass sweep of `slice_by_plane` (`polytope.rs:221-235`):
`Unknown` survivors are orphans (panic), `Removed` slots are freed, and the
rest are reset to `Unknown`. -/
def sweepArena (slots : List (Option Polytope2)) :
    Except String (List (Option Polytope2)) :=
  slots.mapM fun slot =>
    match slot with
    | none => pure none
    | some p =>
      match p.slice_result with
      | .unknown => Except.error "orphans in polytope arena"
      | .removed => pure none
      | _ => pure (some { p with slice_result := .unknown })

/-- `PolytopeArena::slice_by_plane` (`polytope.rs:218`). -/
def sliceByPlane (a : PolytopeArena) (pole : Vec2) (fuel : ℕ) :
    Except String PolytopeArena := do
  let (a, _) ← slicePolytope pole fuel a a.root
  let slots ← sweepArena a.polytopes
  pure { a with polytopes := slots }

/-! ### Polygon extraction (`polytope.rs:175-216`) -/

/-- One `edges.entry(v1).or_default().push(v2)` on the adjacency map. -/
def addAdj (m : PId → List PId) (k v : PId) : PId → List PId :=
  fun x => if x = k then m k ++ [v] else m x

/-- Build the vertex adjacency map from the directed endpoint pairs, in
iteration order. -/
def buildAdj (pairs : List (PId × PId)) : PId → List PId :=
  pairs.foldl (fun m pr => addAdj m pr.1 pr.2) (fun _ => [])

/-- The two endpoints `(ch[0], ch[1])` of an edge node (indexing panics when
the edge has fewer than two children). -/
def edgeEndpoints (a : PolytopeArena) (edge : PId) : Except String (PId × PId) := do
  let n ← getNode a edge
  let ch := n.children
  if ch.length < 2 then
    Except.error "edge child index out of bounds"
  else
    pure (ch.getD 0 0, ch.getD 1 0)

/-- The cycle walk of `polygons`: step to the first neighbour of `current`
that is not `prev`, collecting each visited vertex's point, until returning
to `first`.  Running out of fuel models the loop not terminating. -/
def walkPolygon (a : PolytopeArena) (adj : PId → List PId) (first : PId) :
    ℕ → PId → PId → List Vec2 → Except String (List Vec2)
  | 0, _, _, _ => Except.error "polygon walk fuel exhausted"
  | fuel + 1, prev, current, verts =>
    if current = first then
      pure verts
    else do
      let next ← match (adj current).find? (fun v => v ≠ prev) with
        | some v => pure v
        | none => Except.error "invalid polygon"
      let pt ← unwrapPoint a next
      walkPolygon a adj first fuel current next (verts ++ [pt])

/-- Extract the ordered vertex loop of one rank-2 node. -/
def polygonFor (a : PolytopeArena) (fuel : ℕ) (p : Polytope2) :
    Except String Polygon := do
  let ends ← p.children.mapM (edgeEndpoints a)
  let pairs := ends.flatMap fun pr => [(pr.1, pr.2), (pr.2, pr.1)]
  let adj := buildAdj pairs
  if p.children.isEmpty then
    Except.error "polygon edge index out of bounds"
  else do
    let (firstVertex, current) ← edgeEndpoints a (p.children.getD 0 0)
    let pt ← unwrapPoint a current
    let verts ← walkPolygon a adj firstVertex fuel firstVertex current [pt]
    pure ⟨verts⟩

/-- `PolytopeArena::polygons` (`polytope.rs:175`): the ordered vertex loop
of every live rank-2 node, in slot order. -/
def polygons (a : PolytopeArena) (fuel : ℕ) : Except String (List Polygon) :=
  ((a.polytopes.filterMap id).filter fun p => p.rank = 2).mapM (polygonFor a fuel)

/-! ### `shape_geom` (`polytope.rs:8-38`) -/

/-- `Vector::set_ndim` (`vector.rs:228`): `Vec::resize(ndim, 0.0)`. -/
def setNdim (v : Vec2) (n : ℕ) : Vec2 :=
  v.take n ++ List.replicate (n - v.length) 0

/-- The orbit-closure loop of `shape_geom` (`polytope.rs:23-33`), fuelled:
process each pole in turn, appending every generator image not already
present up to the tolerance. -/
def orbitLoop (gens : List Matrix) (ndim : ℕ) : ℕ → ℕ → List Vec2 → Option (List Vec2)
  | 0, _, _ => none
  | fuel + 1, next, poles =>
    if next < poles.length then
      let poles := poles.set next (setNdim (poles.getD next []) ndim)
      let poles := gens.foldl
        (fun ps gen =>
          let newPole := gen.transform (ps.getD next [])
          if ps.all fun pole => !(Vec2.approxEq pole newPole) then ps ++ [newPole]
          else ps)
        poles
      orbitLoop gens ndim fuel (next + 1) poles
    else
      some poles

/-- `shape_geom(ndim, generators, base_facets)` (`polytope.rs:8`).  The
magnitude function (`Vector::mag`, a square root, irrational on `ℚ`) is a
parameter; the `expect("no base facets")` panic and all downstream panics
are `Except.error`, and the two unbounded loops carry fuel (`none` from the
orbit loop is reported as an error distinct from any panic). -/
def shape_geom (mag : Vec2 → ℚ) (ndim : ℕ) (generators : List Matrix)
    (base_facets : List Vec2) (orbitFuel sliceFuel polyFuel : ℕ) :
    Except String (List Polygon) := do
  let radius ← match base_facets.map mag with
    | [] => Except.error "no base facets"
    | x :: xs => pure (xs.foldl max x)
  let initial_radius := radius * 2 * (ndim : ℚ)
  let arena := newCube ndim initial_radius
  let facetPoles ← match orbitLoop generators ndim orbitFuel 0 base_facets with
    | none => Except.error "orbit fuel exhausted"
    | some ps => pure ps
  let arena ← facetPoles.foldlM (fun a pole => sliceByPlane a pole sliceFuel) arena
  polygons arena polyFuel

/-! ## Claim C7: slicing by a plane beyond / engulfing the whole arena -/

/-- Out-of-range `getD` is the default. -/
lemma getD_default_of_le {α : Type} (l : List α) (i : ℕ) (d : α)
    (h : l.length ≤ i) : l.getD i d = d := by
  rw [List.getD_eq_getElem?_getD, List.getElem?_eq_none h]
  rfl

/-- A live slot bounds its index by the arena size. -/
lemma lt_length_of_getD_some {α : Type} (l : List (Option α)) (i : ℕ)
    (n : α) (h : l.getD i none = some n) : i < l.length := by
  by_contra hc
  rw [getD_default_of_le l i none (by omega)] at h
  exact Option.noConfusion h

/-- Writing back the value already stored leaves the list unchanged. -/
lemma set_getD_self {α : Type} (l : List α) (i : ℕ) (d : α) :
    l.set i (l.getD i d) = l := by
  induction l generalizing i with
  | nil => rfl
  | cons x xs ih =>
    cases i with
    | zero => rfl
    | succ j =>
      show x :: xs.set j (xs.getD j d) = x :: xs
      rw [ih]

/-- Lists of options agreeing under `getD` and in length are equal. -/
lemma list_ext_getD {α : Type} (l₁ l₂ : List (Option α))
    (hlen : l₁.length = l₂.length)
    (h : ∀ i, i < l₁.length → l₁.getD i none = l₂.getD i none) : l₁ = l₂ := by
  apply List.ext_getElem?
  intro i
  by_cases hi : i < l₁.length
  · have hv := h i hi
    rw [List.getD_eq_getElem?_getD, List.getD_eq_getElem?_getD,
      List.getElem?_eq_getElem hi, List.getElem?_eq_getElem (hlen ▸ hi)] at hv
    rw [List.getElem?_eq_getElem hi, List.getElem?_eq_getElem (hlen ▸ hi)]
    simpa using hv
  · rw [List.getElem?_eq_none (by omega), List.getElem?_eq_none (by omega)]

/-- Rebuilding a node with its own branch contents is the identity. -/
lemma polytope2_eta_branch (n : Polytope2) (r : ℕ) (ch : List PId)
    (h : n.contents = .branch r ch) :
    ({ n with contents := .branch r ch } : Polytope2) = n := by
  cases n
  simp only at h
  rw [← h]

/-- Rebuilding a node with its own slice result is the identity. -/
lemma polytope2_eta_result (n : Polytope2) (r : SliceResult)
    (h : n.slice_result = r) :
    ({ n with slice_result := r } : Polytope2) = n := by
  cases n
  simp only at h
  rw [← h]

/-- All slice results untouched: the resting state of an arena between
calls to `slice_by_plane`. -/
def allUnknown (a : PolytopeArena) : Bool :=
  a.polytopes.all fun slot => slot.all fun n => n.slice_result == SliceResult.unknown

/-- Every live vertex lies strictly inside the kept half-space
(`(pole − point)·pole > −ε`). -/
def pointsOutside (a : PolytopeArena) (pole : Vec2) : Bool :=
  a.polytopes.all fun slot => slot.all fun n =>
    match n.contents with
    | .point pt => decide (Vec2.dot (Vec2.sub pole pt) pole > -EPSILON)
    | .branch _ _ => true

/-- Every live vertex is cut off by the plane
(`(pole − point)·pole ≤ −ε`). -/
def pointsInside (a : PolytopeArena) (pole : Vec2) : Bool :=
  a.polytopes.all fun slot => slot.all fun n =>
    match n.contents with
    | .point pt => decide (Vec2.dot (Vec2.sub pole pt) pole ≤ -EPSILON)
    | .branch _ _ => true

/-- Every live branch node has at least one child. -/
def branchesNonempty (a : PolytopeArena) : Bool :=
  a.polytopes.all fun slot => slot.all fun n =>
    match n.contents with
    | .point _ => true
    | .branch _ ch => !ch.isEmpty

/-- Extract the per-node facts behind one of the `List.all` arena
predicates. -/
lemma arena_all_node (p : Polytope2 → Bool) (a : PolytopeArena)
    (h : (a.polytopes.all fun slot => slot.all p) = true)
    (i : ℕ) (n : Polytope2) (hn : a.polytopes.getD i none = some n) :
    p n = true := by
  have hlt := lt_length_of_getD_some _ _ _ hn
  have hmem : some n ∈ a.polytopes := hn ▸ getD_mem _ _ _ hlt
  have := List.all_eq_true.mp h _ hmem
  simpa [Option.all] using this

/-- The invariant maintained while slicing an arena whose live points all
lie strictly on the kept side: results are `Unknown` or `Kept`, points are
outside, branches are nonempty. -/
def InvKept (pole : Vec2) (a : PolytopeArena) : Prop :=
  ∀ i n, a.polytopes.getD i none = some n →
    (n.slice_result = SliceResult.unknown ∨ n.slice_result = SliceResult.kept) ∧
    (∀ pt, n.contents = .point pt → Vec2.dot (Vec2.sub pole pt) pole > -EPSILON) ∧
    (∀ r ch, n.contents = .branch r ch → ch ≠ [])

/-- One slicing pass in the all-kept regime only flips `Unknown` results to
`Kept`; everything else about the arena is untouched. -/
def KeptUpd (a a' : PolytopeArena) : Prop :=
  a'.root = a.root ∧ a'.polytopes.length = a.polytopes.length ∧
  ∀ i, a'.polytopes.getD i none = a.polytopes.getD i none ∨
    ∃ n, a.polytopes.getD i none = some n ∧
      n.slice_result = SliceResult.unknown ∧
      a'.polytopes.getD i none = some { n with slice_result := SliceResult.kept }

lemma keptUpd_refl (a : PolytopeArena) : KeptUpd a a :=
  ⟨rfl, rfl, fun _ => Or.inl rfl⟩

lemma keptUpd_trans {a b c : PolytopeArena} (h1 : KeptUpd a b)
    (h2 : KeptUpd b c) : KeptUpd a c := by
  refine ⟨h2.1.trans h1.1, h2.2.1.trans h1.2.1, fun i => ?_⟩
  rcases h2.2.2 i with hbc | ⟨n, hbn, hbu, hcn⟩
  · rcases h1.2.2 i with hab | ⟨m, ham, hmu, hbm⟩
    · exact Or.inl (hbc.trans hab)
    · exact Or.inr ⟨m, ham, hmu, hbc.trans hbm⟩
  · rcases h1.2.2 i with hab | ⟨m, ham, hmu, hbm⟩
    · exact Or.inr ⟨n, hab.symm.trans hbn, hbu, hcn⟩
    · rw [hbm] at hbn
      cases hbn
      simp at hbu

lemma keptUpd_slot {a b : PolytopeArena} (h : KeptUpd a b) (i : ℕ)
    (n : Polytope2) (hn : a.polytopes.getD i none = some n) :
    ∃ n', b.polytopes.getD i none = some n' ∧ n'.parents = n.parents ∧
      n'.contents = n.contents ∧
      (n'.slice_result = n.slice_result ∨
        (n.slice_result = SliceResult.unknown ∧
          n'.slice_result = SliceResult.kept)) := by
  rcases h.2.2 i with heq | ⟨m, hm, hmu, hb⟩
  · exact ⟨n, heq.trans hn, rfl, rfl, Or.inl rfl⟩
  · rw [hm] at hn
    cases hn
    exact ⟨_, hb, rfl, rfl, Or.inr ⟨hmu, rfl⟩⟩

lemma keptUpd_none {a b : PolytopeArena} (h : KeptUpd a b) (i : ℕ)
    (hn : a.polytopes.getD i none = none) :
    b.polytopes.getD i none = none := by
  rcases h.2.2 i with heq | ⟨m, hm, _, _⟩
  · exact heq.trans hn
  · rw [hm] at hn
    exact Option.noConfusion hn

lemma keptUpd_kept {a b : PolytopeArena} (h : KeptUpd a b) (i : ℕ)
    (n : Polytope2) (hn : a.polytopes.getD i none = some n)
    (hk : n.slice_result = SliceResult.kept) :
    ∃ n', b.polytopes.getD i none = some n' ∧
      n'.slice_result = SliceResult.kept := by
  obtain ⟨n', hn', _, _, hres⟩ := keptUpd_slot h i n hn
  rcases hres with he | ⟨hu, hk'⟩
  · exact ⟨n', hn', he.trans hk⟩
  · exact ⟨n', hn', hk'⟩

lemma invKept_of_keptUpd {pole : Vec2} {a b : PolytopeArena}
    (hinv : InvKept pole a) (h : KeptUpd a b) : InvKept pole b := by
  intro i n' hn'
  rcases h.2.2 i with heq | ⟨n, hm, hmu, hb⟩
  · exact hinv i n' (heq ▸ hn')
  · rw [hb] at hn'
    cases hn'
    obtain ⟨_, hpt, hbr⟩ := hinv i n hm
    exact ⟨Or.inr rfl, hpt, hbr⟩

/-- Splitting a successful `Except` bind. -/
lemma except_bind_ok {ε α β : Type} {x : Except ε α} {f : α → Except ε β}
    {out : β} (h : x >>= f = Except.ok out) :
    ∃ v, x = Except.ok v ∧ f v = Except.ok out := by
  cases x with
  | error e =>
    simp only [bind, Except.bind] at h
    exact Except.noConfusion h
  | ok v =>
    refine ⟨v, rfl, ?_⟩
    simpa only [bind, Except.bind] using h

/-- Reading a slot that is known to be live. -/
lemma getNode_eq_ok {a : PolytopeArena} {p : PId} {node : Polytope2}
    (h : a.polytopes.getD p none = some node) :
    getNode a p = Except.ok node := by
  unfold getNode
  rw [h]

/-- A successful `getNode` exposes the slot. -/
lemma getNode_ok_getD {a : PolytopeArena} {p : PId} {node : Polytope2}
    (h : getNode a p = Except.ok node) :
    a.polytopes.getD p none = some node := by
  unfold getNode at h
  cases hx : a.polytopes.getD p none with
  | none => rw [hx] at h; exact Except.noConfusion h
  | some n =>
    rw [hx] at h
    cases h
    rfl

/-- `setResult` on a live slot. -/
lemma setResult_eq {a : PolytopeArena} {p : PId} {node : Polytope2}
    (h : a.polytopes.getD p none = some node) (r : SliceResult) :
    setResult a p r
      = Except.ok (setNode a p { node with slice_result := r }) := by
  unfold setResult
  rw [getNode_eq_ok h]
  rfl

/-- `setChildren` on a live branch slot. -/
lemma setChildren_eq {a : PolytopeArena} {p : PId} {node : Polytope2}
    {r : ℕ} {ch : List PId} (h : a.polytopes.getD p none = some node)
    (hc : node.contents = .branch r ch) (newCh : List PId) :
    setChildren a p newCh
      = Except.ok (setNode a p { node with contents := .branch r newCh }) := by
  unfold setChildren
  rw [getNode_eq_ok h]
  simp only [bind, Except.bind, hc]
  rfl

/-- Slots after `setNode`. -/
lemma getD_setNode (a : PolytopeArena) (p : PId) (n : Polytope2) (i : ℕ)
    (hp : p < a.polytopes.length) :
    (setNode a p n).polytopes.getD i none
      = if p = i then some n else a.polytopes.getD i none :=
  getD_set a.polytopes p i (some n) none hp

/-- Setting a slot back to its current value is the identity. -/
lemma setNode_self (a : PolytopeArena) (p : PId) (n : Polytope2)
    (h : a.polytopes.getD p none = some n) : setNode a p n = a := by
  unfold setNode
  rw [show a.polytopes.set p (some n) = a.polytopes from by
    rw [← h]; exact set_getD_self a.polytopes p none]

/-- Flipping one `Unknown` slot to `Kept` is a `KeptUpd`. -/
lemma keptUpd_setResult {a : PolytopeArena} {p : PId} {n : Polytope2}
    (h : a.polytopes.getD p none = some n)
    (hu : n.slice_result = SliceResult.unknown) :
    KeptUpd a (setNode a p { n with slice_result := SliceResult.kept }) := by
  have hp := lt_length_of_getD_some _ _ _ h
  refine ⟨rfl, by simp [setNode], fun i => ?_⟩
  rw [getD_setNode a p _ i hp]
  by_cases hip : p = i
  · subst hip
    exact Or.inr ⟨n, h, hu, by rw [if_pos rfl]⟩
  · rw [if_neg hip]
    exact Or.inl rfl

/-- The per-child fold of `slice_polytope` in the all-kept regime: the new
child list replays the old one, no boundary accumulates, and every child
comes out `Kept`. -/
lemma slice_fold_kept (pole : Vec2) (fuel : ℕ)
    (ihf : ∀ a p out, InvKept pole a →
      slicePolytope pole fuel a p = Except.ok out →
      out.2 = SliceResult.kept ∧ KeptUpd a out.1 ∧
      ∃ n', out.1.polytopes.getD p none = some n' ∧
        n'.slice_result = SliceResult.kept) :
    ∀ (children : List PId) (init out : PolytopeArena × List PId × List PId),
      InvKept pole init.1 →
      children.foldlM
        (fun (acc : PolytopeArena × List PId × List PId) child => do
          let (a1, r) ← slicePolytope pole fuel acc.1 child
          match r with
          | .unknown => Except.error "polytope didn't get slice result computed"
          | .kept => pure (a1, acc.2.1 ++ [child], acc.2.2)
          | .removed => pure (a1, acc.2.1, acc.2.2)
          | .modified inter => pure (a1, acc.2.1 ++ [child], acc.2.2 ++ [inter]))
        init = Except.ok out →
      KeptUpd init.1 out.1 ∧ out.2.1 = init.2.1 ++ children ∧
      out.2.2 = init.2.2 ∧
      ∀ c ∈ children, ∃ n', out.1.polytopes.getD c none = some n' ∧
        n'.slice_result = SliceResult.kept := by
  intro children
  induction children with
  | nil =>
    intro init out hinv h
    simp only [List.foldlM_nil, pure, Except.pure, Except.ok.injEq] at h
    subst h
    exact ⟨keptUpd_refl _, by simp, rfl, by simp⟩
  | cons c cs ih =>
    intro init out hinv h
    rw [List.foldlM_cons] at h
    obtain ⟨acc, hstep, h⟩ := except_bind_ok h
    obtain ⟨ar, hsp, hmatch⟩ := except_bind_ok hstep
    obtain ⟨a1, r⟩ := ar
    obtain ⟨hr, hupd, n', hn', hn'k⟩ := ihf init.1 c (a1, r) hinv hsp
    have hr2 : r = SliceResult.kept := hr
    subst hr2
    simp only [pure, Except.pure, Except.ok.injEq] at hmatch
    subst hmatch
    obtain ⟨hupd', hnc', hbd', hcs⟩ :=
      ih _ out (invKept_of_keptUpd hinv hupd) h
    refine ⟨keptUpd_trans hupd hupd', ?_, hbd', ?_⟩
    · rw [hnc']
      simp
    · intro c' hc'
      rcases List.mem_cons.mp hc' with hc0 | hmem
      · obtain ⟨m, hm, hmk⟩ := keptUpd_kept hupd' c n' hn' hn'k
        rw [hc0]
        exact ⟨m, hm, hmk⟩
      · exact hcs c' hmem

/-- In the all-kept regime, every successful `slice_polytope` call returns
`Kept`, only flips `Unknown` results to `Kept`, and marks the sliced node
`Kept`. -/
lemma slicePolytope_all_kept (pole : Vec2) :
    ∀ fuel, ∀ (a : PolytopeArena) (p : PId)
      (out : PolytopeArena × SliceResult), InvKept pole a →
      slicePolytope pole fuel a p = Except.ok out →
      out.2 = SliceResult.kept ∧ KeptUpd a out.1 ∧
      ∃ n', out.1.polytopes.getD p none = some n' ∧
        n'.slice_result = SliceResult.kept := by
  intro fuel
  induction fuel with
  | zero =>
    intro a p out _ h
    exact Except.noConfusion h
  | succ fuel ih =>
    intro a p out hinv h
    unfold slicePolytope at h
    obtain ⟨node, hg, h⟩ := except_bind_ok h
    have hgd : a.polytopes.getD p none = some node := getNode_ok_getD hg
    simp only at h
    by_cases hres : node.slice_result = SliceResult.unknown
    · rw [if_neg (by simp [hres])] at h
      cases hc : node.contents with
      | point pt =>
        rw [hc] at h
        simp only [] at h
        have hcond : Vec2.dot (Vec2.sub pole pt) pole > -EPSILON :=
          (hinv p node hgd).2.1 pt hc
        rw [if_pos hcond] at h
        obtain ⟨y, hy, h⟩ := except_bind_ok h
        simp only [pure, Except.pure, Except.ok.injEq] at hy
        subst hy
        obtain ⟨a2, hset, h⟩ := except_bind_ok h
        simp only at hset
        rw [setResult_eq hgd SliceResult.kept] at hset
        cases hset
        simp only [pure, Except.pure, Except.ok.injEq] at h
        subst h
        have hp := lt_length_of_getD_some _ _ _ hgd
        refine ⟨rfl, keptUpd_setResult hgd hres, ?_⟩
        refine ⟨{ node with slice_result := SliceResult.kept }, ?_, rfl⟩
        rw [getD_setNode a p _ p hp, if_pos rfl]
      | branch rank oldChildren =>
        rw [hc] at h
        simp only [] at h
        obtain ⟨acc, hfold, h⟩ := except_bind_ok h
        obtain ⟨hupd, hnc0, hbd0, hcs⟩ :=
          slice_fold_kept pole fuel ih oldChildren (a, ([], [])) acc hinv hfold
        have hnc : acc.2.1 = oldChildren := by simpa using hnc0
        have hne : oldChildren ≠ [] := (hinv p node hgd).2.2 rank oldChildren hc
        obtain ⟨n1, hn1, hn1par, hn1con, hn1res⟩ := keptUpd_slot hupd p node hgd
        have hn1c : n1.contents = .branch rank oldChildren := hn1con.trans hc
        obtain ⟨amid, hsetch, h⟩ := except_bind_ok h
        rw [hnc, setChildren_eq hn1 hn1c oldChildren] at hsetch
        cases hsetch
        have hamid : setNode acc.1 p
            { n1 with contents := .branch rank oldChildren } = acc.1 := by
          rw [polytope2_eta_branch n1 rank oldChildren hn1c]
          exact setNode_self acc.1 p n1 hn1
        rw [hamid] at h
        have hempty : acc.2.1.isEmpty = false := by
          rw [hnc]
          cases oldChildren with
          | nil => exact absurd rfl hne
          | cons x xs => rfl
        rw [hempty] at h
        simp only [Bool.false_eq_true, if_false] at h
        have hall : (oldChildren.all fun child => resultIsKept acc.1 child)
            = true := by
          rw [List.all_eq_true]
          intro c hcm
          obtain ⟨m, hm, hmk⟩ := hcs c hcm
          unfold resultIsKept
          rw [hm]
          simp [hmk]
        rw [if_pos hall] at h
        obtain ⟨y, hy, h⟩ := except_bind_ok h
        simp only [pure, Except.pure, Except.ok.injEq] at hy
        subst hy
        obtain ⟨a2, hset, h⟩ := except_bind_ok h
        simp only at hset
        rw [setResult_eq hn1 SliceResult.kept] at hset
        cases hset
        simp only [pure, Except.pure, Except.ok.injEq] at h
        subst h
        have hp1 := lt_length_of_getD_some _ _ _ hn1
        have hone : KeptUpd acc.1
            (setNode acc.1 p { n1 with slice_result := SliceResult.kept }) := by
          rcases hn1res with he | ⟨_, hk⟩
          · exact keptUpd_setResult hn1 (he.trans hres)
          · rw [polytope2_eta_result n1 SliceResult.kept hk,
              setNode_self acc.1 p n1 hn1]
            exact keptUpd_refl _
        refine ⟨rfl, keptUpd_trans hupd hone, ?_⟩
        exact ⟨{ n1 with slice_result := SliceResult.kept },
          by rw [getD_setNode acc.1 p _ p hp1, if_pos rfl], rfl⟩
    · rw [if_pos (by simp [hres])] at h
      simp only [pure, Except.pure, Except.ok.injEq] at h
      subst h
      have hkept : node.slice_result = SliceResult.kept := by
        rcases (hinv p node hgd).1 with hu | hk
        · exact absurd hu hres
        · exact hk
      exact ⟨hkept, keptUpd_refl a, node, hgd, hkept⟩

/-- The invariant maintained while slicing an arena whose live points are
all cut off: results are `Unknown` or `Removed`, and no point survives the
distance test. -/
def InvRem (pole : Vec2) (a : PolytopeArena) : Prop :=
  ∀ i n, a.polytopes.getD i none = some n →
    (n.slice_result = SliceResult.unknown ∨
      n.slice_result = SliceResult.removed) ∧
    (∀ pt, n.contents = .point pt →
      ¬ Vec2.dot (Vec2.sub pole pt) pole > -EPSILON)

/-- One slicing pass in the all-removed regime: `Unknown` nodes become
`Removed`, points keep their coordinates, branches lose their children. -/
def RemUpd (a a' : PolytopeArena) : Prop :=
  a'.root = a.root ∧ a'.polytopes.length = a.polytopes.length ∧
  ∀ i, a'.polytopes.getD i none = a.polytopes.getD i none ∨
    ∃ n n', a.polytopes.getD i none = some n ∧
      n.slice_result = SliceResult.unknown ∧
      a'.polytopes.getD i none = some n' ∧
      n'.slice_result = SliceResult.removed ∧
      (∀ pt, n.contents = .point pt → n'.contents = .point pt) ∧
      (∀ r ch, n.contents = .branch r ch → n'.contents = .branch r [])

lemma remUpd_refl (a : PolytopeArena) : RemUpd a a :=
  ⟨rfl, rfl, fun _ => Or.inl rfl⟩

lemma remUpd_trans {a b c : PolytopeArena} (h1 : RemUpd a b)
    (h2 : RemUpd b c) : RemUpd a c := by
  refine ⟨h2.1.trans h1.1, h2.2.1.trans h1.2.1, fun i => ?_⟩
  rcases h2.2.2 i with hbc | ⟨n, n', hbn, hbu, hcn, hcr, hcp, hcb⟩
  · rcases h1.2.2 i with hab | ⟨m, m', ham, hmu, hbm, hmr, hmp, hmb⟩
    · exact Or.inl (hbc.trans hab)
    · exact Or.inr ⟨m, m', ham, hmu, hbc.trans hbm, hmr, hmp, hmb⟩
  · rcases h1.2.2 i with hab | ⟨m, m', ham, hmu, hbm, hmr, hmp, hmb⟩
    · exact Or.inr ⟨n, n', hab.symm.trans hbn, hbu, hcn, hcr, hcp, hcb⟩
    · rw [hbm] at hbn
      cases hbn
      rw [hmr] at hbu
      exact absurd hbu (by simp)

lemma remUpd_none {a b : PolytopeArena} (h : RemUpd a b) (i : ℕ)
    (hn : a.polytopes.getD i none = none) :
    b.polytopes.getD i none = none := by
  rcases h.2.2 i with heq | ⟨m, m', hm, _, _⟩
  · exact heq.trans hn
  · rw [hm] at hn
    exact Option.noConfusion hn

lemma invRem_of_remUpd {pole : Vec2} {a b : PolytopeArena}
    (hinv : InvRem pole a) (h : RemUpd a b) : InvRem pole b := by
  intro i n' hn'
  rcases h.2.2 i with heq | ⟨n, m', hm, hmu, hb, hbr, hbp, hbb⟩
  · exact hinv i n' (heq ▸ hn')
  · rw [hb] at hn'
    cases hn'
    refine ⟨Or.inr hbr, fun pt hpt => ?_⟩
    cases hcn : n.contents with
    | point pt0 =>
      have := hbp pt0 hcn
      rw [hpt] at this
      cases this
      exact (hinv i n hm).2 _ hcn
    | branch r ch =>
      have := hbb r ch hcn
      rw [hpt] at this
      exact PContents.noConfusion this

/-- A successful `setChildren` exposes the branch node it rewrote. -/
lemma setChildren_ok_inv {a : PolytopeArena} {p : PId} {newCh : List PId}
    {b : PolytopeArena} (h : setChildren a p newCh = Except.ok b) :
    ∃ n r ch, a.polytopes.getD p none = some n ∧
      n.contents = .branch r ch ∧
      b = setNode a p { n with contents := .branch r newCh } := by
  unfold setChildren at h
  cases hx : a.polytopes.getD p none with
  | none =>
    rw [show getNode a p = Except.error "polytope index unwrap failed" from by
      unfold getNode; rw [hx]] at h
    exact Except.noConfusion h
  | some n =>
    rw [getNode_eq_ok hx] at h
    simp only [bind, Except.bind] at h
    cases hc : n.contents with
    | point pt =>
      rw [hc] at h
      exact Except.noConfusion h
    | branch r ch =>
      rw [hc] at h
      cases h
      exact ⟨n, r, ch, rfl, hc, rfl⟩

/-- The per-child fold of `slice_polytope` in the all-removed regime: no
child survives, so both accumulator lists stay as they began. -/
lemma slice_fold_removed (pole : Vec2) (fuel : ℕ)
    (ihf : ∀ a p out, InvRem pole a →
      slicePolytope pole fuel a p = Except.ok out →
      out.2 = SliceResult.removed ∧ RemUpd a out.1) :
    ∀ (children : List PId) (init out : PolytopeArena × List PId × List PId),
      InvRem pole init.1 →
      children.foldlM
        (fun (acc : PolytopeArena × List PId × List PId) child => do
          let (a1, r) ← slicePolytope pole fuel acc.1 child
          match r with
          | .unknown => Except.error "polytope didn't get slice result computed"
          | .kept => pure (a1, acc.2.1 ++ [child], acc.2.2)
          | .removed => pure (a1, acc.2.1, acc.2.2)
          | .modified inter => pure (a1, acc.2.1 ++ [child], acc.2.2 ++ [inter]))
        init = Except.ok out →
      RemUpd init.1 out.1 ∧ out.2.1 = init.2.1 ∧ out.2.2 = init.2.2 := by
  intro children
  induction children with
  | nil =>
    intro init out hinv h
    simp only [List.foldlM_nil, pure, Except.pure, Except.ok.injEq] at h
    subst h
    exact ⟨remUpd_refl _, rfl, rfl⟩
  | cons c cs ih =>
    intro init out hinv h
    rw [List.foldlM_cons] at h
    obtain ⟨acc, hstep, h⟩ := except_bind_ok h
    obtain ⟨ar, hsp, hmatch⟩ := except_bind_ok hstep
    obtain ⟨a1, r⟩ := ar
    obtain ⟨hr, hupd⟩ := ihf init.1 c (a1, r) hinv hsp
    have hr2 : r = SliceResult.removed := hr
    subst hr2
    simp only [pure, Except.pure, Except.ok.injEq] at hmatch
    subst hmatch
    obtain ⟨hupd', hnc', hbd'⟩ := ih _ out (invRem_of_remUpd hinv hupd) h
    exact ⟨remUpd_trans hupd hupd', hnc', hbd'⟩

/-- In the all-removed regime, every successful `slice_polytope` call
returns `Removed` and performs only removal updates. -/
lemma slicePolytope_all_removed (pole : Vec2) :
    ∀ fuel, ∀ (a : PolytopeArena) (p : PId)
      (out : PolytopeArena × SliceResult), InvRem pole a →
      slicePolytope pole fuel a p = Except.ok out →
      out.2 = SliceResult.removed ∧ RemUpd a out.1 := by
  intro fuel
  induction fuel with
  | zero =>
    intro a p out _ h
    exact Except.noConfusion h
  | succ fuel ih =>
    intro a p out hinv h
    unfold slicePolytope at h
    obtain ⟨node, hg, h⟩ := except_bind_ok h
    have hgd : a.polytopes.getD p none = some node := getNode_ok_getD hg
    simp only at h
    by_cases hres : node.slice_result = SliceResult.unknown
    · rw [if_neg (by simp [hres])] at h
      cases hc : node.contents with
      | point pt =>
        rw [hc] at h
        simp only [] at h
        have hcond : ¬ Vec2.dot (Vec2.sub pole pt) pole > -EPSILON :=
          (hinv p node hgd).2 pt hc
        rw [if_neg hcond] at h
        obtain ⟨y, hy, h⟩ := except_bind_ok h
        simp only [pure, Except.pure, Except.ok.injEq] at hy
        subst hy
        obtain ⟨a2, hset, h⟩ := except_bind_ok h
        simp only at hset
        rw [setResult_eq hgd SliceResult.removed] at hset
        cases hset
        simp only [pure, Except.pure, Except.ok.injEq] at h
        subst h
        have hp := lt_length_of_getD_some _ _ _ hgd
        refine ⟨rfl, rfl, by simp [setNode], fun i => ?_⟩
        rw [show (setNode a p { node with slice_result := SliceResult.removed }).polytopes.getD i none
            = if p = i then some { node with slice_result := SliceResult.removed }
              else a.polytopes.getD i none from
          getD_setNode a p _ i hp]
        by_cases hip : p = i
        · subst hip
          rw [if_pos rfl]
          refine Or.inr ⟨node, _, hgd, hres, rfl, rfl, fun pt0 hpt0 => ?_, fun r ch hrch => ?_⟩
          · exact hpt0
          · rw [hc] at hrch
            exact PContents.noConfusion hrch
        · rw [if_neg hip]
          exact Or.inl rfl
      | branch rank oldChildren =>
        rw [hc] at h
        simp only [] at h
        obtain ⟨acc, hfold, h⟩ := except_bind_ok h
        obtain ⟨hupd, hnc0, hbd0⟩ :=
          slice_fold_removed pole fuel ih oldChildren (a, ([], [])) acc hinv hfold
        have hnc : acc.2.1 = [] := by simpa using hnc0
        obtain ⟨amid, hsetch, h⟩ := except_bind_ok h
        rw [hnc] at hsetch h
        obtain ⟨n1, r1, ch1, hn1, hn1c, hamid⟩ := setChildren_ok_inv hsetch
        subst hamid
        have hp1 := lt_length_of_getD_some _ _ _ hn1
        rw [if_pos (show (List.nil : List PId).isEmpty = true from rfl)] at h
        obtain ⟨y, hy, h⟩ := except_bind_ok h
        simp only [pure, Except.pure, Except.ok.injEq] at hy
        subst hy
        obtain ⟨a2, hset, h⟩ := except_bind_ok h
        simp only at hset
        have hmidslot : (setNode acc.1 p { n1 with contents := .branch r1 [] }).polytopes.getD p none
            = some { n1 with contents := .branch r1 [] } := by
          rw [getD_setNode acc.1 p _ p hp1, if_pos rfl]
        rw [setResult_eq hmidslot SliceResult.removed] at hset
        cases hset
        simp only [pure, Except.pure, Except.ok.injEq] at h
        subst h
        refine ⟨rfl, ?_⟩
        have hfinal : ∀ i,
            (setNode (setNode acc.1 p { n1 with contents := .branch r1 [] }) p
              { { n1 with contents := .branch r1 [] } with
                  slice_result := SliceResult.removed }).polytopes.getD i none
            = if p = i
              then some ⟨n1.parents, .branch r1 [], SliceResult.removed⟩
              else acc.1.polytopes.getD i none := by
          intro i
          rw [getD_setNode _ p _ i (by simpa [setNode] using hp1),
            getD_setNode acc.1 p _ i hp1]
          by_cases hip : p = i
          · rw [if_pos hip, if_pos hip]
          · rw [if_neg hip, if_neg hip, if_neg hip]
        have honeStep : RemUpd acc.1
            (setNode (setNode acc.1 p { n1 with contents := .branch r1 [] }) p
              { { n1 with contents := .branch r1 [] } with
                  slice_result := SliceResult.removed }) := by
          refine ⟨rfl, by simp [setNode], fun i => ?_⟩
          rw [hfinal i]
          by_cases hip : p = i
          · subst hip
            rw [if_pos rfl]
            rcases (invRem_of_remUpd hinv hupd p n1 hn1).1 with hu | hrm
            · refine Or.inr ⟨n1, _, hn1, hu, rfl, rfl, fun pt0 hpt0 => ?_,
                fun r ch hrch => ?_⟩
              · rw [hn1c] at hpt0
                exact PContents.noConfusion hpt0
              · rw [hn1c] at hrch
                cases hrch
                rfl
            · -- the slot was already removed, so it was emptied earlier and
              -- this write is the identity
              rcases hupd.2.2 p with heq | ⟨m, m', hm, hmu, hb, hbr, hbp, hbb⟩
              · have han : a.polytopes.getD p none = some n1 :=
                  heq.symm.trans hn1
                rw [hgd] at han
                cases han
                rw [hres] at hrm
                exact absurd hrm (by simp)
              · have hch1 : n1.contents = .branch r1 [] := by
                  rw [hb] at hn1
                  cases hn1
                  rw [hgd] at hm
                  cases hm
                  have hbemp := hbb rank oldChildren hc
                  have h2 : PContents.branch r1 ch1 = PContents.branch rank [] :=
                    hn1c.symm.trans hbemp
                  injection h2 with hrr hcc
                  rw [hn1c, hcc]
                refine Or.inl ?_
                rw [show (⟨n1.parents, .branch r1 [], SliceResult.removed⟩ : Polytope2)
                      = n1 from by
                    cases n1
                    simp only at hch1 hrm
                    rw [← hch1, ← hrm],
                  hn1]
          · rw [if_neg hip]
            exact Or.inl rfl
        exact remUpd_trans hupd honeStep
    · rw [if_pos (by simp [hres])] at h
      simp only [pure, Except.pure, Except.ok.injEq] at h
      subst h
      have hrm : node.slice_result = SliceResult.removed := by
        rcases (hinv p node hgd).1 with hu | hk
        · exact absurd hu hres
        · exact hk
      exact ⟨hrm, remUpd_refl a⟩

/-- Characterisation of a successful sweep: no slot was `Unknown`,
`Removed` slots are freed, and the rest are reset. -/
lemma sweepArena_ok : ∀ (slots out : List (Option Polytope2)),
    sweepArena slots = Except.ok out →
    out.length = slots.length ∧
    ∀ i, (slots.getD i none = none → out.getD i none = none) ∧
      ∀ n, slots.getD i none = some n →
        n.slice_result ≠ SliceResult.unknown ∧
        out.getD i none = (if n.slice_result = SliceResult.removed then none
          else some { n with slice_result := SliceResult.unknown }) := by
  intro slots
  induction slots with
  | nil =>
    intro out h
    simp only [sweepArena, List.mapM_nil, pure, Except.pure, Except.ok.injEq] at h
    subst h
    exact ⟨rfl, fun i => ⟨fun _ => rfl, fun n hn => Option.noConfusion hn⟩⟩
  | cons s ss ih =>
    intro out h
    unfold sweepArena at h
    rw [List.mapM_cons] at h
    obtain ⟨y, hy, h⟩ := except_bind_ok h
    obtain ⟨ys, hys, h⟩ := except_bind_ok h
    simp only [pure, Except.pure, Except.ok.injEq] at h
    subst h
    obtain ⟨hlen, htail⟩ := ih ys hys
    have hhead : (s = none → y = none) ∧
        ∀ n, s = some n → n.slice_result ≠ SliceResult.unknown ∧
          y = (if n.slice_result = SliceResult.removed then none
            else some { n with slice_result := SliceResult.unknown }) := by
      cases s with
      | none =>
        simp only [pure, Except.pure, Except.ok.injEq] at hy
        exact ⟨fun _ => hy.symm, fun n hn => Option.noConfusion hn⟩
      | some q =>
        simp only [] at hy
        refine ⟨fun hq => Option.noConfusion hq, fun n hn => ?_⟩
        cases hn
        cases hq : q.slice_result with
        | unknown =>
          rw [hq] at hy
          exact Except.noConfusion hy
        | removed =>
          rw [hq] at hy
          simp only [pure, Except.pure, Except.ok.injEq] at hy
          exact ⟨by simp, by rw [if_pos rfl, ← hy]⟩
        | kept =>
          rw [hq] at hy
          simp only [pure, Except.pure, Except.ok.injEq] at hy
          exact ⟨by simp, by rw [if_neg (by simp), ← hy]⟩
        | modified j =>
          rw [hq] at hy
          simp only [pure, Except.pure, Except.ok.injEq] at hy
          exact ⟨by simp, by rw [if_neg (by simp), ← hy]⟩
    refine ⟨by simp [hlen], fun i => ?_⟩
    cases i with
    | zero => exact hhead
    | succ j => exact htail j

/-- Assembling `InvKept` from the three whole-arena flags. -/
lemma invKept_of_flags (a : PolytopeArena) (pole : Vec2)
    (hU : allUnknown a = true) (hO : pointsOutside a pole = true)
    (hB : branchesNonempty a = true) : InvKept pole a := by
  intro i n hn
  refine ⟨Or.inl ?_, fun pt hpt => ?_, fun r ch hch => ?_⟩
  · have := arena_all_node _ a hU i n hn
    simpa using this
  · have := arena_all_node _ a hO i n hn
    rw [hpt] at this
    exact of_decide_eq_true this
  · have := arena_all_node _ a hB i n hn
    rw [hch] at this
    intro hnil
    rw [hnil] at this
    exact Bool.noConfusion this

/-- Assembling `InvRem` from the two whole-arena flags. -/
lemma invRem_of_flags (a : PolytopeArena) (pole : Vec2)
    (hU : allUnknown a = true) (hI : pointsInside a pole = true) :
    InvRem pole a := by
  intro i n hn
  refine ⟨Or.inl ?_, fun pt hpt => ?_⟩
  · have := arena_all_node _ a hU i n hn
    simpa using this
  · have := arena_all_node _ a hI i n hn
    rw [hpt] at this
    exact not_lt.mpr (of_decide_eq_true this)

/-- `getD` over a list of `none`s. -/
lemma getD_replicate_none {α : Type} (L i : ℕ) :
    (List.replicate L (none : Option α)).getD i none = none := by
  rw [List.getD_eq_getElem?_getD]
  cases h : (List.replicate L (none : Option α))[i]? with
  | none => rfl
  | some v =>
    have hv : v ∈ List.replicate L (none : Option α) := by
      rcases List.getElem?_eq_some_iff.mp h with ⟨hlt, hval⟩
      exact hval ▸ List.getElem_mem hlt
    rw [List.eq_of_mem_replicate hv]
    rfl

/-- Core of the all-kept direction, shared by C6 and C7: a successful
`slice_by_plane` on a resting arena whose live vertices all lie strictly on
the kept side classifies everything `Kept` and is the identity. -/
lemma sliceByPlane_outside_eq (a : PolytopeArena) (pole : Vec2) (fuel : ℕ)
    (a' : PolytopeArena) (hU : allUnknown a = true)
    (hO : pointsOutside a pole = true) (hB : branchesNonempty a = true)
    (hs : sliceByPlane a pole fuel = Except.ok a') :
    (∃ st, slicePolytope pole fuel a a.root = Except.ok (st, SliceResult.kept) ∧
      ∀ i n, st.polytopes.getD i none = some n →
        n.slice_result = SliceResult.kept) ∧
    a' = a := by
  unfold sliceByPlane at hs
  obtain ⟨str, hsp, hs⟩ := except_bind_ok hs
  obtain ⟨st, r⟩ := str
  simp only [] at hs
  obtain ⟨slots, hsw, hs⟩ := except_bind_ok hs
  simp only [pure, Except.pure, Except.ok.injEq] at hs
  subst hs
  have hinv := invKept_of_flags a pole hU hO hB
  obtain ⟨hr, hupd, _⟩ :=
    slicePolytope_all_kept pole fuel a a.root (st, r) hinv hsp
  have hr2 : r = SliceResult.kept := hr
  subst hr2
  obtain ⟨hswlen, hswslot⟩ := sweepArena_ok st.polytopes slots hsw
  have hinv' := invKept_of_keptUpd hinv hupd
  have hallkept : ∀ i n, st.polytopes.getD i none = some n →
      n.slice_result = SliceResult.kept := by
    intro i n hn
    rcases (hinv' i n hn).1 with hu | hk
    · exact absurd hu ((hswslot i).2 n hn).1
    · exact hk
  refine ⟨⟨st, hsp, hallkept⟩, ?_⟩
  have hpoly : slots = a.polytopes := by
    apply list_ext_getD
    · rw [hswlen, hupd.2.1]
    · intro i hilt
      cases hai : a.polytopes.getD i none with
      | none =>
        rw [(hswslot i).1 (keptUpd_none hupd i hai)]
      | some n =>
        have hnu : n.slice_result = SliceResult.unknown := by
          have := arena_all_node _ a hU i n hai
          simpa using this
        rcases hupd.2.2 i with heq | ⟨m, hm, hmu, hb⟩
        · exact absurd ((hinv i n hai).1.resolve_right
            (fun hk => by rw [hnu] at hk; exact SliceResult.noConfusion hk))
            (by
              have := ((hswslot i).2 n (heq.trans hai)).1
              intro hu
              exact this hu)
        · rw [hm] at hai
          cases hai
          have hob := ((hswslot i).2 _ hb).2
          rw [if_neg (by simp)] at hob
          rw [hob]
          refine congrArg some ?_
          cases n
          simp only at hnu ⊢
          rw [hnu]
  calc ({ st with polytopes := slots } : PolytopeArena)
      = { st with polytopes := a.polytopes } := by rw [hpoly]
    _ = a := by
        have hroot : st.root = a.root := hupd.1
        cases a
        simp only at hroot
        rw [hroot]

/-- C7 (confirmed, conditional on a successful run of the fuelled
recursion): for an arena in its resting state (every slice result
`Unknown`), (a) if every live vertex satisfies `(pole − point)·pole > −ε`
and every live branch has a child, a successful `slice_by_plane` classifies
the root `Kept`, marks every surviving node `Kept` before the sweep, and
returns the arena unchanged; (b) if every live vertex satisfies
`(pole − point)·pole ≤ −ε`, a successful `slice_by_plane` classifies the
root `Removed` and empties every slot of the arena. -/
theorem c7_slice_by_plane_extremes (a : PolytopeArena) (pole : Vec2)
    (fuel : ℕ) (a' : PolytopeArena) :
    (allUnknown a = true → pointsOutside a pole = true →
      branchesNonempty a = true → sliceByPlane a pole fuel = Except.ok a' →
      (∃ st, slicePolytope pole fuel a a.root = Except.ok (st, SliceResult.kept) ∧
        ∀ i n, st.polytopes.getD i none = some n →
          n.slice_result = SliceResult.kept) ∧
      a' = a)
    ∧ (allUnknown a = true → pointsInside a pole = true →
      sliceByPlane a pole fuel = Except.ok a' →
      (∃ st, slicePolytope pole fuel a a.root = Except.ok (st, SliceResult.removed)) ∧
      a'.polytopes = List.replicate a.polytopes.length none) := by
  constructor
  · exact fun hU hO hB hs => sliceByPlane_outside_eq a pole fuel a' hU hO hB hs
  · intro hU hI hs
    unfold sliceByPlane at hs
    obtain ⟨str, hsp, hs⟩ := except_bind_ok hs
    obtain ⟨st, r⟩ := str
    simp only [] at hs
    obtain ⟨slots, hsw, hs⟩ := except_bind_ok hs
    simp only [pure, Except.pure, Except.ok.injEq] at hs
    subst hs
    have hinv := invRem_of_flags a pole hU hI
    obtain ⟨hr, hupd⟩ :=
      slicePolytope_all_removed pole fuel a a.root (st, r) hinv hsp
    have hr2 : r = SliceResult.removed := hr
    subst hr2
    obtain ⟨hswlen, hswslot⟩ := sweepArena_ok st.polytopes slots hsw
    have hinv' := invRem_of_remUpd hinv hupd
    refine ⟨⟨st, hsp⟩, ?_⟩
    show slots = _
    apply list_ext_getD
    · rw [hswlen, hupd.2.1, List.length_replicate]
    · intro i hilt
      rw [getD_replicate_none]
      cases hsi : st.polytopes.getD i none with
      | none => exact (hswslot i).1 hsi
      | some n =>
        have hrm : n.slice_result = SliceResult.removed := by
          rcases (hinv' i n hsi).1 with hu | hk
          · exact absurd hu ((hswslot i).2 n hsi).1
          · exact hk
        have := ((hswslot i).2 n hsi).2
        rw [if_pos hrm] at this
        exact this

/-- The two-point segment arena whose vertices both lie beyond the plane of
`pole = [1]`: used to witness the removal half of C7. -/
def c7ArenaB : PolytopeArena :=
  ⟨[some ⟨[2], .point [2], .unknown⟩, some ⟨[2], .point [3], .unknown⟩,
    some ⟨[], .branch 1 [0, 1], .unknown⟩], 2⟩

/-- C7 witness: slicing the unit segment `new_cube 1 1` with the faraway
pole `[2]` keeps everything, and slicing `c7ArenaB` with pole `[1]` empties
the arena. -/
theorem c7_slice_by_plane_extremes_witness :
    ((allUnknown (newCube 1 1) = true ∧ pointsOutside (newCube 1 1) [2] = true ∧
      branchesNonempty (newCube 1 1) = true ∧
      sliceByPlane (newCube 1 1) [2] 5 = Except.ok (newCube 1 1)) ∧
     (allUnknown c7ArenaB = true ∧ pointsInside c7ArenaB [1] = true ∧
      sliceByPlane c7ArenaB [1] 5
        = Except.ok (⟨[none, none, none], 2⟩ : PolytopeArena))) ∧
    ((∃ st, slicePolytope [2] 5 (newCube 1 1) (newCube 1 1).root
        = Except.ok (st, SliceResult.kept) ∧
        ∀ i n, st.polytopes.getD i none = some n →
          n.slice_result = SliceResult.kept) ∧
      newCube 1 1 = newCube 1 1) ∧
    ((∃ st, slicePolytope [1] 5 c7ArenaB c7ArenaB.root
        = Except.ok (st, SliceResult.removed)) ∧
      (⟨[none, none, none], 2⟩ : PolytopeArena).polytopes
        = List.replicate c7ArenaB.polytopes.length none) := by
  have hA1 : allUnknown (newCube 1 1) = true := by with_unfolding_all decide
  have hA2 : pointsOutside (newCube 1 1) [2] = true := by
    with_unfolding_all decide
  have hA3 : branchesNonempty (newCube 1 1) = true := by
    with_unfolding_all decide
  have hA4 : sliceByPlane (newCube 1 1) [2] 5 = Except.ok (newCube 1 1) := by
    with_unfolding_all rfl
  have hB1 : allUnknown c7ArenaB = true := by with_unfolding_all decide
  have hB2 : pointsInside c7ArenaB [1] = true := by with_unfolding_all decide
  have hB3 : sliceByPlane c7ArenaB [1] 5
      = Except.ok (⟨[none, none, none], 2⟩ : PolytopeArena) := by
    with_unfolding_all rfl
  exact ⟨⟨⟨hA1, hA2, hA3, hA4⟩, ⟨hB1, hB2, hB3⟩⟩,
    (c7_slice_by_plane_extremes (newCube 1 1) [2] 5 (newCube 1 1)).1
      hA1 hA2 hA3 hA4,
    (c7_slice_by_plane_extremes c7ArenaB [1] 5
      (⟨[none, none, none], 2⟩ : PolytopeArena)).2 hB1 hB2 hB3⟩

/-! ## Claim C6: a second slice with the same pole is the identity -/

/-- The interpolation point lies exactly on the hyperplane whenever the
denominator of the formula is non-zero (no sign conditions needed). -/
lemma slicePoint_on_plane_of_ne (pole a b : Vec2)
    (hsum : Vec2.dot (Vec2.sub pole a) pole
      + -(Vec2.dot (Vec2.sub pole b) pole) ≠ 0) :
    Vec2.dot (Vec2.sub pole (slicePoint pole a b)) pole = 0 := by
  set n := pole.length with hn
  set P : ℚ := ∑ i ∈ Finset.range n, Vec2.get pole i * Vec2.get pole i with hP
  set A : ℚ := ∑ i ∈ Finset.range n, Vec2.get a i * Vec2.get pole i with hA
  set B : ℚ := ∑ i ∈ Finset.range n, Vec2.get b i * Vec2.get pole i with hB
  have hda : Vec2.dot (Vec2.sub pole a) pole = P - A := by
    rw [dot_sub_left, hP, hA, ← Finset.sum_sub_distrib]
    exact Finset.sum_congr rfl fun i _ => by ring
  have hdb : Vec2.dot (Vec2.sub pole b) pole = P - B := by
    rw [dot_sub_left, hP, hB, ← Finset.sum_sub_distrib]
    exact Finset.sum_congr rfl fun i _ => by ring
  have hs : (P - A) + (B - P) ≠ 0 := by
    rw [hda, hdb] at hsum
    intro hcon
    apply hsum
    linarith
  have hgetp : ∀ i, Vec2.get (slicePoint pole a b) i
      = (Vec2.get b i * (P - A) + Vec2.get a i * (B - P)) / ((P - A) + (B - P)) := by
    intro i
    unfold slicePoint
    rw [Vec2.get_sdiv, Vec2.get_add, Vec2.get_smul, Vec2.get_smul, hda, hdb]
    ring_nf
  rw [dot_sub_left]
  have hsum2 : ∑ i ∈ Finset.range n, (Vec2.get pole i - Vec2.get (slicePoint pole a b) i)
        * Vec2.get pole i
      = P - ((P - A) * B + (B - P) * A) / ((P - A) + (B - P)) := by
    have hterm : ∀ i ∈ Finset.range n,
        (Vec2.get pole i - Vec2.get (slicePoint pole a b) i) * Vec2.get pole i
          = Vec2.get pole i * Vec2.get pole i
            - ((P - A) * (Vec2.get b i * Vec2.get pole i)
               + (B - P) * (Vec2.get a i * Vec2.get pole i)) / ((P - A) + (B - P)) := by
      intro i _
      rw [hgetp i]
      field_simp
      ring
    rw [Finset.sum_congr rfl hterm, Finset.sum_sub_distrib, ← hP]
    congr 1
    rw [← Finset.sum_div]
    congr 1
    rw [Finset.sum_add_distrib, ← Finset.mul_sum, ← Finset.mul_sum, ← hA, ← hB]
  rw [hsum2]
  exact interp_combination P A B (by intro hcon; apply hs; linarith)

/-- Whatever the two endpoints, the point pushed by the `rank == 1` slice
branch satisfies the kept-side test: either the denominator is non-zero and
the point lies exactly on the plane, or the rational-division-by-zero
convention makes it the zero vector, whose distance is `pole·pole ≥ 0`. -/
lemma slicePoint_dist_pos (pole a b : Vec2) :
    Vec2.dot (Vec2.sub pole (slicePoint pole a b)) pole > -EPSILON := by
  have hEps : (0 : ℚ) < EPSILON := by norm_num [EPSILON]
  by_cases hsum : Vec2.dot (Vec2.sub pole a) pole
      + -(Vec2.dot (Vec2.sub pole b) pole) = 0
  · have hget : ∀ i, Vec2.get (slicePoint pole a b) i = 0 := by
      intro i
      unfold slicePoint
      rw [Vec2.get_sdiv, hsum, div_zero]
    rw [dot_sub_left]
    have hcong : ∀ i ∈ Finset.range pole.length,
        (Vec2.get pole i - Vec2.get (slicePoint pole a b) i) * Vec2.get pole i
          = Vec2.get pole i * Vec2.get pole i := fun i _ => by
      rw [hget i, sub_zero]
    rw [Finset.sum_congr rfl hcong]
    have hnn : 0 ≤ ∑ i ∈ Finset.range pole.length,
        Vec2.get pole i * Vec2.get pole i :=
      Finset.sum_nonneg fun i _ => mul_self_nonneg _
    linarith
  · rw [slicePoint_on_plane_of_ne pole a b hsum]
    linarith

/-- The per-node facts preserved by a full slicing pass from a resting
arena: points are never classified `Modified`; a point classified `Kept`
passed the distance test; a branch classified `Kept` or `Modified` has
children. -/
def NodeOk (pole : Vec2) (n : Polytope2) : Prop :=
  (∀ pt, n.contents = .point pt →
    (∀ c, n.slice_result ≠ SliceResult.modified c) ∧
    (n.slice_result = SliceResult.kept →
      Vec2.dot (Vec2.sub pole pt) pole > -EPSILON)) ∧
  (∀ r ch, n.contents = .branch r ch →
    (n.slice_result = SliceResult.kept → ch ≠ []) ∧
    (∀ c, n.slice_result = SliceResult.modified c → ch ≠ []))

/-- `NodeOk` for every live slot. -/
def GInv (pole : Vec2) (a : PolytopeArena) : Prop :=
  ∀ i n, a.polytopes.getD i none = some n → NodeOk pole n

/-- Results `Unknown` and `Removed` satisfy `NodeOk` unconditionally. -/
lemma nodeOk_of_result {pole : Vec2} {n : Polytope2}
    (h : n.slice_result = SliceResult.unknown ∨
      n.slice_result = SliceResult.removed) : NodeOk pole n := by
  constructor
  · intro pt _
    constructor
    · intro c hc
      rcases h with h | h <;> rw [h] at hc <;> exact SliceResult.noConfusion hc
    · intro hc
      rcases h with h | h <;> rw [h] at hc <;> exact SliceResult.noConfusion hc
  · intro r ch _
    constructor
    · intro hc
      rcases h with h | h <;> rw [h] at hc <;> exact SliceResult.noConfusion hc
    · intro c hc
      rcases h with h | h <;> rw [h] at hc <;> exact SliceResult.noConfusion hc

/-- Updating only the parents of a node preserves `NodeOk`. -/
lemma nodeOk_parents {pole : Vec2} {n : Polytope2} (h : NodeOk pole n)
    (ps : List PId) : NodeOk pole { n with parents := ps } := h

/-- An all-`Unknown` arena satisfies the invariant. -/
lemma ginv_of_allUnknown {pole : Vec2} {a : PolytopeArena}
    (hU : allUnknown a = true) : GInv pole a := by
  intro i n hn
  apply nodeOk_of_result
  left
  have := arena_all_node _ a hU i n hn
  simpa using this

/-- `List.set` past the end is the identity. -/
lemma set_of_length_le {α : Type} : ∀ (l : List α) (i : ℕ) (x : α),
    l.length ≤ i → l.set i x = l := by
  intro l
  induction l with
  | nil => intro i x _; rfl
  | cons y ys ih =>
    intro i x hi
    cases i with
    | zero => simp at hi
    | succ j =>
      show y :: ys.set j x = y :: ys
      rw [ih j x (by simpa using hi)]

lemma ginv_setNode {pole : Vec2} {a : PolytopeArena} (hg : GInv pole a)
    (p : PId) (n' : Polytope2) (hok : NodeOk pole n') :
    GInv pole (setNode a p n') := by
  intro i m hm
  by_cases hp : p < a.polytopes.length
  · rw [getD_setNode a p n' i hp] at hm
    by_cases hip : p = i
    · rw [if_pos hip] at hm
      cases hm
      exact hok
    · rw [if_neg hip] at hm
      exact hg i m hm
  · have hset : setNode a p n' = a := by
      unfold setNode
      rw [set_of_length_le _ _ _ (le_of_not_lt hp)]
    rw [hset] at hm
    exact hg i m hm

lemma ginv_append {pole : Vec2} {a : PolytopeArena} (hg : GInv pole a)
    (n' : Polytope2) (hok : NodeOk pole n') :
    GInv pole { a with polytopes := a.polytopes ++ [some n'] } := by
  intro i m hm
  simp only [] at hm
  by_cases hi : i < a.polytopes.length
  · rw [List.getD_eq_getElem?_getD, List.getElem?_append_left hi,
      ← List.getD_eq_getElem?_getD] at hm
    exact hg i m hm
  · by_cases hieq : i = a.polytopes.length
    · rw [hieq, getD_concat_self] at hm
      cases hm
      exact hok
    · rw [getD_default_of_le _ _ _ (by simp; omega)] at hm
      exact Option.noConfusion hm

/-- Two consecutive writes to the same live slot. -/
lemma ginv_two_sets {pole : Vec2} {a : PolytopeArena} (hg : GInv pole a)
    {p : PId} (hp : p < a.polytopes.length) (X Y : Polytope2)
    (hY : NodeOk pole Y) :
    GInv pole (setNode (setNode a p X) p Y) := by
  intro i m hm
  rw [getD_setNode _ p Y i (by simp [setNode, hp])] at hm
  by_cases hip : p = i
  · rw [if_pos hip] at hm
    cases hm
    exact hY
  · rw [if_neg hip, getD_setNode a p X i hp, if_neg hip] at hm
    exact hg i m hm

/-- A successful `setResult` exposes the node it rewrote. -/
lemma setResult_ok_inv {a : PolytopeArena} {p : PId} {r : SliceResult}
    {b : PolytopeArena} (h : setResult a p r = Except.ok b) :
    ∃ n, a.polytopes.getD p none = some n ∧
      b = setNode a p { n with slice_result := r } := by
  unfold setResult at h
  cases hx : a.polytopes.getD p none with
  | none =>
    rw [show getNode a p = Except.error "polytope index unwrap failed" from by
      unfold getNode; rw [hx]] at h
    exact Except.noConfusion h
  | some n =>
    rw [getNode_eq_ok hx] at h
    simp only [bind, Except.bind, pure, Except.pure, Except.ok.injEq] at h
    exact ⟨n, rfl, h.symm⟩

/-- Slot `q` holds a branch with at least one child. -/
def BranchNE (a : PolytopeArena) (q : PId) : Prop :=
  ∃ n r ch, a.polytopes.getD q none = some n ∧
    n.contents = .branch r ch ∧ ch ≠ []

/-- The parent-registration fold of `push_polytope` preserves the invariant
and every slot's contents and result. -/
lemma parents_fold_ginv (pole : Vec2) (ret : PId) :
    ∀ (cs : List PId) (a b : PolytopeArena), GInv pole a →
    cs.foldlM (fun a c => do
      let n ← getNode a c
      pure (setNode a c { n with parents := n.parents ++ [ret] })) a
      = Except.ok b →
    GInv pole b ∧ b.polytopes.length = a.polytopes.length ∧
    (∀ i n, b.polytopes.getD i none = some n →
      ∃ m, a.polytopes.getD i none = some m ∧ n.contents = m.contents ∧
        n.slice_result = m.slice_result) ∧
    (∀ i m, a.polytopes.getD i none = some m →
      ∃ n, b.polytopes.getD i none = some n ∧ n.contents = m.contents ∧
        n.slice_result = m.slice_result) := by
  intro cs
  induction cs with
  | nil =>
    intro a b hg h
    simp only [List.foldlM_nil, pure, Except.pure, Except.ok.injEq] at h
    subst h
    exact ⟨hg, rfl, fun i n hn => ⟨n, hn, rfl, rfl⟩, fun i m hm => ⟨m, hm, rfl, rfl⟩⟩
  | cons c cs ih =>
    intro a b hg h
    rw [List.foldlM_cons] at h
    obtain ⟨a1, hstep, h⟩ := except_bind_ok h
    obtain ⟨n, hn, hstep⟩ := except_bind_ok hstep
    simp only [pure, Except.pure, Except.ok.injEq] at hstep
    subst hstep
    have hgd := getNode_ok_getD hn
    have hc := lt_length_of_getD_some _ _ _ hgd
    have hg1 : GInv pole (setNode a c { n with parents := n.parents ++ [ret] }) :=
      ginv_setNode hg c _ (nodeOk_parents (hg c n hgd) _)
    obtain ⟨hgb, hlen, hback, hfwd⟩ := ih _ b hg1 h
    refine ⟨hgb, by rw [hlen]; simp [setNode], ?_, ?_⟩
    · intro i m hm
      obtain ⟨m1, hm1, hc1, hr1⟩ := hback i m hm
      rw [getD_setNode a c _ i hc] at hm1
      by_cases hci : c = i
      · rw [if_pos hci] at hm1
        cases hm1
        exact ⟨n, hci ▸ hgd, hc1, hr1⟩
      · rw [if_neg hci] at hm1
        exact ⟨m1, hm1, hc1, hr1⟩
    · intro i m hm
      by_cases hci : c = i
      · obtain ⟨n2, hn2, hc2, hr2⟩ := hfwd i { n with parents := n.parents ++ [ret] }
          (by rw [getD_setNode a c _ i hc, if_pos hci])
        refine ⟨n2, hn2, ?_, ?_⟩
        · rw [hc2]
          rw [← hci] at hm
          rw [hgd] at hm
          cases hm
          rfl
        · rw [hr2]
          rw [← hci] at hm
          rw [hgd] at hm
          cases hm
          rfl
      · obtain ⟨n2, hn2, hc2, hr2⟩ := hfwd i m
          (by rw [getD_setNode a c _ i hc, if_neg hci]; exact hm)
        exact ⟨n2, hn2, hc2, hr2⟩

/-- A successful `push_polytope` preserves the invariant and yields a fresh
live `Unknown` branch slot holding exactly the requested children. -/
lemma pushPolytope_ok_ginv {pole : Vec2} {a : PolytopeArena} {cs : List PId}
    {b : PolytopeArena} {ret : PId} (hg : GInv pole a)
    (h : pushPolytope a cs = Except.ok (b, ret)) :
    GInv pole b ∧ b.polytopes.length = a.polytopes.length + 1 ∧
    ret = a.polytopes.length ∧ cs ≠ [] ∧
    ∃ n r, b.polytopes.getD ret none = some n ∧
      n.contents = .branch r cs ∧ n.slice_result = SliceResult.unknown := by
  unfold pushPolytope at h
  by_cases hemp : cs.isEmpty = true
  · rw [if_pos hemp] at h
    exact Except.noConfusion h
  · rw [if_neg hemp] at h
    obtain ⟨first, hfirst, h⟩ := except_bind_ok h
    simp only [] at h
    obtain ⟨b0, hfold, h⟩ := except_bind_ok h
    simp only [pure, Except.pure, Except.ok.injEq, Prod.mk.injEq] at h
    obtain ⟨hb, hret⟩ := h
    subst hb
    subst hret
    have hcsne : cs ≠ [] := by
      cases cs with
      | nil => exact absurd rfl hemp
      | cons x xs => exact fun hc => List.noConfusion hc
    have hga1 : GInv pole (pushNode a
        ⟨[], .branch (first.rank + 1) cs, .unknown⟩).1 :=
      ginv_append hg _ (nodeOk_of_result (Or.inl rfl))
    obtain ⟨hgb, hlen, hback, hfwd⟩ :=
      parents_fold_ginv pole a.polytopes.length cs _ b0 hga1 hfold
    refine ⟨hgb, by rw [hlen]; simp [pushNode], rfl, hcsne, ?_⟩
    obtain ⟨n2, hn2, hc2, hr2⟩ := hfwd a.polytopes.length
      ⟨[], .branch (first.rank + 1) cs, .unknown⟩
      (by
        show (a.polytopes ++ _).getD a.polytopes.length none = _
        rw [getD_concat_self])
    exact ⟨n2, first.rank + 1, hn2, hc2, hr2⟩

/-- `add_child` unconditionally preserves the invariant and leaves the
parent a branch with children. -/
lemma addChild_ginv {pole : Vec2} {a : PolytopeArena} {p c : PId}
    {b : PolytopeArena} (hg : GInv pole a)
    (h : addChild a p c = Except.ok b) :
    GInv pole b ∧ BranchNE b p := by
  unfold addChild at h
  cases hx : a.polytopes.getD p none with
  | none =>
    rw [show getNode a p = Except.error "polytope index unwrap failed" from by
      unfold getNode; rw [hx]] at h
    exact Except.noConfusion h
  | some n =>
    rw [getNode_eq_ok hx] at h
    simp only [bind, Except.bind] at h
    cases hcont : n.contents with
    | point pt =>
      rw [hcont] at h
      exact Except.noConfusion h
    | branch r ch =>
      rw [hcont] at h
      simp only [] at h
      obtain ⟨nc, hnc, h⟩ := except_bind_ok h
      simp only [pure, Except.pure, Except.ok.injEq] at h
      subst h
      have hp := lt_length_of_getD_some _ _ _ hx
      have hXok : NodeOk pole { n with contents := .branch r (ch ++ [c]) } := by
        constructor
        · intro pt hpt
          simp only [] at hpt
          exact PContents.noConfusion hpt
        · intro r2 ch2 hch2
          simp only [] at hch2
          cases hch2
          exact ⟨fun _ => by simp, fun _ _ => by simp⟩
      have hga1 : GInv pole (setNode a p
          { n with contents := .branch r (ch ++ [c]) }) :=
        ginv_setNode hg p _ hXok
      have hgdnc := getNode_ok_getD hnc
      have hgb : GInv pole (setNode (setNode a p
          { n with contents := .branch r (ch ++ [c]) }) c
          { nc with parents := nc.parents ++ [p] }) :=
        ginv_setNode hga1 c _ (nodeOk_parents (hga1 c nc hgdnc) _)
      refine ⟨hgb, ?_⟩
      by_cases hcp : c = p
      · have hncp : nc = { n with contents := .branch r (ch ++ [c]) } := by
          rw [hcp] at hgdnc
          rw [getD_setNode a p _ p hp, if_pos rfl] at hgdnc
          cases hgdnc
          rw [hcp]
        refine ⟨{ nc with parents := nc.parents ++ [p] }, r, ch ++ [c], ?_, ?_, by simp⟩
        · rw [getD_setNode _ c _ p (by
            simp only [setNode, List.length_set]
            rw [hcp]
            exact hp), if_pos hcp]
        · rw [hncp]
      · refine ⟨{ n with contents := .branch r (ch ++ [c]) }, r, ch ++ [c], ?_, rfl, by simp⟩
        rw [getD_setNode _ c _ p (lt_length_of_getD_some _ _ _ hgdnc),
          if_neg hcp, getD_setNode a p _ p hp, if_pos rfl]

/-- The per-child fold of `slice_polytope` preserves the invariant. -/
lemma slice_fold_ginv (pole : Vec2) (fuel : ℕ)
    (ihf : ∀ a p out, GInv pole a →
      slicePolytope pole fuel a p = Except.ok out → GInv pole out.1) :
    ∀ (children : List PId) (init out : PolytopeArena × List PId × List PId),
      GInv pole init.1 →
      children.foldlM
        (fun (acc : PolytopeArena × List PId × List PId) child => do
          let (a1, r) ← slicePolytope pole fuel acc.1 child
          match r with
          | .unknown => Except.error "polytope didn't get slice result computed"
          | .kept => pure (a1, acc.2.1 ++ [child], acc.2.2)
          | .removed => pure (a1, acc.2.1, acc.2.2)
          | .modified inter => pure (a1, acc.2.1 ++ [child], acc.2.2 ++ [inter]))
        init = Except.ok out →
      GInv pole out.1 := by
  intro children
  induction children with
  | nil =>
    intro init out hg h
    simp only [List.foldlM_nil, pure, Except.pure, Except.ok.injEq] at h
    subst h
    exact hg
  | cons c cs ih =>
    intro init out hg h
    rw [List.foldlM_cons] at h
    obtain ⟨acc, hstep, h⟩ := except_bind_ok h
    obtain ⟨ar, hsp, hmatch⟩ := except_bind_ok hstep
    obtain ⟨a1, r⟩ := ar
    have hga1 : GInv pole a1 := ihf init.1 c (a1, r) hg hsp
    cases r with
    | unknown =>
      simp only [] at hmatch
      exact Except.noConfusion hmatch
    | kept =>
      simp only [pure, Except.pure, Except.ok.injEq] at hmatch
      subst hmatch
      exact ih _ out hga1 h
    | removed =>
      simp only [pure, Except.pure, Except.ok.injEq] at hmatch
      subst hmatch
      exact ih _ out hga1 h
    | modified inter =>
      simp only [pure, Except.pure, Except.ok.injEq] at hmatch
      subst hmatch
      exact ih _ out hga1 h

/-- A full (successful) `slice_polytope` call preserves the invariant: in
particular, starting from a resting arena, every node it marks `Kept` that
is a point passed the distance test, including the freshly interpolated
ones. -/
lemma slicePolytope_ginv (pole : Vec2) :
    ∀ fuel, ∀ (a : PolytopeArena) (p : PId)
      (out : PolytopeArena × SliceResult), GInv pole a →
      slicePolytope pole fuel a p = Except.ok out → GInv pole out.1 := by
  intro fuel
  induction fuel with
  | zero =>
    intro a p out _ h
    exact Except.noConfusion h
  | succ fuel ih =>
    intro a p out hg h
    unfold slicePolytope at h
    obtain ⟨node, hgn, h⟩ := except_bind_ok h
    have hgd := getNode_ok_getD hgn
    have hp := lt_length_of_getD_some _ _ _ hgd
    simp only at h
    by_cases hres : node.slice_result = SliceResult.unknown
    · rw [if_neg (by simp [hres])] at h
      cases hc : node.contents with
      | point pt =>
        rw [hc] at h
        simp only [] at h
        by_cases hcond : Vec2.dot (Vec2.sub pole pt) pole > -EPSILON
        · rw [if_pos hcond] at h
          obtain ⟨y, hy, h⟩ := except_bind_ok h
          simp only [pure, Except.pure, Except.ok.injEq] at hy
          subst hy
          obtain ⟨a2, hset, h⟩ := except_bind_ok h
          obtain ⟨m, hm, ha2⟩ := setResult_ok_inv hset
          subst ha2
          simp only [pure, Except.pure, Except.ok.injEq] at h
          subst h
          rw [hgd] at hm
          cases hm
          refine ginv_setNode hg p _ ?_
          constructor
          · intro pt' hpt'
            simp only [] at hpt'
            refine ⟨fun c hcmod => SliceResult.noConfusion hcmod, fun _ => ?_⟩
            rw [hc] at hpt'
            cases hpt'
            exact hcond
          · intro r ch hch
            simp only [] at hch
            rw [hc] at hch
            exact PContents.noConfusion hch
        · rw [if_neg hcond] at h
          obtain ⟨y, hy, h⟩ := except_bind_ok h
          simp only [pure, Except.pure, Except.ok.injEq] at hy
          subst hy
          obtain ⟨a2, hset, h⟩ := except_bind_ok h
          obtain ⟨m, hm, ha2⟩ := setResult_ok_inv hset
          subst ha2
          simp only [pure, Except.pure, Except.ok.injEq] at h
          subst h
          exact ginv_setNode hg p _ (nodeOk_of_result (Or.inr rfl))
      | branch rank oldChildren =>
        rw [hc] at h
        simp only [] at h
        obtain ⟨acc, hfold, h⟩ := except_bind_ok h
        have hg1 : GInv pole acc.1 :=
          slice_fold_ginv pole fuel ih oldChildren (a, ([], [])) acc hg hfold
        obtain ⟨amid0, hsetch, h⟩ := except_bind_ok h
        obtain ⟨n1, r1, ch1, hn1, hn1c, hamideq⟩ := setChildren_ok_inv hsetch
        subst hamideq
        have hp1 := lt_length_of_getD_some _ _ _ hn1
        by_cases hremoved : acc.2.1.isEmpty = true
        · rw [if_pos hremoved] at h
          obtain ⟨y, hy, h⟩ := except_bind_ok h
          simp only [pure, Except.pure, Except.ok.injEq] at hy
          subst hy
          obtain ⟨a2, hset, h⟩ := except_bind_ok h
          obtain ⟨m, hm, ha2⟩ := setResult_ok_inv hset
          subst ha2
          simp only [pure, Except.pure, Except.ok.injEq] at h
          subst h
          rw [getD_setNode acc.1 p _ p hp1, if_pos rfl] at hm
          cases hm
          exact ginv_two_sets hg1 hp1 _ _ (nodeOk_of_result (Or.inr rfl))
        · rw [if_neg hremoved] at h
          have hncne : acc.2.1 ≠ [] := by
            cases hx : acc.2.1 with
            | nil => rw [hx] at hremoved; exact absurd rfl hremoved
            | cons z zs => exact fun hcn => List.noConfusion hcn
          have hXok : NodeOk pole { n1 with contents := .branch r1 acc.2.1 } := by
            constructor
            · intro pt' hpt'
              simp only [] at hpt'
              exact PContents.noConfusion hpt'
            · intro r' ch' hch'
              simp only [] at hch'
              cases hch'
              exact ⟨fun _ => hncne, fun _ _ => hncne⟩
          by_cases hallk : (oldChildren.all fun child =>
              resultIsKept (setNode acc.1 p
                { n1 with contents := .branch r1 acc.2.1 }) child) = true
          · rw [if_pos hallk] at h
            obtain ⟨y, hy, h⟩ := except_bind_ok h
            simp only [pure, Except.pure, Except.ok.injEq] at hy
            subst hy
            obtain ⟨a2, hset, h⟩ := except_bind_ok h
            obtain ⟨m, hm, ha2⟩ := setResult_ok_inv hset
            subst ha2
            simp only [pure, Except.pure, Except.ok.injEq] at h
            subst h
            rw [getD_setNode acc.1 p _ p hp1, if_pos rfl] at hm
            cases hm
            refine ginv_two_sets hg1 hp1 _ _ ?_
            constructor
            · intro pt' hpt'
              simp only [] at hpt'
              exact PContents.noConfusion hpt'
            · intro r' ch' hch'
              simp only [] at hch'
              cases hch'
              exact ⟨fun _ => hncne, fun _ _ => hncne⟩
          · rw [if_neg hallk] at h
            have hgamid : GInv pole (setNode acc.1 p
                { n1 with contents := .branch r1 acc.2.1 }) :=
              ginv_setNode hg1 p _ hXok
            by_cases hrank : rank = 1
            · rw [if_pos hrank] at h
              obtain ⟨aPt, haPt, h⟩ := except_bind_ok h
              obtain ⟨bPt, hbPt, h⟩ := except_bind_ok h
              obtain ⟨y, hy, h⟩ := except_bind_ok h
              simp only [pure, Except.pure, Except.ok.injEq] at hy
              subst hy
              simp only [pushPoint, pushNode] at h
              obtain ⟨a3, hsr3, h⟩ := except_bind_ok h
              obtain ⟨m3, hm3, ha3⟩ := setResult_ok_inv hsr3
              subst ha3
              simp only [] at hm3
              rw [getD_concat_self] at hm3
              cases hm3
              have hga3 : GInv pole (setNode
                  { setNode acc.1 p { n1 with contents := .branch r1 acc.2.1 } with
                    polytopes := (setNode acc.1 p
                      { n1 with contents := .branch r1 acc.2.1 }).polytopes
                      ++ [some ⟨[], .point (slicePoint pole aPt bPt),
                            SliceResult.unknown⟩] }
                  (setNode acc.1 p
                    { n1 with contents := .branch r1 acc.2.1 }).polytopes.length
                  { (⟨[], .point (slicePoint pole aPt bPt),
                      SliceResult.unknown⟩ : Polytope2) with
                    slice_result := SliceResult.kept }) := by
                refine ginv_setNode (ginv_append hgamid _
                  (nodeOk_of_result (Or.inl rfl))) _ _ ?_
                constructor
                · intro pt' hpt'
                  simp only [] at hpt'
                  cases hpt'
                  exact ⟨fun c hcmod => SliceResult.noConfusion hcmod,
                    fun _ => slicePoint_dist_pos pole aPt bPt⟩
                · intro r' ch' hch'
                  simp only [] at hch'
                  exact PContents.noConfusion hch'
              obtain ⟨a4, hadd, h⟩ := except_bind_ok h
              obtain ⟨hg4, hbne4⟩ := addChild_ginv hga3 hadd
              obtain ⟨y2, hy2, h⟩ := except_bind_ok h
              simp only [pure, Except.pure, Except.ok.injEq] at hy2
              subst hy2
              obtain ⟨a5, hsr5, h⟩ := except_bind_ok h
              obtain ⟨m5, hm5, ha5⟩ := setResult_ok_inv hsr5
              subst ha5
              simp only [pure, Except.pure, Except.ok.injEq] at h
              subst h
              obtain ⟨nb, rb, chb, hnb, hcb, hchb⟩ := hbne4
              rw [hnb] at hm5
              cases hm5
              refine ginv_setNode hg4 p _ ?_
              constructor
              · intro pt' hpt'
                simp only [] at hpt'
                rw [hcb] at hpt'
                exact PContents.noConfusion hpt'
              · intro r' ch' hch'
                simp only [] at hch'
                rw [hcb] at hch'
                cases hch'
                exact ⟨fun _ => hchb, fun _ _ => hchb⟩
            · rw [if_neg hrank] at h
              obtain ⟨⟨b2, nc2⟩, hy, h⟩ := except_bind_ok h
              obtain ⟨hgb2, hlen2, hret2, hcsne2, n2, r2, hn2, hc2, hr2u⟩ :=
                pushPolytope_ok_ginv hgamid hy
              simp only [] at h
              obtain ⟨a3, hsr3, h⟩ := except_bind_ok h
              obtain ⟨m3, hm3, ha3⟩ := setResult_ok_inv hsr3
              subst ha3
              rw [hn2] at hm3
              cases hm3
              have hga3 : GInv pole (setNode b2 nc2
                  { n2 with slice_result := SliceResult.kept }) := by
                refine ginv_setNode hgb2 nc2 _ ?_
                constructor
                · intro pt' hpt'
                  simp only [] at hpt'
                  rw [hc2] at hpt'
                  exact PContents.noConfusion hpt'
                · intro r' ch' hch'
                  simp only [] at hch'
                  rw [hc2] at hch'
                  cases hch'
                  exact ⟨fun _ => hcsne2, fun _ _ => hcsne2⟩
              obtain ⟨a4, hadd, h⟩ := except_bind_ok h
              obtain ⟨hg4, hbne4⟩ := addChild_ginv hga3 hadd
              obtain ⟨y2, hy2, h⟩ := except_bind_ok h
              simp only [pure, Except.pure, Except.ok.injEq] at hy2
              subst hy2
              obtain ⟨a5, hsr5, h⟩ := except_bind_ok h
              obtain ⟨m5, hm5, ha5⟩ := setResult_ok_inv hsr5
              subst ha5
              simp only [pure, Except.pure, Except.ok.injEq] at h
              subst h
              obtain ⟨nb, rb, chb, hnb, hcb, hchb⟩ := hbne4
              rw [hnb] at hm5
              cases hm5
              refine ginv_setNode hg4 p _ ?_
              constructor
              · intro pt' hpt'
                simp only [] at hpt'
                rw [hcb] at hpt'
                exact PContents.noConfusion hpt'
              · intro r' ch' hch'
                simp only [] at hch'
                rw [hcb] at hch'
                cases hch'
                exact ⟨fun _ => hchb, fun _ _ => hchb⟩
    · rw [if_pos (by simp [hres])] at h
      simp only [pure, Except.pure, Except.ok.injEq] at h
      subst h
      exact hg

/-- Converse of `arena_all_node`: slot-wise facts assemble the `List.all`
flag. -/
lemma arena_all_of_node (p : Polytope2 → Bool) (a : PolytopeArena)
    (h : ∀ i n, a.polytopes.getD i none = some n → p n = true) :
    (a.polytopes.all fun slot => slot.all p) = true := by
  rw [List.all_eq_true]
  intro slot hmem
  cases hslot : slot with
  | none => rfl
  | some n =>
    obtain ⟨i, hi, hval⟩ := List.getElem_of_mem hmem
    have hgd : a.polytopes.getD i none = some n := by
      rw [List.getD_eq_getElem _ _ hi, hval, hslot]
    have hp := h i n hgd
    show Option.all p (some n) = true
    simpa [Option.all] using hp

/-- C6 (confirmed, conditional on both fuelled runs returning): starting
from a resting arena, after one successful `slice_by_plane(pole)` a second
successful call with the same pole classifies every remaining node `Kept`
and returns its input unchanged — it removes, modifies and creates
nothing. -/
theorem c6_second_slice_identity (a : PolytopeArena) (pole : Vec2)
    (fuel1 fuel2 : ℕ) (st1 a2 : PolytopeArena)
    (hU : allUnknown a = true)
    (h1 : sliceByPlane a pole fuel1 = Except.ok st1)
    (h2 : sliceByPlane st1 pole fuel2 = Except.ok a2) :
    (∃ st, slicePolytope pole fuel2 st1 st1.root
        = Except.ok (st, SliceResult.kept) ∧
      ∀ i n, st.polytopes.getD i none = some n →
        n.slice_result = SliceResult.kept) ∧
    a2 = st1 := by
  unfold sliceByPlane at h1
  obtain ⟨str, hsp1, h1⟩ := except_bind_ok h1
  obtain ⟨st, r⟩ := str
  simp only [] at h1
  obtain ⟨slots, hsw1, h1⟩ := except_bind_ok h1
  simp only [pure, Except.pure, Except.ok.injEq] at h1
  subst h1
  have hgst : GInv pole st :=
    slicePolytope_ginv pole fuel1 a a.root (st, r) (ginv_of_allUnknown hU) hsp1
  obtain ⟨hswlen, hswslot⟩ := sweepArena_ok st.polytopes slots hsw1
  have hslot : ∀ i m, slots.getD i none = some m →
      ∃ n, st.polytopes.getD i none = some n ∧
        m = { n with slice_result := SliceResult.unknown } ∧
        n.slice_result ≠ SliceResult.unknown ∧
        n.slice_result ≠ SliceResult.removed := by
    intro i m hm
    cases hsti : st.polytopes.getD i none with
    | none =>
      rw [(hswslot i).1 hsti] at hm
      exact Option.noConfusion hm
    | some n =>
      obtain ⟨hnu, hout⟩ := (hswslot i).2 n hsti
      by_cases hrm : n.slice_result = SliceResult.removed
      · rw [if_pos hrm] at hout
        rw [hout] at hm
        exact Option.noConfusion hm
      · rw [if_neg hrm] at hout
        rw [hout] at hm
        cases hm
        exact ⟨n, rfl, rfl, hnu, hrm⟩
  have hU1 : allUnknown ({ st with polytopes := slots } : PolytopeArena)
      = true := by
    apply arena_all_of_node
    intro i m hm
    obtain ⟨n, hn, hmeq, _, _⟩ := hslot i m hm
    subst hmeq
    simp
  have hO1 : pointsOutside ({ st with polytopes := slots } : PolytopeArena)
      pole = true := by
    apply arena_all_of_node
    intro i m hm
    obtain ⟨n, hn, hmeq, hnu, hnr⟩ := hslot i m hm
    subst hmeq
    have hcontents : ({ n with slice_result := SliceResult.unknown }
        : Polytope2).contents = n.contents := rfl
    cases hcn : n.contents with
    | point pt =>
      have hnode := hgst i n hn
      have hkept : n.slice_result = SliceResult.kept := by
        cases hcr : n.slice_result with
        | unknown => exact absurd hcr hnu
        | removed => exact absurd hcr hnr
        | kept => rfl
        | modified c => exact absurd hcr ((hnode.1 pt hcn).1 c)
      have hdist := (hnode.1 pt hcn).2 hkept
      show decide (Vec2.dot (Vec2.sub pole pt) pole > -EPSILON) = true
      rw [decide_eq_true_eq]
      exact hdist
    | branch rb chb => rfl
  have hB1 : branchesNonempty ({ st with polytopes := slots } : PolytopeArena)
      = true := by
    apply arena_all_of_node
    intro i m hm
    obtain ⟨n, hn, hmeq, hnu, hnr⟩ := hslot i m hm
    subst hmeq
    have hcontents : ({ n with slice_result := SliceResult.unknown }
        : Polytope2).contents = n.contents := rfl
    cases hcn : n.contents with
    | point pt => rfl
    | branch rb chb =>
      have hnode := hgst i n hn
      have hne : chb ≠ [] := by
        cases hcr : n.slice_result with
        | unknown => exact absurd hcr hnu
        | removed => exact absurd hcr hnr
        | kept => exact (hnode.2 rb chb hcn).1 hcr
        | modified c => exact (hnode.2 rb chb hcn).2 c hcr
      show (!chb.isEmpty) = true
      cases chb with
      | nil => exact absurd rfl hne
      | cons z zs => rfl
  exact sliceByPlane_outside_eq { st with polytopes := slots } pole fuel2 a2
    hU1 hO1 hB1 h2

/-- The arena left by slicing the segment `new_cube 1 1` with pole `[1/2]`:
the right vertex is removed and replaced by the interpolated point `[1/2]`. -/
def c6St1 : PolytopeArena :=
  ⟨[some ⟨[1], .point [-1], .unknown⟩,
    some ⟨[], .branch 1 [0, 3], .unknown⟩,
    none,
    some ⟨[1], .point [1/2], .unknown⟩], 1⟩

/-- C6 witness: slicing the unit segment with pole `[1/2]` cuts it once;
the immediate second slice with the same pole is the identity. -/
theorem c6_second_slice_identity_witness :
    (allUnknown (newCube 1 1) = true
      ∧ sliceByPlane (newCube 1 1) [1/2] 5 = Except.ok c6St1
      ∧ sliceByPlane c6St1 [1/2] 5 = Except.ok c6St1) ∧
    ((∃ st, slicePolytope [1/2] 5 c6St1 c6St1.root
        = Except.ok (st, SliceResult.kept) ∧
      ∀ i n, st.polytopes.getD i none = some n →
        n.slice_result = SliceResult.kept) ∧
    c6St1 = c6St1) := by
  have hU : allUnknown (newCube 1 1) = true := by with_unfolding_all decide
  have h1 : sliceByPlane (newCube 1 1) [1/2] 5 = Except.ok c6St1 := by
    with_unfolding_all rfl
  have h2 : sliceByPlane c6St1 [1/2] 5 = Except.ok c6St1 := by
    with_unfolding_all rfl
  exact ⟨⟨hU, h1, h2⟩,
    c6_second_slice_identity (newCube 1 1) [1/2] 5 5 c6St1 c6St1 hU h1 h2⟩

/-! ## Claim C9: node counts of `new_cube` -/

/-- Appending a most-significant digit: for `q < 3^n` and `d < 3`, the
`(n+1)`-digit expansion of `d * 3^n + q` is the `n`-digit expansion of `q`
followed by `d`. -/
lemma base3_high_digit (n : ℕ) : ∀ q d : ℕ, q < 3 ^ n → d < 3 →
    base_3_expansion (d * 3 ^ n + q) (n + 1) = base_3_expansion q n ++ [d] := by
  induction n with
  | zero =>
    intro q d hq hd
    interval_cases q
    simp [base_3_expansion, Nat.mod_eq_of_lt hd]
  | succ n ih =>
    intro q d hq hd
    have h3 : (3:ℕ) ^ (n + 1) = 3 ^ n * 3 := by ring
    have e1 : (d * 3 ^ (n + 1) + q) % 3 = q % 3 := by
      have : d * 3 ^ (n + 1) + q = d * 3 ^ n * 3 + q := by rw [h3]; ring
      rw [this]; omega
    have e2 : (d * 3 ^ (n + 1) + q) / 3 = d * 3 ^ n + q / 3 := by
      have : d * 3 ^ (n + 1) + q = d * 3 ^ n * 3 + q := by rw [h3]; ring
      rw [this]; omega
    have hq3 : q / 3 < 3 ^ n := Nat.div_lt_of_lt_mul (by rw [h3] at hq; linarith)
    show (d * 3 ^ (n + 1) + q) % 3
          :: base_3_expansion ((d * 3 ^ (n + 1) + q) / 3) (n + 1)
        = (q % 3 :: base_3_expansion (q / 3) n) ++ [d]
    rw [e1, e2, ih (q / 3) d hq3 hd]
    rfl

/-- The number of indices below `3^n` whose `n`-digit expansion has exactly
`k` ones. -/
def rankCount (k n : ℕ) : ℕ :=
  (List.range (3 ^ n)).countP fun i => (base_3_expansion i n).count 1 = k

/-- Splitting `countP` over `range (3^(n+1))` into three copies of
`range (3^n)`, one per most-significant digit. -/
lemma countP_range_pow_succ (p : ℕ → Bool) (n : ℕ) :
    (List.range (3 ^ (n + 1))).countP p
      = (List.range (3 ^ n)).countP p
        + (List.range (3 ^ n)).countP (fun q => p (3 ^ n + q))
        + (List.range (3 ^ n)).countP (fun q => p (2 * 3 ^ n + q)) := by
  have h3 : (3:ℕ) ^ (n + 1) = 3 ^ n + (3 ^ n + 3 ^ n) := by ring
  have hcomp : ((fun x : ℕ => 3 ^ n + x) ∘ fun x : ℕ => 3 ^ n + x)
      = fun q : ℕ => 2 * 3 ^ n + q := by
    funext q
    show 3 ^ n + (3 ^ n + q) = 2 * 3 ^ n + q
    ring
  rw [h3, List.range_add, List.range_add, List.map_append, List.map_map,
    List.countP_append, List.countP_append, List.countP_map, List.countP_map,
    hcomp, ← Nat.add_assoc]
  rfl

/-- Digit-count of an index shifted by a most-significant digit `d`:
`count 1` gains one exactly when `d = 1`. -/
lemma count_one_high_digit (n q d : ℕ) (hq : q < 3 ^ n) (hd : d < 3) :
    (base_3_expansion (d * 3 ^ n + q) (n + 1)).count 1
      = (base_3_expansion q n).count 1 + (if d = 1 then 1 else 0) := by
  rw [base3_high_digit n q d hq hd, List.count_append]
  congr 1
  by_cases h : d = 1
  · subst h; simp
  · simp [List.count_singleton', h, Ne.symm h]

/-- No index below `3^n` has a digit equal to `1` in zero positions after
appending… the recurrences for zero and one straddled axes. -/
lemma rankCount_zero_succ (n : ℕ) : rankCount 0 (n + 1) = 2 * rankCount 0 n := by
  unfold rankCount
  rw [countP_range_pow_succ]
  have t1 : (List.range (3 ^ n)).countP
        (fun i => decide ((base_3_expansion i (n + 1)).count 1 = 0))
      = (List.range (3 ^ n)).countP
        (fun i => decide ((base_3_expansion i n).count 1 = 0)) := by
    refine List.countP_congr fun q hq => ?_
    have hqlt : q < 3 ^ n := List.mem_range.mp hq
    have := count_one_high_digit n q 0 hqlt (by norm_num)
    simp only [zero_mul, zero_add] at this
    simp [this]
  have t2 : (List.range (3 ^ n)).countP
        (fun q => decide ((base_3_expansion (3 ^ n + q) (n + 1)).count 1 = 0))
      = 0 := by
    rw [List.countP_eq_zero]
    intro q hq
    have hqlt : q < 3 ^ n := List.mem_range.mp hq
    have := count_one_high_digit n q 1 hqlt (by norm_num)
    simp only [one_mul] at this
    simp [this]
  have t3 : (List.range (3 ^ n)).countP
        (fun q => decide ((base_3_expansion (2 * 3 ^ n + q) (n + 1)).count 1 = 0))
      = (List.range (3 ^ n)).countP
        (fun i => decide ((base_3_expansion i n).count 1 = 0)) := by
    refine List.countP_congr fun q hq => ?_
    have hqlt : q < 3 ^ n := List.mem_range.mp hq
    have := count_one_high_digit n q 2 hqlt (by norm_num)
    simp [this]
  rw [t1, t2, t3]
  ring

/-- Recurrence for the number of indices with exactly one digit `1`. -/
lemma rankCount_one_succ (n : ℕ) :
    rankCount 1 (n + 1) = 2 * rankCount 1 n + rankCount 0 n := by
  unfold rankCount
  rw [countP_range_pow_succ]
  have t1 : (List.range (3 ^ n)).countP
        (fun i => decide ((base_3_expansion i (n + 1)).count 1 = 1))
      = (List.range (3 ^ n)).countP
        (fun i => decide ((base_3_expansion i n).count 1 = 1)) := by
    refine List.countP_congr fun q hq => ?_
    have hqlt : q < 3 ^ n := List.mem_range.mp hq
    have := count_one_high_digit n q 0 hqlt (by norm_num)
    simp only [zero_mul, zero_add] at this
    simp [this]
  have t2 : (List.range (3 ^ n)).countP
        (fun q => decide ((base_3_expansion (3 ^ n + q) (n + 1)).count 1 = 1))
      = (List.range (3 ^ n)).countP
        (fun i => decide ((base_3_expansion i n).count 1 = 0)) := by
    refine List.countP_congr fun q hq => ?_
    have hqlt : q < 3 ^ n := List.mem_range.mp hq
    have := count_one_high_digit n q 1 hqlt (by norm_num)
    simp only [one_mul] at this
    simp [this]
  have t3 : (List.range (3 ^ n)).countP
        (fun q => decide ((base_3_expansion (2 * 3 ^ n + q) (n + 1)).count 1 = 1))
      = (List.range (3 ^ n)).countP
        (fun i => decide ((base_3_expansion i n).count 1 = 1)) := by
    refine List.countP_congr fun q hq => ?_
    have hqlt : q < 3 ^ n := List.mem_range.mp hq
    have := count_one_high_digit n q 2 hqlt (by norm_num)
    simp [this]
  rw [t1, t2, t3]
  ring

/-- Closed form: `2^n` indices have no straddled axis. -/
lemma rankCount_zero (n : ℕ) : rankCount 0 n = 2 ^ n := by
  induction n with
  | zero => rfl
  | succ n ih => rw [rankCount_zero_succ, ih]; ring

/-- Closed form: `n * 2^(n-1)` indices have exactly one straddled axis. -/
lemma rankCount_one (n : ℕ) : rankCount 1 n = n * 2 ^ (n - 1) := by
  induction n with
  | zero => rfl
  | succ n ih =>
    rw [rankCount_one_succ, ih, rankCount_zero]
    cases n with
    | zero => rfl
    | succ m =>
      have h1 : (2:ℕ) ^ (m + 1) = 2 * 2 ^ m := by ring
      have h2 : (2:ℕ) ^ (m + 1 + 1 - 1) = 2 * 2 ^ m := by
        rw [Nat.add_sub_cancel]; ring
      rw [Nat.add_sub_cancel, h1, h2]
      ring

/-- Collapsing `filterMap id` over a list of `some`s. -/
lemma filterMap_id_map_some {α β : Type} (f : β → α) (l : List β) :
    (l.map fun i => some (f i)).filterMap id = l.map f := by
  induction l with
  | nil => rfl
  | cons x xs ih => simp only [List.map_cons, List.filterMap_cons, id, ih]

/-- The rank stored at slot `i` of `new_cube` is the number of `1`-digits of
`i`. -/
lemma rank_newCube_slot (ndim : ℕ) (r : ℚ) (i : ℕ) (hi : i < 3 ^ ndim) :
    (((newCube ndim r).polytopes.getD i none).getD
        ⟨[], .point [], .unknown⟩).rank = (base_3_expansion i ndim).count 1 := by
  simp only [newCube, List.getD_eq_getElem?_getD, List.getElem?_map,
    List.getElem?_range hi]
  by_cases h : (base_3_expansion i ndim).count 1 = 0
  · simp [h, Polytope2.rank]
  · simp [h, Polytope2.rank]

/-- All digits of `3^n / 2` (the root of `new_cube`) are `1`. -/
lemma base3_root (n : ℕ) : base_3_expansion (3 ^ n / 2) n = List.replicate n 1 := by
  induction n with
  | zero => rfl
  | succ n ih =>
    have h1 : 3 ^ n % 2 = 1 := by
      have := Nat.pow_mod 3 n 2
      simpa using this
    have h2 : (3:ℕ) ^ (n + 1) = 3 * 3 ^ n := by ring
    have hroot : 3 ^ (n + 1) / 2 = 3 * (3 ^ n / 2) + 1 := by omega
    show (3 ^ (n + 1) / 2) % 3 :: base_3_expansion (3 ^ (n + 1) / 2 / 3) n = _
    have e1 : (3 ^ (n + 1) / 2) % 3 = 1 := by omega
    have e2 : 3 ^ (n + 1) / 2 / 3 = 3 ^ n / 2 := by omega
    rw [e1, e2, ih]
    rfl

/-- C9 (confirmed): for every `ndim ≥ 1` and radius, the arena built by
`new_cube(ndim, radius)` holds exactly `2^ndim` rank-0 nodes and exactly
`ndim * 2^(ndim-1)` rank-1 nodes, and the node at its root handle has rank
`ndim`. -/
theorem c9_new_cube_counts (ndim : ℕ) (r : ℚ) (h : 1 ≤ ndim) :
    ((((newCube ndim r).polytopes.filterMap id).countP fun p => p.rank = 0)
        = 2 ^ ndim)
    ∧ ((((newCube ndim r).polytopes.filterMap id).countP fun p => p.rank = 1)
        = ndim * 2 ^ (ndim - 1))
    ∧ (getNode (newCube ndim r) (newCube ndim r).root).map Polytope2.rank
        = Except.ok ndim := by
  have hcount : ∀ k : ℕ,
      (((newCube ndim r).polytopes.filterMap id).countP fun p => p.rank = k)
        = rankCount k ndim := by
    intro k
    show (((List.range (3 ^ ndim)).map _).filterMap id).countP _ = _
    rw [filterMap_id_map_some, List.countP_map]
    refine List.countP_congr fun i hi => ?_
    simp only [Function.comp]
    by_cases h : (base_3_expansion i ndim).count 1 = 0 <;>
      simp [h, Polytope2.rank]
  refine ⟨by rw [hcount 0, rankCount_zero], by rw [hcount 1, rankCount_one], ?_⟩
  have hrootlt : 3 ^ ndim / 2 < 3 ^ ndim :=
    Nat.div_lt_self (Nat.pos_pow_of_pos ndim (by norm_num)) (by norm_num)
  have hget : (newCube ndim r).polytopes.getD (newCube ndim r).root none
      ≠ none := by
    show (newCube ndim r).polytopes.getD (3 ^ ndim / 2) none ≠ none
    simp only [newCube, List.getD_eq_getElem?_getD, List.getElem?_map,
      List.getElem?_range hrootlt]
    simp
  have hrank := rank_newCube_slot ndim r (3 ^ ndim / 2) hrootlt
  rw [base3_root, List.count_replicate] at hrank
  unfold getNode
  cases hcase : (newCube ndim r).polytopes.getD (newCube ndim r).root none with
  | none => exact absurd hcase hget
  | some p =>
    have hpr : p.rank = ndim := by
      have heq : (newCube ndim r).polytopes.getD (newCube ndim r).root none
          = (newCube ndim r).polytopes.getD (3 ^ ndim / 2) none := rfl
      rw [heq] at hcase
      rw [hcase] at hrank
      simpa using hrank
    simp [Except.map, hpr]

/-- C9 witness: the concrete square (`ndim = 2`, radius 1). -/
theorem c9_new_cube_counts_witness :
    1 ≤ 2
    ∧ (((((newCube 2 1).polytopes.filterMap id).countP fun p => p.rank = 0)
          = 2 ^ 2)
      ∧ ((((newCube 2 1).polytopes.filterMap id).countP fun p => p.rank = 1)
          = 2 * 2 ^ (2 - 1))
      ∧ (getNode (newCube 2 1) (newCube 2 1).root).map Polytope2.rank
          = Except.ok 2) :=
  ⟨by norm_num, c9_new_cube_counts 2 1 (by norm_num)⟩

/-! ## Claim C2: `polygons` and single closed cycles -/

/-- The edge list `es`, in stored order and stored endpoint orientation,
traces the single closed cycle `v_0 → v_1 → … → v_(k-1) → v_0`. -/
def tracesCycle (a : PolytopeArena) (es vs : List PId) : Prop :=
  es.length = vs.length ∧ 3 ≤ vs.length ∧ vs.Nodup ∧
  ∀ i, i < vs.length → edgeEndpoints a (es.getD i 0)
    = Except.ok (vs.getD i 0, vs.getD ((i + 1) % vs.length) 0)

/-- `mapM` with index-wise known results. -/
lemma mapM_ok_range {α β : Type} (f : α → Except String β) (d : α) :
    ∀ (l : List α) (g : ℕ → β),
      (∀ i, i < l.length → f (l.getD i d) = Except.ok (g i)) →
      l.mapM f = Except.ok ((List.range l.length).map g) := by
  intro l
  induction l with
  | nil =>
    intro g _
    rw [List.mapM_nil]
    rfl
  | cons x xs ih =>
    intro g h
    rw [List.mapM_cons]
    have h0 : f x = Except.ok (g 0) := h 0 (by simp)
    have htail := ih (fun i => g (i + 1)) fun i hi => h (i + 1) (by simpa using hi)
    rw [h0, htail]
    simp only [bind, Except.bind, pure, Except.pure, Except.ok.injEq,
      List.length_cons, List.range_succ_eq_map, List.map_cons, List.map_map]
    rfl

/-- The adjacency map built by the fold lists, per key, the pushed values
in order. -/
lemma buildAdj_aux : ∀ (pairs : List (PId × PId)) (m : PId → List PId) (v : PId),
    (pairs.foldl (fun m pr => addAdj m pr.1 pr.2) m) v
      = m v ++ ((pairs.filter fun pr => pr.1 == v).map Prod.snd) := by
  intro pairs
  induction pairs with
  | nil => intro m v; simp
  | cons pr ps ih =>
    intro m v
    show (ps.foldl _ (addAdj m pr.1 pr.2)) v = _
    rw [ih]
    by_cases hv : pr.1 = v
    · rw [List.filter_cons_of_pos (by simp [hv])]
      show (if v = pr.1 then m pr.1 ++ [pr.2] else m v) ++ _ = _
      rw [if_pos hv.symm, hv]
      simp
    · rw [List.filter_cons_of_neg (by simp [hv])]
      show (if v = pr.1 then m pr.1 ++ [pr.2] else m v) ++ _ = _
      rw [if_neg (fun hc => hv hc.symm)]

lemma buildAdj_eq (pairs : List (PId × PId)) (v : PId) :
    buildAdj pairs v = ((pairs.filter fun pr => pr.1 == v).map Prod.snd) := by
  unfold buildAdj
  rw [buildAdj_aux]
  rfl

/-- `flatMap` over a range where every block is empty. -/
lemma flatMap_range_nil {α : Type} (g : ℕ → List α) :
    ∀ n : ℕ, (∀ i, i < n → g i = []) → (List.range n).flatMap g = [] := by
  intro n
  induction n with
  | zero => intro _; rfl
  | succ n ih =>
    intro h
    rw [List.range_succ, List.flatMap_append,
      ih fun i hi => h i (by omega)]
    simp [h n (by omega)]

/-- `flatMap` over a range with exactly one non-empty (singleton) block. -/
lemma flatMap_range_one_spot {α : Type} (g : ℕ → List α) (A : α) :
    ∀ n a : ℕ, a < n → (∀ i, i < n → g i = if i = a then [A] else []) →
    (List.range n).flatMap g = [A] := by
  intro n
  induction n with
  | zero => intro a ha _; omega
  | succ n ih =>
    intro a ha h
    rw [List.range_succ, List.flatMap_append]
    by_cases han : a < n
    · rw [ih a han fun i hi => h i (by omega)]
      have : g n = [] := by rw [h n (by omega), if_neg (by omega)]
      simp [this]
    · have haeq : a = n := by omega
      rw [flatMap_range_nil g n fun i hi => by
        rw [h i (by omega), if_neg (by omega)]]
      have : g n = [A] := by rw [h n (by omega), if_pos haeq.symm]
      simp [this]

/-- `flatMap` over a range with exactly two non-empty (singleton) blocks. -/
lemma flatMap_range_two_spots {α : Type} (g : ℕ → List α) (A B : α) :
    ∀ n a b : ℕ, a < b → b < n →
    (∀ i, i < n → g i = if i = a then [A] else if i = b then [B] else []) →
    (List.range n).flatMap g = [A, B] := by
  intro n
  induction n with
  | zero => intro a b _ hb _; omega
  | succ n ih =>
    intro a b hab hb h
    rw [List.range_succ, List.flatMap_append]
    by_cases hbn : b < n
    · rw [ih a b hab hbn fun i hi => h i (by omega)]
      have : g n = [] := by rw [h n (by omega), if_neg (by omega), if_neg (by omega)]
      simp [this]
    · have hbeq : b = n := by omega
      rw [flatMap_range_one_spot g A n a (by omega) fun i hi => by
        rw [h i (by omega)]
        by_cases hia : i = a
        · rw [if_pos hia, if_pos hia]
        · rw [if_neg hia, if_neg hia, if_neg (by omega)]]
      have : g n = [B] := by
        rw [h n (by omega), if_neg (by omega), if_pos hbeq.symm]
      simp [this]

/-- Distinct positions of a `Nodup` list hold distinct values (stated via
`getD`). -/
lemma nodup_getD_inj {vs : List PId} (hnd : vs.Nodup) (i j : ℕ)
    (hi : i < vs.length) (hj : j < vs.length) :
    vs.getD i 0 = vs.getD j 0 ↔ i = j := by
  rw [List.getD_eq_getElem vs 0 hi, List.getD_eq_getElem vs 0 hj]
  exact List.Nodup.getElem_inj_iff hnd

/-- The walk of `polygons` around a stored cycle: from vertex `t` it visits
`t+1, …, k−1` and closes at vertex `0`, collecting each point once. -/
lemma walk_cycle (a : PolytopeArena) (adj : PId → List PId) (vs : List PId)
    (ptf : PId → Vec2) (k : ℕ) (hk : k = vs.length) (h3 : 3 ≤ k)
    (hnd : vs.Nodup)
    (hadj : ∀ t, 1 ≤ t → t < k →
      adj (vs.getD t 0) = [vs.getD (t - 1) 0, vs.getD ((t + 1) % k) 0])
    (hpts : ∀ v ∈ vs, unwrapPoint a v = Except.ok (ptf v)) :
    ∀ fuel t verts, 1 ≤ t → t < k → k - t < fuel →
      walkPolygon a adj (vs.getD 0 0) fuel (vs.getD (t - 1) 0) (vs.getD t 0) verts
        = Except.ok (verts ++ ((vs.drop (t + 1)).map ptf ++ [ptf (vs.getD 0 0)])) := by
  intro fuel
  induction fuel with
  | zero =>
    intro t verts h1 htk hfuel
    omega
  | succ fuel ih =>
    intro t verts h1 htk hfuel
    have hne : vs.getD t 0 ≠ vs.getD 0 0 := fun hc => by
      rw [nodup_getD_inj hnd t 0 (by omega) (by omega)] at hc
      omega
    unfold walkPolygon
    rw [if_neg hne, hadj t h1 htk]
    have hprev_ne : ¬ (decide (vs.getD (t - 1) 0 ≠ vs.getD (t - 1) 0)) = true := by
      simp
    have hmodlt : (t + 1) % k < k := Nat.mod_lt _ (by omega)
    have hnext_ne : (decide (vs.getD ((t + 1) % k) 0 ≠ vs.getD (t - 1) 0)) = true := by
      rw [decide_eq_true_eq]
      intro hc
      rw [nodup_getD_inj hnd ((t + 1) % k) (t - 1) (by omega) (by omega)] at hc
      by_cases hl : t + 1 < k
      · rw [Nat.mod_eq_of_lt hl] at hc
        omega
      · have hteq : t + 1 = k := by omega
        rw [hteq, Nat.mod_self] at hc
        omega
    have hne2 : vs.getD ((t + 1) % k) 0 ≠ vs.getD (t - 1) 0 :=
      of_decide_eq_true hnext_ne
    have hfind : List.find? (fun v => decide (v ≠ vs.getD (t - 1) 0))
        [vs.getD (t - 1) 0, vs.getD ((t + 1) % k) 0]
        = some (vs.getD ((t + 1) % k) 0) := by
      have e1 : List.find? (fun v => decide (v ≠ vs.getD (t - 1) 0))
          (vs.getD (t - 1) 0 :: [vs.getD ((t + 1) % k) 0])
          = List.find? (fun v => decide (v ≠ vs.getD (t - 1) 0))
            [vs.getD ((t + 1) % k) 0] := by
        apply List.find?_cons_of_neg
        exact hprev_ne
      have e2 : List.find? (fun v => decide (v ≠ vs.getD (t - 1) 0))
          [vs.getD ((t + 1) % k) 0] = some (vs.getD ((t + 1) % k) 0) := by
        apply List.find?_cons_of_pos
        exact hnext_ne
      exact e1.trans e2
    rw [hfind]
    simp only [pure, bind, Except.bind, Except.pure]
    have hmem : vs.getD ((t + 1) % k) 0 ∈ vs :=
      getD_mem vs _ 0 (by omega)
    rw [hpts _ hmem]
    simp only [bind, Except.bind]
    by_cases hlast : t + 1 < k
    · have hmod : (t + 1) % k = t + 1 := Nat.mod_eq_of_lt hlast
      rw [hmod]
      have hih := ih (t + 1) (verts ++ [ptf (vs.getD (t + 1) 0)]) (by omega) hlast
        (by omega)
      rw [show t + 1 - 1 = t from rfl] at hih
      rw [hih]
      have hdrop : vs.drop (t + 1)
          = vs.getD (t + 1) 0 :: vs.drop (t + 1 + 1) := by
        rw [List.drop_eq_getElem_cons (show t + 1 < vs.length by omega),
          List.getD_eq_getElem vs 0 (show t + 1 < vs.length by omega)]
      rw [hdrop]
      simp
    · have hteq : t + 1 = k := by omega
      have hmod : (t + 1) % k = 0 := by rw [hteq, Nat.mod_self]
      rw [hmod]
      have hdrop : vs.drop (t + 1) = [] := List.drop_eq_nil_of_le (by omega)
      rw [hdrop]
      cases fuel with
      | zero => omega
      | succ fuel2 =>
        unfold walkPolygon
        rw [if_pos rfl]
        simp
        rfl

/-- C2 (amended, positive half): when the stored edge list of the unique
live rank-2 node traces a single closed cycle `v_0 → … → v_(k-1) → v_0`,
`polygons` succeeds and emits exactly the cycle rotated by one — each
vertex's point appears exactly once, in adjacency order. -/
theorem c2_polygons_single_cycle (a : PolytopeArena) (fuel : ℕ)
    (p : Polytope2) (vs : List PId) (ptf : PId → Vec2)
    (hlive : ((a.polytopes.filterMap id).filter fun q => q.rank = 2) = [p])
    (hcyc : tracesCycle a p.children vs)
    (hpts : ∀ v ∈ vs, unwrapPoint a v = Except.ok (ptf v))
    (hfuel : vs.length ≤ fuel) :
    polygons a fuel = Except.ok [⟨(vs.rotate 1).map ptf⟩] := by
  obtain ⟨hlen, h3, hnd, hends⟩ := hcyc
  have hmapM : p.children.mapM (edgeEndpoints a)
      = Except.ok ((List.range p.children.length).map fun i =>
          (vs.getD i 0, vs.getD ((i + 1) % vs.length) 0)) := by
    apply mapM_ok_range (edgeEndpoints a) 0 p.children
    intro i hi
    rw [hlen] at hi
    exact hends i hi
  rw [hlen] at hmapM
  have hadjA : ∀ t, 1 ≤ t → t < vs.length →
      buildAdj (((List.range vs.length).map fun i =>
          (vs.getD i 0, vs.getD ((i + 1) % vs.length) 0)).flatMap
          fun pr => [(pr.1, pr.2), (pr.2, pr.1)]) (vs.getD t 0)
        = [vs.getD (t - 1) 0, vs.getD ((t + 1) % vs.length) 0] := by
    intro t h1 htk
    rw [buildAdj_eq, List.filter_flatMap, List.flatMap_map]
    have htwo : ∀ gfn : ℕ → List (PId × PId),
        (∀ i, i < vs.length → gfn i
          = if i = t - 1 then [(vs.getD t 0, vs.getD (t - 1) 0)]
            else if i = t then [(vs.getD t 0, vs.getD ((t + 1) % vs.length) 0)]
            else []) →
        (List.range vs.length).flatMap gfn
          = [(vs.getD t 0, vs.getD (t - 1) 0),
             (vs.getD t 0, vs.getD ((t + 1) % vs.length) 0)] := by
      intro gfn hgfn
      exact flatMap_range_two_spots gfn _ _ vs.length (t - 1) t (by omega) htk hgfn
    rw [htwo _ ?_]
    · rfl
    · intro i hi
      simp only []
      by_cases hit : i = t
      · subst hit
        have hc2lt : (i + 1) % vs.length < vs.length := Nat.mod_lt _ (by omega)
        have hc2 : ¬ (vs.getD ((i + 1) % vs.length) 0 == vs.getD i 0) = true := by
          simp only [beq_iff_eq]
          intro hc
          rw [nodup_getD_inj hnd ((i + 1) % vs.length) i hc2lt hi] at hc
          by_cases hl : i + 1 < vs.length
          · rw [Nat.mod_eq_of_lt hl] at hc
            omega
          · rw [show i + 1 = vs.length from by omega, Nat.mod_self] at hc
            omega
        rw [if_neg (by omega), if_pos rfl]
        simp only [List.filter_cons, List.filter_nil]
        rw [if_pos (show (vs.getD i 0 == vs.getD i 0) = true from by simp),
          if_neg hc2]
      · by_cases hit1 : i = t - 1
        · have hmm : (i + 1) % vs.length = t := by
            rw [show i + 1 = t from by omega, Nat.mod_eq_of_lt htk]
          rw [hmm, if_pos hit1]
          have hc1 : ¬ (vs.getD i 0 == vs.getD t 0) = true := by
            simp only [beq_iff_eq]
            intro hc
            rw [nodup_getD_inj hnd i t hi htk] at hc
            omega
          simp only [List.filter_cons, List.filter_nil]
          rw [if_neg hc1,
            if_pos (show (vs.getD t 0 == vs.getD t 0) = true from by simp)]
          rw [hit1]
        · have hc1 : ¬ (vs.getD i 0 == vs.getD t 0) = true := by
            simp only [beq_iff_eq]
            intro hc
            rw [nodup_getD_inj hnd i t hi htk] at hc
            omega
          have hc2 : ¬ (vs.getD ((i + 1) % vs.length) 0 == vs.getD t 0) = true := by
            simp only [beq_iff_eq]
            intro hc
            rw [nodup_getD_inj hnd ((i + 1) % vs.length) t
              (Nat.mod_lt _ (by omega)) htk] at hc
            by_cases hl : i + 1 < vs.length
            · rw [Nat.mod_eq_of_lt hl] at hc
              omega
            · rw [show i + 1 = vs.length from by omega, Nat.mod_self] at hc
              omega
          rw [if_neg hit1, if_neg hit]
          simp only [List.filter_cons, List.filter_nil]
          rw [if_neg hc1, if_neg hc2]
  have hempty : ¬ p.children.isEmpty = true := by
    cases hch : p.children with
    | nil =>
      rw [hch] at hlen
      simp at hlen
      omega
    | cons x rest => simp
  have hfirst : edgeEndpoints a (p.children.getD 0 0)
      = Except.ok (vs.getD 0 0, vs.getD 1 0) := by
    have h2 := hends 0 (by omega)
    rw [show (0 + 1) % vs.length = 1 from by
      rw [Nat.mod_eq_of_lt (by omega)]] at h2
    exact h2
  have hv1 : unwrapPoint a (vs.getD 1 0) = Except.ok (ptf (vs.getD 1 0)) :=
    hpts _ (getD_mem vs 1 0 (by omega))
  have hwalk := walk_cycle a
    (buildAdj (((List.range vs.length).map fun i =>
        (vs.getD i 0, vs.getD ((i + 1) % vs.length) 0)).flatMap
        fun pr => [(pr.1, pr.2), (pr.2, pr.1)]))
    vs ptf vs.length rfl h3 hnd hadjA hpts fuel 1 [ptf (vs.getD 1 0)]
    (by omega) (by omega) (by omega)
  rw [show (1 : ℕ) - 1 = 0 from rfl] at hwalk
  have hdrop1 : vs.drop 1 = vs.getD 1 0 :: vs.drop (1 + 1) := by
    rw [List.drop_eq_getElem_cons (show 1 < vs.length by omega),
      List.getD_eq_getElem vs 0 (show 1 < vs.length by omega)]
  have htake : vs.take 1 = [vs.getD 0 0] := by
    cases vs with
    | nil => simp at h3
    | cons x rest => rfl
  have hrot : (vs.rotate 1).map ptf
      = ptf (vs.getD 1 0) :: ((vs.drop (1 + 1)).map ptf ++ [ptf (vs.getD 0 0)]) := by
    rw [List.rotate_eq_drop_append_take (by omega), htake, hdrop1]
    simp
  have hpf : polygonFor a fuel p = Except.ok ⟨(vs.rotate 1).map ptf⟩ := by
    unfold polygonFor
    rw [hmapM]
    simp only [bind, Except.bind]
    rw [if_neg hempty, hfirst]
    simp only [bind, Except.bind]
    rw [hv1]
    simp only [bind, Except.bind]
    rw [hwalk]
    simp only [bind, Except.bind, pure, Except.pure, Except.ok.injEq]
    rw [hrot]
    rfl
  unfold polygons
  rw [hlive, List.mapM_cons, List.mapM_nil, hpf]
  simp only [bind, Except.bind, pure, Except.pure]

/-- An arena whose single rank-2 node owns six edges forming two disjoint
triangles (vertices 0-2 and 3-5): not a single closed cycle. -/
def c2Arena : PolytopeArena :=
  ⟨[some ⟨[], .point [0], .unknown⟩,
    some ⟨[], .point [1], .unknown⟩,
    some ⟨[], .point [2], .unknown⟩,
    some ⟨[], .point [3], .unknown⟩,
    some ⟨[], .point [4], .unknown⟩,
    some ⟨[], .point [5], .unknown⟩,
    some ⟨[], .branch 1 [0, 1], .unknown⟩,
    some ⟨[], .branch 1 [1, 2], .unknown⟩,
    some ⟨[], .branch 1 [2, 0], .unknown⟩,
    some ⟨[], .branch 1 [3, 4], .unknown⟩,
    some ⟨[], .branch 1 [4, 5], .unknown⟩,
    some ⟨[], .branch 1 [5, 3], .unknown⟩,
    some ⟨[], .branch 2 [6, 7, 8, 9, 10, 11], .unknown⟩], 12⟩

/-- C2 counterexample: the rank-2 node of `c2Arena` has six edges over six
distinct vertices forming two disjoint triangles — its edge list traces no
single closed cycle — yet `polygons` returns normally, silently emitting
only the component of the first edge (three of the six vertices). -/
theorem c2_counterexample :
    polygons c2Arena 10 = Except.ok [⟨[[1], [2], [0]]⟩] ∧
    ((c2Arena.polytopes.getD 12 none).map Polytope2.rank = some 2) ∧
    ((c2Arena.polytopes.getD 12 none).map Polytope2.children
      = some [6, 7, 8, 9, 10, 11]) ∧
    (([6, 7, 8, 9, 10, 11] : List PId).mapM (edgeEndpoints c2Arena)
      = Except.ok [(0, 1), (1, 2), (2, 0), (3, 4), (4, 5), (5, 3)]) ∧
    ¬ ∃ vs, tracesCycle c2Arena [6, 7, 8, 9, 10, 11] vs := by
  refine ⟨by with_unfolding_all rfl, rfl, rfl, by with_unfolding_all rfl, ?_⟩
  rintro ⟨vs, hlen, hge3, hnd, hends⟩
  have hL : vs.length = 6 := by simpa using hlen.symm
  have h2 := hends 2 (by omega)
  have h3 := hends 3 (by omega)
  rw [hL] at h2 h3
  have e8 : edgeEndpoints c2Arena (([6, 7, 8, 9, 10, 11] : List PId).getD 2 0)
      = Except.ok (2, 0) := by with_unfolding_all rfl
  have e9 : edgeEndpoints c2Arena (([6, 7, 8, 9, 10, 11] : List PId).getD 3 0)
      = Except.ok (3, 4) := by with_unfolding_all rfl
  have q2 := e8.symm.trans h2
  have q3 := e9.symm.trans h3
  simp only [Except.ok.injEq, Prod.mk.injEq] at q2 q3
  have hv1 : (0 : PId) = vs.getD ((2 + 1) % 6) 0 := q2.2
  have hv2 : (3 : PId) = vs.getD 3 0 := q3.1
  rw [show ((2 + 1) % 6 : ℕ) = 3 from rfl] at hv1
  rw [← hv1] at hv2
  exact absurd hv2 (by norm_num)

/-- A single triangle: vertices 0-2, edges 3-5 in cycle order, face 6. -/
def c2CycleArena : PolytopeArena :=
  ⟨[some ⟨[], .point [0], .unknown⟩,
    some ⟨[], .point [1], .unknown⟩,
    some ⟨[], .point [2], .unknown⟩,
    some ⟨[], .branch 1 [0, 1], .unknown⟩,
    some ⟨[], .branch 1 [1, 2], .unknown⟩,
    some ⟨[], .branch 1 [2, 0], .unknown⟩,
    some ⟨[], .branch 2 [3, 4, 5], .unknown⟩], 6⟩

/-- C2 witness: on the single triangle, `polygons` emits the cycle rotated
by one. -/
theorem c2_polygons_single_cycle_witness :
    ((((c2CycleArena.polytopes.filterMap id).filter fun q => q.rank = 2)
        = [⟨[], .branch 2 [3, 4, 5], .unknown⟩])
      ∧ tracesCycle c2CycleArena
          (Polytope2.children ⟨[], .branch 2 [3, 4, 5], .unknown⟩) [0, 1, 2]
      ∧ (∀ v ∈ ([0, 1, 2] : List PId),
          unwrapPoint c2CycleArena v = Except.ok [(v : ℚ)])
      ∧ ([0, 1, 2] : List PId).length ≤ 5) ∧
    polygons c2CycleArena 5
      = Except.ok [⟨(([0, 1, 2] : List PId).rotate 1).map fun v => [(v : ℚ)]⟩] := by
  have h1 : ((c2CycleArena.polytopes.filterMap id).filter fun q => q.rank = 2)
      = [⟨[], .branch 2 [3, 4, 5], .unknown⟩] := by with_unfolding_all rfl
  have h2 : tracesCycle c2CycleArena
      (Polytope2.children ⟨[], .branch 2 [3, 4, 5], .unknown⟩) [0, 1, 2] := by
    refine ⟨rfl, by norm_num, by decide, ?_⟩
    intro i hi
    have hi3 : i < 3 := by simpa using hi
    interval_cases i
    · with_unfolding_all rfl
    · with_unfolding_all rfl
    · with_unfolding_all rfl
  have hp : ∀ v ∈ ([0, 1, 2] : List PId),
      unwrapPoint c2CycleArena v = Except.ok [(v : ℚ)] := by
    intro v hv
    simp only [List.mem_cons, List.not_mem_nil, or_false] at hv
    rcases hv with rfl | rfl | rfl
    · with_unfolding_all rfl
    · with_unfolding_all rfl
    · with_unfolding_all rfl
  have h4 : ([0, 1, 2] : List PId).length ≤ 5 := by norm_num
  exact ⟨⟨h1, h2, hp, h4⟩,
    c2_polygons_single_cycle c2CycleArena 5 _ [0, 1, 2] (fun v => [(v : ℚ)])
      h1 h2 hp h4⟩

/-! ## Claim C10: `shape_geom` with no base facets panics first -/

/-- C10 (confirmed): for every magnitude function, dimension, generator set
and fuel, `shape_geom` with an empty `base_facets` slice fails with exactly
the `expect("no base facets")` panic — before any polytope arena is
constructed or any polygon returned. -/
theorem c10_shape_geom_empty_facets (mag : Vec2 → ℚ) (ndim : ℕ)
    (generators : List Matrix) (orbitFuel sliceFuel polyFuel : ℕ) :
    shape_geom mag ndim generators [] orbitFuel sliceFuel polyFuel
      = Except.error "no base facets" := rfl

end Cox
